import Mathlib

/-!
# passport_validator: a shallow embedding of `passport_validator.go`

The Go package validates the fields of a Russian internal passport.  Every
exported function is a pure function of its arguments.  This development
embeds the functions in Lean and proves the properties its specification
states about them.

Conventions of the embedding

* A Go `string` is an arbitrary sequence of bytes: `GoString := List Byte`
  with `Byte := Fin 256`.  A `for _, c := range s` loop and the `regexp`
  package both read such a string rune by rune, decoding UTF-8 and yielding
  `U+FFFD` for a byte that starts no valid encoding; `runes` embeds this.
* A Go `error` result is `Option Err`: `none` is `nil`.  The one function
  with a slice expression, `IsPassportSeriesValid`, returns
  `Except Panic (Option Err)`, so that an index out of range is a result of
  its own and not an error value.
* A Go `int` is a Lean `Int`.  The package does arithmetic on calendar
  years and on two-digit numbers only, far from the 64-bit bounds.
* A `time.Time` is an instant (seconds and nanoseconds since
  0001-01-01 00:00:00 UTC) together with the offset of its location, taken
  to be a fixed-offset zone (`time.UTC` is the offset 0).  The seconds are
  an `int64` in Go: `time.Date` and `AddDate` wrap as package `time` does
  (`toInt64`, `toUint64`), and `Time.Representable` and `Time.AddDateFits`
  say of a time that nothing wraps.  Monotonic clock readings are left out:
  `After` compares the instants, as it does for every time built by
  `time.Date`.
-/

namespace PassportValidator

/-! ## Errors -/

/-- The package-level error values (`var ( Err... = errors.New(...) )`). -/
inductive Err where
  | ErrEmptyLastName
  | ErrEmptyFirstName
  | ErrEmptyPassportSeries
  | ErrInvalidPassportSeries
  | ErrInvalidPassportSeriesNot4Digits
  | ErrEmptyPassportNumber
  | ErrInvalidPassportNumber
  | ErrInvalidIssueDateBefore14Birthday
  | ErrEmptyIssueDate
  | ErrEmptyBirthday
  | ErrEmptyIssuedCode
  | ErrInvalidIssuedCode
  | ErrInvalidBirthday
  | ErrNonCyrillicCharacter
  | ErrIssueDatePassportInFuture
  | ErrIssueDatePassportExpiredAt20
  | ErrIssueDatePassportExpiredAt45
  deriving DecidableEq, Repr

open Err

/-- The constant `Age20PassportChange`. -/
def Age20PassportChange : Int := 20

/-- The constant `Age45PassportChange`. -/
def Age45PassportChange : Int := 45

/-- The constant `PassportDaysValidity`. -/
def PassportDaysValidity : Int := 91

/-! ## Strings and runes -/

/-- One byte of a Go string. -/
abbrev Byte := Fin 256

/-- A Go string: a sequence of bytes, not necessarily valid UTF-8. -/
abbrev GoString := List Byte

/-- The rune `utf8.RuneError`, U+FFFD. -/
def RuneError : Nat := 0xFFFD

/-- A UTF-8 continuation byte, `0x80..0xBF`. -/
def isCont (b : Byte) : Bool := 0x80 ≤ b.val && b.val ≤ 0xBF

/-- The lowest second byte `utf8` accepts after the leading byte `b0` of a
three- or four-byte encoding (the `acceptRanges` table). -/
def acceptLo (b0 : Byte) : Nat :=
  if b0.val = 0xE0 then 0xA0 else if b0.val = 0xF0 then 0x90 else 0x80

/-- The highest second byte `utf8` accepts after the leading byte `b0`. -/
def acceptHi (b0 : Byte) : Nat :=
  if b0.val = 0xED then 0x9F else if b0.val = 0xF4 then 0x8F else 0xBF

/-- Embeds `utf8.DecodeRuneInString` on a non-empty string `b0 :: rest`: the
first rune and its width in bytes.  A byte that starts no valid encoding
decodes to `(RuneError, 1)`. -/
def decodeRune (b0 : Byte) (rest : GoString) : Nat × Nat :=
  if b0.val < 0x80 then (b0.val, 1)
  else if 0xC2 ≤ b0.val ∧ b0.val ≤ 0xDF then
    match rest with
    | b1 :: _ =>
      if isCont b1 then ((b0.val - 0xC0) * 64 + (b1.val - 0x80), 2) else (RuneError, 1)
    | [] => (RuneError, 1)
  else if 0xE0 ≤ b0.val ∧ b0.val ≤ 0xEF then
    match rest with
    | b1 :: b2 :: _ =>
      if acceptLo b0 ≤ b1.val ∧ b1.val ≤ acceptHi b0 ∧ isCont b2 then
        ((b0.val - 0xE0) * 4096 + (b1.val - 0x80) * 64 + (b2.val - 0x80), 3)
      else (RuneError, 1)
    | _ => (RuneError, 1)
  else if 0xF0 ≤ b0.val ∧ b0.val ≤ 0xF4 then
    match rest with
    | b1 :: b2 :: b3 :: _ =>
      if acceptLo b0 ≤ b1.val ∧ b1.val ≤ acceptHi b0 ∧ isCont b2 ∧ isCont b3 then
        ((b0.val - 0xF0) * 262144 + (b1.val - 0x80) * 4096 + (b2.val - 0x80) * 64
          + (b3.val - 0x80), 4)
      else (RuneError, 1)
    | _ => (RuneError, 1)
  else (RuneError, 1)

/-- The loop of `for _, c := range s`: `skip` bytes of the rune decoded last
are still to be stepped over; then the next rune is decoded and the index
advanced by its width. -/
def runesAux : Nat → GoString → List Nat
  | _, [] => []
  | skip + 1, _ :: rest => runesAux skip rest
  | 0, b0 :: rest => (decodeRune b0 rest).1 :: runesAux ((decodeRune b0 rest).2 - 1) rest

/-- The runes `for _, c := range s` yields, in order. -/
def runes (s : GoString) : List Nat := runesAux 0 s

/-- UTF-8 encoding of one code point (`utf8.AppendRune` on a valid rune). -/
def encodeRune (r : Nat) : GoString :=
  if r < 0x80 then [Fin.ofNat r]
  else if r < 0x800 then [Fin.ofNat (0xC0 + r / 64), Fin.ofNat (0x80 + r % 64)]
  else if r < 0x10000 then
    [Fin.ofNat (0xE0 + r / 4096), Fin.ofNat (0x80 + r / 64 % 64), Fin.ofNat (0x80 + r % 64)]
  else
    [Fin.ofNat (0xF0 + r / 262144), Fin.ofNat (0x80 + r / 4096 % 64),
      Fin.ofNat (0x80 + r / 64 % 64), Fin.ofNat (0x80 + r % 64)]

/-- The Go string a source literal denotes: the UTF-8 bytes of its code points. -/
def lit (cs : List Nat) : GoString := cs.flatMap encodeRune

/-- The Go string a Lean string literal denotes. -/
def str (s : String) : GoString := lit (s.toList.map Char.toNat)

/-! ## `unicode.Is` and the Cyrillic table -/

/-- One entry of a `unicode.RangeTable`: the code points `lo, lo + stride, ...`
up to `hi`. -/
structure Range where
  lo : Nat
  hi : Nat
  stride : Nat
  deriving Repr

/-- Embeds `unicode.Is`: the rune lies in one of the table's ranges. -/
def unicodeIs (tab : List Range) (r : Nat) : Bool :=
  tab.any fun rg => rg.lo ≤ r && r ≤ rg.hi && (r - rg.lo) % rg.stride == 0

/-- The table `unicode.Cyrillic` of the Go standard library (Unicode 15.0.0):
the code points of the Cyrillic script. -/
def Cyrillic : List Range :=
  [ ⟨0x0400, 0x0484, 1⟩, ⟨0x0487, 0x052F, 1⟩, ⟨0x1C80, 0x1C88, 1⟩,
    ⟨0x1D2B, 0x1D78, 77⟩, ⟨0x2DE0, 0x2DFF, 1⟩, ⟨0xA640, 0xA69F, 1⟩,
    ⟨0xFE2E, 0xFE2F, 1⟩, ⟨0x1E030, 0x1E06D, 1⟩, ⟨0x1E08F, 0x1E08F, 1⟩ ]

/-! ## Name validators -/

/-- The map literal `allowedCharacters` of `nameValidator`: its keys, all
mapped to `true`: `-`, space, `.`, `,`, `I`, `V`, apostrophe, `(`, `)`. -/
def allowedCharacters : List Nat :=
  [0x2D, 0x20, 0x2E, 0x2C, 0x49, 0x56, 0x27, 0x28, 0x29]

/-- The body of the loop of `nameValidator` over the runes still to be read:
return `ErrNonCyrillicCharacter` at the first rune that is neither Cyrillic
nor a key of `allowedCharacters`. -/
def nameValidatorLoop : List Nat → Option Err
  | [] => none
  | c :: cs =>
    if !unicodeIs Cyrillic c && !allowedCharacters.contains c then
      some ErrNonCyrillicCharacter
    else nameValidatorLoop cs

/-- Embeds `nameValidator`. -/
def nameValidator (s : GoString) : Option Err := nameValidatorLoop (runes s)

/-- Embeds `IsPassportLastNameValid`. -/
def IsPassportLastNameValid (lastName : GoString) : Option Err :=
  if lastName = [] then some ErrEmptyLastName else nameValidator lastName

/-- Embeds `IsPassportFirstNameValid`. -/
def IsPassportFirstNameValid (firstName : GoString) : Option Err :=
  if firstName = [] then some ErrEmptyFirstName else nameValidator firstName

/-- Embeds `IsPassportMiddleNameValid`. -/
def IsPassportMiddleNameValid (middleName : GoString) : Option Err :=
  nameValidator middleName

/-! ## Regular expressions

The package compiles three patterns with `regexp.MustCompile` and applies
`MatchString`.  All three have the shape `^e$`, where `e` is built from the
class `\d` (the ASCII digits in Go's RE2 syntax), a literal, `e?`, `e{n}` and
concatenation.  Without the `m` flag `^` and `$` match at the beginning and
at the end of the text only. -/

/-- The body `e` of an anchored pattern `^e$`. -/
inductive Regex where
  | eps : Regex
  | digit : Regex
  | char (r : Nat) : Regex
  | opt (e : Regex) : Regex
  | seq (e₁ e₂ : Regex) : Regex
  deriving Repr

/-- The counted repetition `e{n}`: `n` copies of `e` in sequence. -/
def Regex.rep : Nat → Regex → Regex
  | 0, _ => Regex.eps
  | n + 1, e => Regex.seq e (Regex.rep n e)

/-- The class `\d` on a rune: `0` to `9`. -/
def isDigitRune (r : Nat) : Bool := 0x30 ≤ r && r ≤ 0x39

/-- All the ways `e` matches a prefix of the runes `l`: the list of what is
left of `l` after each of them. -/
def Regex.step : Regex → List Nat → List (List Nat)
  | Regex.eps, l => [l]
  | Regex.digit, [] => []
  | Regex.digit, c :: cs => if isDigitRune c then [cs] else []
  | Regex.char _, [] => []
  | Regex.char r, c :: cs => if c = r then [cs] else []
  | Regex.opt e, l => e.step l ++ [l]
  | Regex.seq e₁ e₂, l => (e₁.step l).flatMap e₂.step

/-- Embeds `(*Regexp).MatchString` for the pattern `^e$`: some match of `e`
consumes the whole text. -/
def MatchString (e : Regex) (s : GoString) : Bool :=
  (e.step (runes s)).any List.isEmpty

/-- The pattern `^\d{4}$`. -/
def passportSeriesRegexp : Regex := Regex.rep 4 Regex.digit

/-- The pattern `^\d{6}$`. -/
def passportNumberRegexp : Regex := Regex.rep 6 Regex.digit

/-- The pattern `^\d{3}\-?\d{3}$`. -/
def issuedCodeRegexp : Regex :=
  Regex.seq (Regex.rep 3 Regex.digit)
    (Regex.seq (Regex.opt (Regex.char 0x2D)) (Regex.rep 3 Regex.digit))

/-! ## `strconv.Atoi` and slicing -/

/-- An ASCII digit byte. -/
def isDigitByte (b : Byte) : Bool := 0x30 ≤ b.val && b.val ≤ 0x39

/-- The value of a string of decimal digits. -/
def digitsValue (ds : GoString) : Nat :=
  ds.foldl (fun acc b => acc * 10 + (b.val - 0x30)) 0

/-- Embeds `strconv.Atoi` for a 64-bit `int`: an optional sign, then one or
more decimal digits; `none` is a non-nil error (syntax or range). -/
def Atoi (s : GoString) : Option Int :=
  let neg : Bool := match s with
    | b :: _ => b.val = 0x2D
    | [] => false
  let ds : GoString := match s with
    | b :: t => if b.val = 0x2D ∨ b.val = 0x2B then t else s
    | [] => s
  if ds = [] then none
  else if ds.all isDigitByte then
    let v : Int := if neg then -(digitsValue ds : Int) else (digitsValue ds : Int)
    if -(2 ^ 63 : Int) ≤ v ∧ v < (2 ^ 63 : Int) then some v else none
  else none

/-- The run-time panics a function of the package can raise. -/
inductive Panic where
  | sliceBoundsOutOfRange
  deriving DecidableEq, Repr

deriving instance DecidableEq for Except

/-- The slice expression `s[i:]`; it panics unless `0 ≤ i ≤ len(s)`. -/
def sliceFrom (s : GoString) (i : Int) : Except Panic GoString :=
  if 0 ≤ i ∧ i ≤ (s.length : Int) then Except.ok (s.drop i.toNat)
  else Except.error Panic.sliceBoundsOutOfRange

/-! ## `time.Time`

An instant is counted in seconds from 0001-01-01 00:00:00 UTC, the instant
`IsZero` tests for.  The location is a fixed offset in seconds east of UTC.
The calendar is the proleptic Gregorian one, as in package `time`.

Package `time` keeps the seconds in an `int64` and computes dates on the
`uint64` seconds since its absolute epoch, January 1 of the year
`absoluteZeroYear`; both wrap.  `toInt64` and `toUint64` are the two
conversions, and `Time.abs`, `absDaysSinceEpoch` and `mkDate` apply them
where package `time` does. -/

/-- A `time.Time` value. -/
structure Time where
  sec : Int
  nsec : Nat
  offset : Int
  deriving DecidableEq, Repr

/-- The function `isLeap` of package `time`. -/
def isLeap (year : Int) : Bool :=
  year % 4 == 0 && (year % 100 != 0 || year % 400 == 0)

/-- The table `daysBefore` of package `time`: `daysBefore m` is the number of
days of a non-leap year before month `m + 1`. -/
def daysBefore (m : Int) : Int :=
  if m ≤ 0 then 0 else if m = 1 then 31 else if m = 2 then 59 else if m = 3 then 90
  else if m = 4 then 120 else if m = 5 then 151 else if m = 6 then 181
  else if m = 7 then 212 else if m = 8 then 243 else if m = 9 then 273
  else if m = 10 then 304 else if m = 11 then 334 else 365

/-- The function `daysIn` of package `time`: the number of days of a month of
a year. -/
def daysIn (month year : Int) : Int :=
  if month = 2 ∧ isLeap year = true then 29
  else daysBefore month - daysBefore (month - 1)

/-- The days from 0001-01-01 to January 1 of `year`, by cycles of 400, 100,
4 and 1 years: the count of `absDaysSinceEpoch` moved to the year 1, without
the conversion to `uint64`. -/
def daysSinceEpoch (year : Int) : Int :=
  let y := year - 1
  let n400 := y / 400
  let y400 := y - 400 * n400
  let n100 := y400 / 100
  let y100 := y400 - 100 * n100
  let n4 := y100 / 4
  let y4 := y100 - 4 * n4
  146097 * n400 + 36524 * n100 + 1461 * n4 + 365 * y4

/-- The year and the zero-based day of the year of the day `d` counted from
0001-01-01 (`absDate` of package `time`). -/
def absDate (d : Int) : Int × Int :=
  let n400 := d / 146097
  let d400 := d - 146097 * n400
  let n100' := d400 / 36524
  let n100 := n100' - n100' / 4
  let d100 := d400 - 36524 * n100
  let n4 := d100 / 1461
  let d4 := d100 - 1461 * n4
  let n1' := d4 / 365
  let n1 := n1' - n1' / 4
  let yday := d4 - 365 * n1
  (400 * n400 + 100 * n100 + 4 * n4 + n1 + 1, yday)

/-- The constant `absoluteZeroYear` of package `time`: the year of the
absolute epoch. -/
def absoluteZeroYear : Int := -292277022399

/-- The constant `internalToAbsolute` of package `time`: the seconds from the
absolute epoch to 0001-01-01 00:00:00 UTC. -/
def internalToAbsolute : Int := 9223371966579724800

/-- The days from the absolute epoch to 0001-01-01: 730692556 cycles of 400
years, `internalToAbsolute` in days. -/
def daysToYearOne : Int := 106751990353932

/-- The conversion of an integer to `uint64`. -/
def toUint64 (x : Int) : Int := x % 18446744073709551616

/-- The conversion of an integer to `int64`. -/
def toInt64 (x : Int) : Int :=
  (x + 9223372036854775808) % 18446744073709551616 - 9223372036854775808

/-- Embeds `Time.abs`: the seconds of the local time of `t` since the
absolute epoch, a `uint64`. -/
def Time.abs (t : Time) : Int := toUint64 (t.sec + t.offset + internalToAbsolute)

/-- The days from 0001-01-01 to the local calendar day of `t`: the days since
the absolute epoch, less the whole 400-year cycles up to the year 1. -/
def Time.localDays (t : Time) : Int := t.abs / 86400 - daysToYearOne

/-- The seconds elapsed in the local calendar day of `t` (`t.Clock()`). -/
def Time.localClock (t : Time) : Int := t.abs % 86400

/-- The function `daysSinceEpoch` of package `time`: the days from the
absolute epoch to January 1 of `year`, by cycles of 400, 100, 4 and 1 years
of the `uint64` count of years since the absolute epoch. -/
def absDaysSinceEpoch (year : Int) : Int :=
  let y := toUint64 (year - absoluteZeroYear)
  let n400 := y / 400
  let y400 := y - 400 * n400
  let n100 := y400 / 100
  let y100 := y400 - 100 * n100
  let n4 := y100 / 4
  let y4 := y100 - 4 * n4
  146097 * n400 + 36524 * n100 + 1461 * n4 + 365 * y4

/-- Embeds `Time.Year`. -/
def Time.Year (t : Time) : Int := (absDate t.localDays).1

/-- Embeds `Time.Date`: the year, the month (1 to 12) and the day of the month. -/
def Time.Date (t : Time) : Int × Int × Int :=
  let year := (absDate t.localDays).1
  let yday := (absDate t.localDays).2
  if isLeap year ∧ yday = 31 + 29 - 1 then (year, 2, 29)
  else
    let day := if isLeap year ∧ yday > 31 + 29 - 1 then yday - 1 else yday
    let month := day / 31
    let e := daysBefore (month + 1)
    if day ≥ e then (year, month + 2, day - e + 1)
    else (year, month + 1, day - daysBefore month + 1)

/-- The seconds `time.Date` computes before it converts them to `int64`:
the month is normalised into the year, the day and the seconds of the day are
added as they are, and the result is counted from 0001-01-01 00:00:00 UTC. -/
def mkDateSeconds (year month day clock offset : Int) : Int :=
  let m := month - 1
  let year' := year + m / 12
  let month' := m % 12 + 1
  let d := absDaysSinceEpoch year' + daysBefore (month' - 1)
    + (if isLeap year' ∧ month' ≥ 3 then 1 else 0) + (day - 1)
  d * 86400 + clock - internalToAbsolute - offset

/-- Embeds `time.Date(year, month, day, 0, 0, clock, nsec, loc)` for a
fixed-offset location. -/
def mkDate (year month day clock : Int) (nsec : Nat) (offset : Int) : Time :=
  { sec := toInt64 (mkDateSeconds year month day clock offset), nsec := nsec,
    offset := offset }

/-- The time `time.Date(year, month, day, 0, 0, 0, 0, time.UTC)`. -/
def dateUTC (year month day : Int) : Time := mkDate year month day 0 0 0

/-- Embeds `Time.IsZero`. -/
def Time.IsZero (t : Time) : Bool := t.sec == 0 && t.nsec == 0

/-- Embeds `Time.After`. -/
def Time.After (t u : Time) : Bool :=
  decide (t.sec > u.sec) || (t.sec == u.sec && decide (t.nsec > u.nsec))

/-- Embeds `Time.AddDate`. -/
def Time.AddDate (t : Time) (years months days : Int) : Time :=
  mkDate (t.Date.1 + years) (t.Date.2.1 + months) (t.Date.2.2 + days)
    t.localClock t.nsec t.offset

/-! ## Series, number, issuer code -/

/-- Embeds `IsPassportSeriesValid`. -/
def IsPassportSeriesValid (series : GoString) (checkDate : Time) :
    Except Panic (Option Err) :=
  if series = [] then Except.ok (some ErrEmptyPassportSeries)
  else if !MatchString passportSeriesRegexp series then
    Except.ok (some ErrInvalidPassportSeriesNot4Digits)
  else
    let blankReleaseDate := dateUTC 1997 1 1
    let nowYear := checkDate.Year
    match sliceFrom series ((series.length : Int) - 2) with
    | Except.error p => Except.error p
    | Except.ok issueYear =>
      match Atoi issueYear with
      | none => Except.ok (some ErrInvalidPassportSeriesNot4Digits)
      | some issueYearInt =>
        let issueYearInt :=
          if issueYearInt ≤ Int.tmod nowYear 100 + 5 then issueYearInt + 2000
          else issueYearInt + 1900
        if issueYearInt < blankReleaseDate.Year ∨ issueYearInt > nowYear + 5 then
          Except.ok (some ErrInvalidPassportSeries)
        else Except.ok none

/-- Embeds `IsPassportNumberValid`. -/
def IsPassportNumberValid (number : GoString) : Option Err :=
  if number = [] then some ErrEmptyPassportNumber
  else if !MatchString passportNumberRegexp number then some ErrInvalidPassportNumber
  else none

/-- Embeds `IsPassportIssuerCodeValid`. -/
def IsPassportIssuerCodeValid (issuedCode : GoString) : Option Err :=
  if issuedCode = [] then some ErrEmptyIssuedCode
  else if !MatchString issuedCodeRegexp issuedCode then some ErrInvalidIssuedCode
  else none

/-! ## Issue date and birthday -/

/-- Embeds `IsPassportIssueDateValid`. -/
def IsPassportIssueDateValid (issueDate birthday checkDate : Time) : Option Err :=
  if issueDate.IsZero then some ErrEmptyIssueDate
  else if birthday.IsZero then some ErrEmptyBirthday
  else
    let ageAtIssue := issueDate.Year - birthday.Year
    if ageAtIssue < 14 then some ErrInvalidIssueDateBefore14Birthday
    else if issueDate.After checkDate then some ErrIssueDatePassportInFuture
    else
      let expired20 : Option Err :=
        if ageAtIssue < 20 then
          let expirationDate := birthday.AddDate Age20PassportChange 0 PassportDaysValidity
          if checkDate.After expirationDate then some ErrIssueDatePassportExpiredAt20
          else none
        else none
      match expired20 with
      | some err => some err
      | none =>
        if ageAtIssue < 45 then
          let expirationDate := birthday.AddDate Age45PassportChange 0 PassportDaysValidity
          if checkDate.After expirationDate then some ErrIssueDatePassportExpiredAt45
          else none
        else none

/-- Embeds `IsPassportBirthdayValid`. -/
def IsPassportBirthdayValid (birthday checkDate : Time) : Option Err :=
  if birthday.IsZero then some ErrInvalidBirthday
  else if birthday.After checkDate then some ErrInvalidBirthday
  else if birthday.After (checkDate.AddDate (-18) 0 0) then some ErrInvalidBirthday
  else none

/-! ## Normalizers

Both normalizers keep their rules in a Go map and range over it once in every
pass of the loop.  The order in which a `range` visits the keys of a map is
not specified and may differ from pass to pass, so the functions take the
order as an argument: `order pass` is the sequence in which the pass numbered
`pass` visits the rules, a permutation of the map (`MapOrder`).  The loop has
no bound of its own; `fuel` is the number of passes it may run, and `none` is
the loop still running when the fuel is used up. -/

/-- The scan of `strings.Replace(s, old, new, -1)` for a non-empty `old`:
`skip` bytes of the occurrence found last are still to be stepped over; then
an occurrence of `old` that starts here is replaced by `new`, and any other
byte is copied. -/
def replaceAux (old new : GoString) : Nat → GoString → GoString
  | _, [] => []
  | skip + 1, _ :: rest => replaceAux old new skip rest
  | 0, b :: rest =>
    if old.isPrefixOf (b :: rest) then new ++ replaceAux old new (old.length - 1) rest
    else b :: replaceAux old new 0 rest

/-- Embeds `strings.Replace(s, old, new, -1)` for a non-empty `old`: every
occurrence of `old`, found from left to right without overlap, is replaced. -/
def Replace (s old new : GoString) : GoString := replaceAux old new 0 s

/-- The inner loop `for from, to := range replaces` over the rules in the
order the iteration visits them; the state is the string and `findReplace`. -/
def rangeReplaces : List (GoString × GoString) → GoString × Bool → GoString × Bool
  | [], state => state
  | (from', to') :: rest, (s, findReplace) =>
    if Replace s from' to' ≠ s then rangeReplaces rest (Replace s from' to', true)
    else rangeReplaces rest (s, findReplace)

/-- The outer loop `for findReplace { findReplace = false; ... }`: each pass
sets `findReplace` to false, ranges over the rules, and the loop ends after
the first pass that leaves `findReplace` false. -/
def normalizeLoop (order : Nat → List (GoString × GoString)) :
    Nat → Nat → GoString → Option GoString
  | 0, _, _ => none
  | fuel + 1, pass, s =>
    if (rangeReplaces (order pass) (s, false)).2 then
      normalizeLoop order fuel (pass + 1) (rangeReplaces (order pass) (s, false)).1
    else some (rangeReplaces (order pass) (s, false)).1

/-- An iteration order of a map: every pass visits every rule once. -/
def MapOrder (replaces : List (GoString × GoString))
    (order : Nat → List (GoString × GoString)) : Prop :=
  ∀ pass, (order pass).Perm replaces

/-- The map `replaces` of `PassportPlaceOfBirthNormalize`, in the order of
the source: two spaces, two hyphens, space-hyphen, hyphen-space. -/
def placeOfBirthReplaces : List (GoString × GoString) :=
  [ ([0x20, 0x20], [0x20]), ([0x2D, 0x2D], [0x2D]), ([0x20, 0x2D], [0x2D]),
    ([0x2D, 0x20], [0x2D]) ]

/-- The map `replaces` of `PassportIssuedByNormalize`, in the order of the
source: two spaces, two periods, two commas, two double quotes, two single
quotes. -/
def issuedByReplaces : List (GoString × GoString) :=
  [ ([0x20, 0x20], [0x20]), ([0x2E, 0x2E], [0x2E]), ([0x2C, 0x2C], [0x2C]),
    ([0x22, 0x22], [0x22]), ([0x27, 0x27], [0x27]) ]

/-- Embeds `PassportPlaceOfBirthNormalize`. -/
def PassportPlaceOfBirthNormalize (order : Nat → List (GoString × GoString)) (fuel : Nat)
    (placeOfBirth : GoString) : Option GoString :=
  if placeOfBirth = [] then some []
  else normalizeLoop order fuel 0 placeOfBirth

/-- Embeds `PassportIssuedByNormalize`. -/
def PassportIssuedByNormalize (order : Nat → List (GoString × GoString)) (fuel : Nat)
    (issuedBy : GoString) : Option GoString :=
  if issuedBy = [] then some []
  else normalizeLoop order fuel 0 issuedBy

/-- The iteration order that visits the rules as the source lists them, in
every pass. -/
def sourceOrder (replaces : List (GoString × GoString)) :
    Nat → List (GoString × GoString) :=
  fun _ => replaces

/-! ## Notions the specification is stated with -/

/-- The characters a name may hold: a rune of the Cyrillic script or one of
`-`, space, `.`, `,`, `I`, `V`, apostrophe, `(`, `)`. -/
def allowedRune (c : Nat) : Prop :=
  unicodeIs Cyrillic c = true ∨ c ∈ [0x2D, 0x20, 0x2E, 0x2C, 0x49, 0x56, 0x27, 0x28, 0x29]

instance (c : Nat) : Decidable (allowedRune c) := by
  unfold allowedRune; infer_instance

/-- The texts a pattern body denotes, as sequences of runes. -/
def Regex.Matches : Regex → List Nat → Prop
  | Regex.eps, p => p = []
  | Regex.digit, p => ∃ c, p = [c] ∧ isDigitRune c = true
  | Regex.char r, p => p = [r]
  | Regex.opt e, p => p = [] ∨ e.Matches p
  | Regex.seq e₁ e₂, p => ∃ p₁ p₂, p = p₁ ++ p₂ ∧ e₁.Matches p₁ ∧ e₂.Matches p₂

/-- The text consists of exactly `n` ASCII decimal digits. -/
def asciiDigits (n : Nat) (s : GoString) : Prop :=
  s.length = n ∧ ∀ b ∈ s, 0x30 ≤ b.val ∧ b.val ≤ 0x39

instance (n : Nat) (s : GoString) : Decidable (asciiDigits n s) :=
  decidable_of_iff (s.length = n ∧ s.all isDigitByte = true)
    (by simp [asciiDigits, isDigitByte])

/-- The text has one of the forms `NNNNNN` and `NNN-NNN`. -/
def issuerCodeForm (s : GoString) : Prop :=
  asciiDigits 6 s ∨ ∃ p q : GoString, asciiDigits 3 p ∧ asciiDigits 3 q ∧ s = p ++ 0x2D :: q

/-- The number the last two digits of a four-digit series read as. -/
def twoDigitYear (series : GoString) : Int :=
  match series with
  | [_, _, c, d] => ((c.val : Int) - 0x30) * 10 + ((d.val : Int) - 0x30)
  | _ => 0

/-- The year a two-digit year `Y` resolves to when the check date lies in the
calendar year `N`: `2000 + Y` when `Y ≤ (N mod 100) + 5`, else `1900 + Y`. -/
def resolvedYear (Y N : Int) : Int :=
  if Y ≤ N % 100 + 5 then 2000 + Y else 1900 + Y

/-- The error of the first check of a list that fails, in the order of the
list; nil when no check fails.  A check is a pair of whether it fails and the
error it then yields. -/
def firstFailing : List (Bool × Err) → Option Err
  | [] => none
  | (failed, err) :: rest => if failed then some err else firstFailing rest

/-- The age in completed calendar years on the check date: the check year
minus the birth year, less one when the check date's (month, day) is earlier
than the birthday's (month, day). -/
def completedYears (birthday checkDate : Time) : Int :=
  checkDate.Date.1 - birthday.Date.1 -
    (if checkDate.Date.2.1 < birthday.Date.2.1 ∨
        (checkDate.Date.2.1 = birthday.Date.2.1 ∧ checkDate.Date.2.2 < birthday.Date.2.2)
      then 1 else 0)

/-- A calendar date at midnight UTC. -/
def midnightUTC (t : Time) : Prop :=
  t.offset = 0 ∧ t.nsec = 0 ∧ t.sec % 86400 = 0

instance (t : Time) : Decidable (midnightUTC t) := by
  unfold midnightUTC; infer_instance

/-- A space or a hyphen. -/
def isSeparator (b : Byte) : Bool := b.val == 0x20 || b.val == 0x2D

/-- The character that stands for a run of spaces and hyphens once `c` joins
it: a hyphen when the run so far or `c` is a hyphen, else a space. -/
def joinSeparator (pending : Option Byte) (c : Byte) : Byte :=
  match pending with
  | none => c
  | some p => if p.val = 0x2D ∨ c.val = 0x2D then 0x2D else 0x20

/-- The text with the run of spaces and hyphens that is being read held back
in `pending`: the run is written as one character when it ends. -/
def collapseSeparatorsAux (pending : Option Byte) : GoString → GoString
  | [] => pending.toList
  | c :: rest =>
    if isSeparator c then collapseSeparatorsAux (some (joinSeparator pending c)) rest
    else pending.toList ++ c :: collapseSeparatorsAux none rest

/-- The text with every maximal run of spaces and hyphens replaced by one
hyphen when the run holds a hyphen, and by one space when it does not. -/
def collapseSeparators (s : GoString) : GoString := collapseSeparatorsAux none s

/-- The characters `PassportIssuedByNormalize` has a rule for: space,
period, comma, double quote, single quote. -/
def squeezedCharacters : List Byte := [0x20, 0x2E, 0x2C, 0x22, 0x27]

/-- The text read after the character `prev`: a character of
`squeezedCharacters` that repeats the one before it is dropped. -/
def squeezeRunsAux (prev : Option Byte) : GoString → GoString
  | [] => []
  | c :: rest =>
    if prev = some c ∧ c ∈ squeezedCharacters then squeezeRunsAux (some c) rest
    else c :: squeezeRunsAux (some c) rest

/-- The text with every maximal run of one character of `squeezedCharacters`
replaced by a single occurrence of it. -/
def squeezeRuns (s : GoString) : GoString := squeezeRunsAux none s

/-- A time whose seconds are an `int64` and whose local time is not before
the absolute epoch: the times package `time` reads the date of without
wrapping. -/
def Time.Representable (t : Time) : Prop :=
  -9223372036854775808 ≤ t.sec ∧ t.sec < 9223372036854775808 ∧
    0 ≤ t.sec + t.offset + internalToAbsolute ∧
    t.sec + t.offset + internalToAbsolute < 18446744073709551616

instance (t : Time) : Decidable (Time.Representable t) := by
  unfold Time.Representable; infer_instance

/-- The date `time.Date` is called with is computed without overflow: the
year is not before the absolute epoch and the seconds are an `int64`. -/
def mkDateFits (year month day clock offset : Int) : Prop :=
  absoluteZeroYear ≤ year + (month - 1) / 12 ∧
    year + (month - 1) / 12 - absoluteZeroYear < 18446744073709551616 ∧
    -9223372036854775808 ≤ mkDateSeconds year month day clock offset ∧
    mkDateSeconds year month day clock offset < 9223372036854775808

instance (year month day clock offset : Int) :
    Decidable (mkDateFits year month day clock offset) := by
  unfold mkDateFits; infer_instance

/-- The time `t.AddDate(years, months, days)` is computed without overflow. -/
def Time.AddDateFits (t : Time) (years months days : Int) : Prop :=
  mkDateFits (t.Date.1 + years) (t.Date.2.1 + months) (t.Date.2.2 + days) t.localClock
    t.offset

instance (t : Time) (years months days : Int) :
    Decidable (t.AddDateFits years months days) := by
  unfold Time.AddDateFits; infer_instance

/-! ## Runes of ASCII text -/

theorem decodeRune_of_lt (b0 : Byte) (rest : GoString) (h : b0.val < 0x80) :
    decodeRune b0 rest = (b0.val, 1) := by
  simp [decodeRune, h]

theorem decodeRune_ge (b0 : Byte) (rest : GoString) (h : ¬ b0.val < 0x80) :
    0x80 ≤ (decodeRune b0 rest).1 := by
  unfold decodeRune
  rw [if_neg h]
  split
  · split
    · split
      · simp only; omega
      · simp [RuneError]
    · simp [RuneError]
  · split
    · split
      · split
        · rename_i h1 _ _ _ _ h2
          simp only [acceptLo] at h2
          simp only
          split at h2 <;> omega
        · simp [RuneError]
      · simp [RuneError]
    · split
      · split
        · split
          · rename_i h1 _ _ _ _ _ h2
            simp only [acceptLo] at h2
            simp only
            split at h2
            · omega
            · split at h2 <;> omega
          · simp [RuneError]
        · simp [RuneError]
      · simp [RuneError]

theorem runes_nil : runes [] = [] := rfl

theorem runes_cons_of_lt (b0 : Byte) (rest : GoString) (h : b0.val < 0x80) :
    runes (b0 :: rest) = b0.val :: runes rest := by
  simp [runes, runesAux, decodeRune_of_lt b0 rest h]

theorem runes_cons_head (b0 : Byte) (rest : GoString) :
    ∃ rs, runes (b0 :: rest) = (decodeRune b0 rest).1 :: rs := by
  exact ⟨_, rfl⟩

theorem runes_eq_nil_iff (s : GoString) : runes s = [] ↔ s = [] := by
  cases s with
  | nil => simp [runes_nil]
  | cons b0 rest => simp [runes, runesAux]

/-- A string whose bytes are all ASCII is read as one rune a byte. -/
theorem runes_of_ascii (s : GoString) (h : ∀ b ∈ s, b.val < 0x80) :
    runes s = s.map (fun b => b.val) := by
  induction s with
  | nil => rfl
  | cons b0 rest ih =>
    rw [runes_cons_of_lt b0 rest (h b0 (List.mem_cons_self _ _)),
      ih (fun b hb => h b (List.mem_cons_of_mem _ hb))]
    rfl

/-- A string read as ASCII runes only has ASCII bytes only. -/
theorem ascii_of_runes (s : GoString) (h : ∀ r ∈ runes s, r < 0x80) :
    ∀ b ∈ s, b.val < 0x80 := by
  induction s with
  | nil => simp
  | cons b0 rest ih =>
    have h0 : b0.val < 0x80 := by
      by_contra hc
      have h1 := decodeRune_ge b0 rest hc
      have h2 := h (decodeRune b0 rest).1 (by simp [runes, runesAux])
      omega
    rw [runes_cons_of_lt b0 rest h0] at h
    intro b hb
    rcases List.mem_cons.1 hb with rfl | hb
    · exact h0
    · exact ih (fun r hr => h r (List.mem_cons_of_mem _ hr)) b hb

/-! ## Name validators -/

theorem nameValidatorLoop_eq_none (l : List Nat) (h : ∀ c ∈ l, allowedRune c) :
    nameValidatorLoop l = none := by
  induction l with
  | nil => rfl
  | cons c cs ih =>
    have hc := h c (List.mem_cons_self _ _)
    have hcs := ih (fun x hx => h x (List.mem_cons_of_mem _ hx))
    simp only [nameValidatorLoop, hcs]
    rcases hc with hc | hc
    · simp [hc]
    · have hm : c ∈ allowedCharacters := by
        simpa [allowedCharacters] using hc
      simp [hm]

theorem nameValidatorLoop_eq_some (l : List Nat) (h : ∃ c ∈ l, ¬ allowedRune c) :
    nameValidatorLoop l = some ErrNonCyrillicCharacter := by
  induction l with
  | nil => simp at h
  | cons c cs ih =>
    simp only [nameValidatorLoop]
    by_cases hc : allowedRune c
    · have hcs : ∃ x ∈ cs, ¬ allowedRune x := by
        obtain ⟨x, hx, hnx⟩ := h
        rcases List.mem_cons.1 hx with rfl | hx
        · exact absurd hc hnx
        · exact ⟨x, hx, hnx⟩
      rw [ih hcs]
      simp
    · have h1 : unicodeIs Cyrillic c = false := by
        cases hu : unicodeIs Cyrillic c
        · rfl
        · exact absurd (Or.inl hu) hc
      have h2 : c ∉ allowedCharacters := fun hm =>
        hc (Or.inr (by simpa [allowedCharacters] using hm))
      simp [h1, h2]

/-- No ASCII rune is in the Cyrillic table. -/
theorem not_cyrillic_of_ascii (c : Nat) (h : c < 0x80) : unicodeIs Cyrillic c = false := by
  simp only [unicodeIs, Cyrillic, List.any_cons, List.any_nil, Bool.or_false,
    Bool.or_eq_false_iff, Bool.and_eq_false_iff, decide_eq_false_iff_not]
  refine ⟨?_, ?_, ?_, ?_, ?_, ?_, ?_, ?_, ?_⟩ <;> left <;> left <;> omega

/-- C1: for every non-empty string, the three name validators return nil
when every rune of the string is Cyrillic or one of the nine allowed
characters, and return ErrNonCyrillicCharacter when some rune is not; every
ASCII digit and every Latin letter other than capital I and V is such a rune. -/
theorem name_validators_accept_iff_allowed (s : GoString) (hs : s ≠ []) :
    ((∀ c ∈ runes s, allowedRune c) →
      IsPassportLastNameValid s = none ∧ IsPassportFirstNameValid s = none ∧
        IsPassportMiddleNameValid s = none) ∧
    ((∃ c ∈ runes s, ¬ allowedRune c) →
      IsPassportLastNameValid s = some ErrNonCyrillicCharacter ∧
        IsPassportFirstNameValid s = some ErrNonCyrillicCharacter ∧
        IsPassportMiddleNameValid s = some ErrNonCyrillicCharacter) ∧
    (∀ c : Nat, (0x30 ≤ c ∧ c ≤ 0x39) ∨
        (((0x41 ≤ c ∧ c ≤ 0x5A) ∨ (0x61 ≤ c ∧ c ≤ 0x7A)) ∧ c ≠ 0x49 ∧ c ≠ 0x56) →
      ¬ allowedRune c) := by
  refine ⟨fun h => ?_, fun h => ?_, fun c hc => ?_⟩
  · simp [IsPassportLastNameValid, IsPassportFirstNameValid, IsPassportMiddleNameValid,
      nameValidator, hs, nameValidatorLoop_eq_none _ h]
  · simp [IsPassportLastNameValid, IsPassportFirstNameValid, IsPassportMiddleNameValid,
      nameValidator, hs, nameValidatorLoop_eq_some _ h]
  · have hlt : c < 0x80 := by omega
    intro hall
    rcases hall with hcy | hmem
    · rw [not_cyrillic_of_ascii c hlt] at hcy
      exact Bool.noConfusion hcy
    · simp only [List.mem_cons, List.mem_singleton, List.not_mem_nil, or_false] at hmem
      omega

/-- C1, at inputs of the package's tests: "Д'Артаньян(V)" is accepted and
"Иванов XV" is rejected by the three validators. -/
theorem name_validators_accept_iff_allowed_witness :
    (IsPassportLastNameValid (str "Д'Артаньян(V)") = none ∧
      IsPassportFirstNameValid (str "Д'Артаньян(V)") = none ∧
      IsPassportMiddleNameValid (str "Д'Артаньян(V)") = none) ∧
    (IsPassportLastNameValid (str "Иванов XV") = some ErrNonCyrillicCharacter ∧
      IsPassportFirstNameValid (str "Иванов XV") = some ErrNonCyrillicCharacter ∧
      IsPassportMiddleNameValid (str "Иванов XV") = some ErrNonCyrillicCharacter) :=
  ⟨(name_validators_accept_iff_allowed (str "Д'Артаньян(V)") (by decide)).1 (by decide),
    (name_validators_accept_iff_allowed (str "Иванов XV") (by decide)).2.1 (by decide)⟩

/-- C2: on the empty string the last-name and first-name validators return
their own empty-field error and the middle-name validator returns nil; on a
non-empty string the three validators agree and none returns an empty-field
error. -/
theorem name_validators_empty_field :
    IsPassportLastNameValid [] = some ErrEmptyLastName ∧
    IsPassportFirstNameValid [] = some ErrEmptyFirstName ∧
    IsPassportMiddleNameValid [] = none ∧
    ∀ s : GoString, s ≠ [] →
      IsPassportLastNameValid s = IsPassportMiddleNameValid s ∧
      IsPassportFirstNameValid s = IsPassportMiddleNameValid s ∧
      IsPassportMiddleNameValid s ≠ some ErrEmptyLastName ∧
      IsPassportMiddleNameValid s ≠ some ErrEmptyFirstName := by
  refine ⟨rfl, rfl, rfl, fun s hs => ?_⟩
  have hres : IsPassportMiddleNameValid s = none ∨
      IsPassportMiddleNameValid s = some ErrNonCyrillicCharacter := by
    by_cases h : ∀ c ∈ runes s, allowedRune c
    · exact Or.inl (nameValidatorLoop_eq_none _ h)
    · push_neg at h
      exact Or.inr (nameValidatorLoop_eq_some _ h)
  refine ⟨by simp [IsPassportLastNameValid, IsPassportMiddleNameValid, hs],
    by simp [IsPassportFirstNameValid, IsPassportMiddleNameValid, hs], ?_, ?_⟩ <;>
  rcases hres with h | h <;> simp [h]

/-- C2, at the last name "Маск" of the package's tests: the three validators
agree on it and return no empty-field error. -/
theorem name_validators_empty_field_witness :
    IsPassportLastNameValid (str "Маск") = IsPassportMiddleNameValid (str "Маск") ∧
    IsPassportFirstNameValid (str "Маск") = IsPassportMiddleNameValid (str "Маск") ∧
    IsPassportMiddleNameValid (str "Маск") ≠ some ErrEmptyLastName ∧
    IsPassportMiddleNameValid (str "Маск") ≠ some ErrEmptyFirstName :=
  name_validators_empty_field.2.2.2 (str "Маск") (by decide)
/-! ## The three patterns -/

/-- The matcher is sound and complete for the texts a pattern denotes: it
leaves `l'` of `l` exactly when `l` is a denoted text followed by `l'`. -/
theorem Regex.mem_step_iff (e : Regex) (l l' : List Nat) :
    l' ∈ e.step l ↔ ∃ p, l = p ++ l' ∧ e.Matches p := by
  induction e generalizing l l' with
  | eps =>
    simp only [Regex.step, Regex.Matches, List.mem_singleton]
    constructor
    · rintro rfl; exact ⟨[], rfl, rfl⟩
    · rintro ⟨p, rfl, rfl⟩; rfl
  | digit =>
    cases l with
    | nil =>
      simp only [Regex.step, Regex.Matches, List.not_mem_nil, false_iff]
      rintro ⟨p, hp, c, rfl, _⟩
      simp at hp
    | cons c cs =>
      simp only [Regex.step, Regex.Matches]
      constructor
      · intro h
        split at h
        · rename_i hc
          rw [List.mem_singleton] at h
          exact ⟨[c], by simp [h], c, rfl, hc⟩
        · simp at h
      · rintro ⟨p, hp, c', rfl, hc'⟩
        simp only [List.singleton_append, List.cons.injEq] at hp
        obtain ⟨rfl, rfl⟩ := hp
        simp [hc']
  | char r =>
    cases l with
    | nil =>
      simp only [Regex.step, Regex.Matches, List.not_mem_nil, false_iff]
      rintro ⟨p, hp, rfl⟩
      simp at hp
    | cons c cs =>
      simp only [Regex.step, Regex.Matches]
      constructor
      · intro h
        split at h
        · rename_i hc
          rw [List.mem_singleton] at h
          exact ⟨[c], by simp [h], by rw [hc]⟩
        · simp at h
      · rintro ⟨p, hp, rfl⟩
        simp only [List.singleton_append, List.cons.injEq] at hp
        obtain ⟨rfl, rfl⟩ := hp
        simp
  | opt e ih =>
    simp only [Regex.step, Regex.Matches, List.mem_append, List.mem_singleton, ih]
    constructor
    · rintro (⟨p, hp, hm⟩ | rfl)
      · exact ⟨p, hp, Or.inr hm⟩
      · exact ⟨[], rfl, Or.inl rfl⟩
    · rintro ⟨p, hp, rfl | hm⟩
      · exact Or.inr (by simpa using hp.symm)
      · exact Or.inl ⟨p, hp, hm⟩
  | seq e₁ e₂ ih₁ ih₂ =>
    simp only [Regex.step, Regex.Matches, List.mem_flatMap, ih₁, ih₂]
    constructor
    · rintro ⟨m, ⟨p₁, rfl, h₁⟩, p₂, rfl, h₂⟩
      exact ⟨p₁ ++ p₂, by simp, p₁, p₂, rfl, h₁, h₂⟩
    · rintro ⟨p, rfl, p₁, p₂, rfl, h₁, h₂⟩
      exact ⟨p₂ ++ l', ⟨p₁, by simp, h₁⟩, p₂, rfl, h₂⟩

/-- `MatchString` on `^e$` holds exactly when the runes of the text are a
text `e` denotes. -/
theorem MatchString_iff (e : Regex) (s : GoString) :
    MatchString e s = true ↔ e.Matches (runes s) := by
  simp only [MatchString, List.any_eq_true, List.isEmpty_iff]
  constructor
  · rintro ⟨l', hl', rfl⟩
    obtain ⟨p, hp, hm⟩ := (Regex.mem_step_iff e _ _).1 hl'
    rw [List.append_nil] at hp
    rw [hp]; exact hm
  · intro hm
    exact ⟨[], (Regex.mem_step_iff e _ _).2 ⟨runes s, by simp, hm⟩, rfl⟩

/-- The pattern `\d{n}` denotes the texts of exactly `n` digit runes. -/
theorem Matches_rep_digit (n : Nat) (p : List Nat) :
    (Regex.rep n Regex.digit).Matches p ↔
      p.length = n ∧ ∀ r ∈ p, isDigitRune r = true := by
  induction n generalizing p with
  | zero =>
    simp only [Regex.rep, Regex.Matches]
    constructor
    · rintro rfl; simp
    · rintro ⟨h, _⟩; exact List.length_eq_zero.1 h
  | succ n ih =>
    simp only [Regex.rep, Regex.Matches, ih]
    constructor
    · rintro ⟨p₁, p₂, rfl, ⟨c, rfl, hc⟩, hlen, hall⟩
      refine ⟨by simp [hlen], ?_⟩
      intro r hr
      rcases List.mem_cons.1 hr with rfl | hr
      · exact hc
      · exact hall r hr
    · rintro ⟨hlen, hall⟩
      cases p with
      | nil => simp at hlen
      | cons c cs =>
        exact ⟨[c], cs, rfl, ⟨c, rfl, hall c (List.mem_cons_self _ _)⟩, by simpa using hlen,
          fun r hr => hall r (List.mem_cons_of_mem _ hr)⟩

theorem isDigitRune_iff (r : Nat) : isDigitRune r = true ↔ 0x30 ≤ r ∧ r ≤ 0x39 := by
  simp [isDigitRune]

theorem isDigitByte_iff (b : Byte) : isDigitByte b = true ↔ 0x30 ≤ b.val ∧ b.val ≤ 0x39 := by
  simp [isDigitByte]

/-- A property of the runes of a text that only ASCII texts have is a
property of its bytes. -/
theorem runes_transfer (P : List Nat → Prop) (hP : ∀ l, P l → ∀ r ∈ l, r < 0x80)
    (s : GoString) : P (runes s) ↔ P (s.map fun b => b.val) := by
  constructor
  · intro h
    have hb := ascii_of_runes s (hP _ h)
    rw [← runes_of_ascii s hb]; exact h
  · intro h
    have hb : ∀ b ∈ s, b.val < 0x80 := by
      intro b hb
      exact hP _ h b.val (List.mem_map.2 ⟨b, hb, rfl⟩)
    rw [runes_of_ascii s hb]; exact h

/-- `MatchString` on `^\d{n}$` holds exactly for the texts of `n` ASCII digits. -/
theorem MatchString_rep_digit (n : Nat) (s : GoString) :
    MatchString (Regex.rep n Regex.digit) s = true ↔ asciiDigits n s := by
  rw [MatchString_iff]
  have ht := runes_transfer (fun l => (Regex.rep n Regex.digit).Matches l)
    (fun l hl r hr => by
      have := ((Matches_rep_digit n l).1 hl).2 r hr
      rw [isDigitRune_iff] at this; omega) s
  simp only at ht
  rw [ht, Matches_rep_digit]
  simp [asciiDigits, isDigitRune_iff]

theorem asciiDigits_map (n : Nat) (s : GoString) :
    ((s.map fun b => b.val).length = n ∧ ∀ r ∈ s.map fun b => b.val, isDigitRune r = true) ↔
      asciiDigits n s := by
  simp [asciiDigits, isDigitRune_iff]

theorem asciiDigits_append (m n : Nat) (p q : GoString) (hp : asciiDigits m p)
    (hq : asciiDigits n q) : asciiDigits (m + n) (p ++ q) := by
  refine ⟨by simp [hp.1, hq.1], fun b hb => ?_⟩
  rcases List.mem_append.1 hb with h | h
  · exact hp.2 b h
  · exact hq.2 b h

theorem Matches_seq (e₁ e₂ : Regex) (p : List Nat) :
    (Regex.seq e₁ e₂).Matches p ↔ ∃ p₁ p₂, p = p₁ ++ p₂ ∧ e₁.Matches p₁ ∧ e₂.Matches p₂ :=
  Iff.rfl

theorem Matches_opt (e : Regex) (p : List Nat) :
    (Regex.opt e).Matches p ↔ p = [] ∨ e.Matches p := Iff.rfl

theorem Matches_char (r : Nat) (p : List Nat) : (Regex.char r).Matches p ↔ p = [r] := Iff.rfl

/-- The pattern `\d{3}\-?\d{3}` denotes the runes of the forms `NNNNNN` and
`NNN-NNN`. -/
theorem Matches_issuedCode (p : List Nat) :
    issuedCodeRegexp.Matches p ↔
      ∃ p₁ p₂, (p = p₁ ++ p₂ ∨ p = p₁ ++ 0x2D :: p₂) ∧
        (p₁.length = 3 ∧ ∀ r ∈ p₁, isDigitRune r = true) ∧
        (p₂.length = 3 ∧ ∀ r ∈ p₂, isDigitRune r = true) := by
  unfold issuedCodeRegexp
  simp only [Matches_seq, Matches_opt, Matches_char, Matches_rep_digit]
  constructor
  · rintro ⟨p₁, r, rfl, h₁, q, p₂, rfl, rfl | rfl, h₂⟩
    · exact ⟨p₁, p₂, Or.inl (by simp), h₁, h₂⟩
    · exact ⟨p₁, p₂, Or.inr (by simp), h₁, h₂⟩
  · rintro ⟨p₁, p₂, rfl | rfl, h₁, h₂⟩
    · exact ⟨p₁, p₂, rfl, h₁, [], p₂, rfl, Or.inl rfl, h₂⟩
    · exact ⟨p₁, 0x2D :: p₂, rfl, h₁, [0x2D], p₂, rfl, Or.inr rfl, h₂⟩

/-- `MatchString` on `^\d{3}\-?\d{3}$` holds exactly for the texts of the
forms `NNNNNN` and `NNN-NNN`. -/
theorem MatchString_issuedCode (s : GoString) :
    MatchString issuedCodeRegexp s = true ↔ issuerCodeForm s := by
  rw [MatchString_iff]
  have ht := runes_transfer (fun l => issuedCodeRegexp.Matches l)
    (fun l hl r hr => by
      obtain ⟨p₁, p₂, hp, h₁, h₂⟩ := (Matches_issuedCode l).1 hl
      have hd : ∀ x, isDigitRune x = true → x < 0x80 := fun x hx => by
        rw [isDigitRune_iff] at hx; omega
      rcases hp with rfl | rfl
      · rcases List.mem_append.1 hr with h | h
        · exact hd r (h₁.2 r h)
        · exact hd r (h₂.2 r h)
      · rcases List.mem_append.1 hr with h | h
        · exact hd r (h₁.2 r h)
        · rcases List.mem_cons.1 h with rfl | h
          · decide
          · exact hd r (h₂.2 r h)) s
  simp only at ht
  rw [ht, Matches_issuedCode]
  constructor
  · rintro ⟨p₁, p₂, hp | hp, h₁, h₂⟩
    · obtain ⟨s₁, s₂, rfl, rfl, rfl⟩ := List.map_eq_append_iff.1 hp
      exact Or.inl (asciiDigits_append 3 3 s₁ s₂ ((asciiDigits_map 3 s₁).1 h₁)
        ((asciiDigits_map 3 s₂).1 h₂))
    · obtain ⟨s₁, s₂, rfl, rfl, hs₂⟩ := List.map_eq_append_iff.1 hp
      obtain ⟨h, s₃, rfl, hh, rfl⟩ := List.map_eq_cons_iff.1 hs₂
      have hh' : h = 0x2D := Fin.ext hh
      subst hh'
      exact Or.inr ⟨s₁, s₃, (asciiDigits_map 3 s₁).1 h₁, (asciiDigits_map 3 s₃).1 h₂, rfl⟩
  · rintro (h6 | ⟨p, q, hp, hq, rfl⟩)
    · refine ⟨(s.take 3).map fun b => b.val, (s.drop 3).map fun b => b.val,
        Or.inl (by rw [← List.map_append, List.take_append_drop]), ?_, ?_⟩
      · rw [asciiDigits_map]
        exact ⟨by simp [h6.1], fun b hb => h6.2 b (List.mem_of_mem_take hb)⟩
      · rw [asciiDigits_map]
        exact ⟨by simp [h6.1], fun b hb => h6.2 b (List.mem_of_mem_drop hb)⟩
    · exact ⟨p.map fun b => b.val, q.map fun b => b.val,
        Or.inr (by simp only [List.map_append, List.map_cons]; rfl),
        (asciiDigits_map 3 p).2 hp, (asciiDigits_map 3 q).2 hq⟩

/-! ## Number and issuer code -/

/-- C6: `IsPassportNumberValid` returns ErrEmptyPassportNumber exactly on the
empty string, nil exactly on the strings of six ASCII decimal digits, and
ErrInvalidPassportNumber in every other case. -/
theorem number_valid_iff_six_digits (number : GoString) :
    (IsPassportNumberValid number = some ErrEmptyPassportNumber ↔ number = []) ∧
    (IsPassportNumberValid number = none ↔ asciiDigits 6 number) ∧
    (number ≠ [] ∧ ¬ asciiDigits 6 number →
      IsPassportNumberValid number = some ErrInvalidPassportNumber) := by
  have hm := MatchString_rep_digit 6 number
  by_cases he : number = []
  · subst he
    simp [IsPassportNumberValid, asciiDigits]
  · by_cases hd : asciiDigits 6 number
    · have : MatchString passportNumberRegexp number = true := hm.2 hd
      simp [IsPassportNumberValid, he, hd, this]
    · have : MatchString passportNumberRegexp number = false := by
        cases h : MatchString passportNumberRegexp number
        · rfl
        · exact absurd (hm.1 h) hd
      simp [IsPassportNumberValid, he, hd, this]

/-- C6, at inputs of the package's tests: "65748" (five digits) and "65748V"
are rejected with ErrInvalidPassportNumber. -/
theorem number_valid_iff_six_digits_witness :
    IsPassportNumberValid (str "65748") = some ErrInvalidPassportNumber ∧
    IsPassportNumberValid (str "65748V") = some ErrInvalidPassportNumber :=
  ⟨(number_valid_iff_six_digits (str "65748")).2.2
      ⟨by decide, fun h => absurd h.1 (by decide)⟩,
    (number_valid_iff_six_digits (str "65748V")).2.2
      ⟨by decide, fun h => absurd (h.2 0x56 (by decide)) (by decide)⟩⟩

/-- C7: `IsPassportIssuerCodeValid` returns ErrEmptyIssuedCode exactly on the
empty string, nil exactly on the strings of the forms `NNNNNN` and `NNN-NNN`
(`N` an ASCII decimal digit), and ErrInvalidIssuedCode in every other case. -/
theorem issuer_code_valid_iff_form (issuedCode : GoString) :
    (IsPassportIssuerCodeValid issuedCode = some ErrEmptyIssuedCode ↔ issuedCode = []) ∧
    (IsPassportIssuerCodeValid issuedCode = none ↔ issuerCodeForm issuedCode) ∧
    (issuedCode ≠ [] ∧ ¬ issuerCodeForm issuedCode →
      IsPassportIssuerCodeValid issuedCode = some ErrInvalidIssuedCode) := by
  have hm := MatchString_issuedCode issuedCode
  by_cases he : issuedCode = []
  · subst he
    have hn : ¬ issuerCodeForm [] := by
      rintro (h | ⟨p, q, _, _, h⟩)
      · simp [asciiDigits] at h
      · simp at h
    simp [IsPassportIssuerCodeValid, hn]
  · by_cases hd : issuerCodeForm issuedCode
    · have : MatchString issuedCodeRegexp issuedCode = true := hm.2 hd
      simp [IsPassportIssuerCodeValid, he, hd, this]
    · have : MatchString issuedCodeRegexp issuedCode = false := by
        cases h : MatchString issuedCodeRegexp issuedCode
        · rfl
        · exact absurd (hm.1 h) hd
      simp [IsPassportIssuerCodeValid, he, hd, this]

/-- C7, at inputs of the package's tests: "50-0159" and "500--159" are
rejected with ErrInvalidIssuedCode. -/
theorem issuer_code_valid_iff_form_witness :
    IsPassportIssuerCodeValid (str "50-0159") = some ErrInvalidIssuedCode ∧
    IsPassportIssuerCodeValid (str "500--159") = some ErrInvalidIssuedCode :=
  ⟨(issuer_code_valid_iff_form (str "50-0159")).2.2
      ⟨by decide, fun h => absurd ((issuer_code_valid_iff_form _).2.1.2 h) (by decide)⟩,
    (issuer_code_valid_iff_form (str "500--159")).2.2
      ⟨by decide, fun h => absurd ((issuer_code_valid_iff_form _).2.1.2 h) (by decide)⟩⟩
/-! ## Series -/

theorem asciiDigits_four (s : GoString) (h : asciiDigits 4 s) :
    ∃ a b c d : Byte, s = [a, b, c, d] ∧ (0x30 ≤ a.val ∧ a.val ≤ 0x39) ∧
      (0x30 ≤ b.val ∧ b.val ≤ 0x39) ∧ (0x30 ≤ c.val ∧ c.val ≤ 0x39) ∧
      (0x30 ≤ d.val ∧ d.val ≤ 0x39) := by
  obtain ⟨hlen, hall⟩ := h
  rcases s with _ | ⟨a, _ | ⟨b, _ | ⟨c, _ | ⟨d, _ | ⟨e, t⟩⟩⟩⟩⟩ <;> simp at hlen
  exact ⟨a, b, c, d, rfl, hall a (by simp), hall b (by simp), hall c (by simp),
    hall d (by simp)⟩

/-- On two digit bytes `strconv.Atoi` succeeds with the number they read as. -/
theorem Atoi_two_digits (c d : Byte) (hc : 0x30 ≤ c.val ∧ c.val ≤ 0x39)
    (hd : 0x30 ≤ d.val ∧ d.val ≤ 0x39) :
    Atoi [c, d] = some (((c.val : Int) - 0x30) * 10 + ((d.val : Int) - 0x30)) := by
  have h1 : ¬ (c.val = 0x2D) := by omega
  have h2 : ¬ (c.val = 0x2B) := by omega
  have hv : digitsValue [c, d] = (c.val - 0x30) * 10 + (d.val - 0x30) := by
    simp [digitsValue]
  have hcast : ((digitsValue [c, d] : Nat) : Int) =
      ((c.val : Int) - 0x30) * 10 + ((d.val : Int) - 0x30) := by
    rw [hv]; omega
  have hall : ([c, d] : GoString).all isDigitByte = true := by
    simp [isDigitByte, hc, hd]
  simp only [Atoi, h1, h2, or_self, if_false, decide_False, hall, if_true, hcast]
  simp only [reduceCtorEq, if_false, Bool.false_eq_true]
  rw [if_pos]
  constructor <;> omega

theorem blankReleaseDate_year : (dateUTC 1997 1 1).Year = 1997 := by decide

/-- What `IsPassportSeriesValid` computes on a series of four digit bytes. -/
theorem series_four_digits_eval (s : GoString) (h : asciiDigits 4 s) (t : Time) :
    IsPassportSeriesValid s t =
      if (if twoDigitYear s ≤ Int.tmod t.Year 100 + 5 then twoDigitYear s + 2000
            else twoDigitYear s + 1900) < 1997 ∨
          (if twoDigitYear s ≤ Int.tmod t.Year 100 + 5 then twoDigitYear s + 2000
            else twoDigitYear s + 1900) > t.Year + 5
      then Except.ok (some ErrInvalidPassportSeries) else Except.ok none := by
  have hm : MatchString passportSeriesRegexp s = true := (MatchString_rep_digit 4 s).2 h
  obtain ⟨a, b, c, d, rfl, ha, hb, hc, hd⟩ := asciiDigits_four s h
  have hsl : sliceFrom [a, b, c, d] ((([a, b, c, d] : GoString).length : Int) - 2)
      = Except.ok [c, d] := by
    simp [sliceFrom]
  simp only [IsPassportSeriesValid, hm, hsl, Atoi_two_digits c d hc hd, blankReleaseDate_year,
    twoDigitYear]
  simp

theorem twoDigitYear_bounds (s : GoString) (h : asciiDigits 4 s) :
    0 ≤ twoDigitYear s ∧ twoDigitYear s ≤ 99 := by
  obtain ⟨a, b, c, d, rfl, ha, hb, hc, hd⟩ := asciiDigits_four s h
  simp only [twoDigitYear]
  omega

/-- The code's choice of century and range test agree with the resolved year
of the specification for every calendar year of the check date. -/
theorem series_range_iff (Y N : Int) (hY : 0 ≤ Y ∧ Y ≤ 99) :
    ¬ ((if Y ≤ Int.tmod N 100 + 5 then Y + 2000 else Y + 1900) < 1997 ∨
        (if Y ≤ Int.tmod N 100 + 5 then Y + 2000 else Y + 1900) > N + 5) ↔
      1997 ≤ resolvedYear Y N ∧ resolvedYear Y N ≤ N + 5 := by
  unfold resolvedYear
  by_cases hN : 0 ≤ N
  · rw [Int.tmod_eq_emod hN (by decide)]
    split_ifs <;> omega
  · split_ifs <;> omega

/-- The result of `IsPassportSeriesValid` on four digits, by the resolved year. -/
theorem series_four_digits_result (s : GoString) (h : asciiDigits 4 s) (t : Time) :
    IsPassportSeriesValid s t =
      if 1997 ≤ resolvedYear (twoDigitYear s) t.Year ∧
          resolvedYear (twoDigitYear s) t.Year ≤ t.Year + 5
      then Except.ok none else Except.ok (some ErrInvalidPassportSeries) := by
  rw [series_four_digits_eval s h t]
  have hr := series_range_iff (twoDigitYear s) t.Year (twoDigitYear_bounds s h)
  by_cases hc : 1997 ≤ resolvedYear (twoDigitYear s) t.Year ∧
      resolvedYear (twoDigitYear s) t.Year ≤ t.Year + 5
  · rw [if_pos hc, if_neg (hr.2 hc)]
  · rw [if_neg hc, if_pos (by_contra fun hn => hc (hr.1 hn))]

/-- What `IsPassportSeriesValid` returns on a series that is not four digits. -/
theorem series_not_four_digits (s : GoString) (h : ¬ asciiDigits 4 s) (t : Time) :
    IsPassportSeriesValid s t =
      if s = [] then Except.ok (some ErrEmptyPassportSeries)
      else Except.ok (some ErrInvalidPassportSeriesNot4Digits) := by
  have hm : MatchString passportSeriesRegexp s = false := by
    cases hb : MatchString passportSeriesRegexp s
    · rfl
    · exact absurd ((MatchString_rep_digit 4 s).1 hb) h
  simp [IsPassportSeriesValid, hm]

/-- C3: `IsPassportSeriesValid` returns ErrEmptyPassportSeries exactly on the
empty series and ErrInvalidPassportSeriesNot4Digits exactly on a non-empty
series that is not four ASCII decimal digits; whether it returns either
error is the same for every two check dates. -/
theorem series_format_errors (series : GoString) (checkDate : Time) :
    (IsPassportSeriesValid series checkDate = Except.ok (some ErrEmptyPassportSeries)
      ↔ series = []) ∧
    (IsPassportSeriesValid series checkDate =
        Except.ok (some ErrInvalidPassportSeriesNot4Digits)
      ↔ series ≠ [] ∧ ¬ asciiDigits 4 series) ∧
    (∀ otherDate : Time,
      (IsPassportSeriesValid series checkDate = Except.ok (some ErrEmptyPassportSeries)
        ↔ IsPassportSeriesValid series otherDate = Except.ok (some ErrEmptyPassportSeries)) ∧
      (IsPassportSeriesValid series checkDate =
          Except.ok (some ErrInvalidPassportSeriesNot4Digits)
        ↔ IsPassportSeriesValid series otherDate =
          Except.ok (some ErrInvalidPassportSeriesNot4Digits))) := by
  have key : ∀ t : Time,
      (IsPassportSeriesValid series t = Except.ok (some ErrEmptyPassportSeries)
        ↔ series = []) ∧
      (IsPassportSeriesValid series t = Except.ok (some ErrInvalidPassportSeriesNot4Digits)
        ↔ series ≠ [] ∧ ¬ asciiDigits 4 series) := by
    intro t
    by_cases h4 : asciiDigits 4 series
    · have hne : series ≠ [] := by
        rintro rfl; simp [asciiDigits] at h4
      rw [series_four_digits_result series h4 t]
      split_ifs <;> simp [hne, h4]
    · rw [series_not_four_digits series h4 t]
      by_cases he : series = []
      · simp [he]
      · simp [he, h4]
  refine ⟨(key checkDate).1, (key checkDate).2, fun otherDate => ⟨?_, ?_⟩⟩
  · rw [(key checkDate).1, (key otherDate).1]
  · rw [(key checkDate).2, (key otherDate).2]

/-- C3, at inputs of the package's tests: "461" and "408Л" are rejected with
ErrInvalidPassportSeriesNot4Digits at the check date 2024-02-27. -/
theorem series_format_errors_witness :
    IsPassportSeriesValid (str "461") (dateUTC 2024 2 27) =
      Except.ok (some ErrInvalidPassportSeriesNot4Digits) ∧
    IsPassportSeriesValid (str "408Л") (dateUTC 2024 2 27) =
      Except.ok (some ErrInvalidPassportSeriesNot4Digits) :=
  ⟨(series_format_errors (str "461") (dateUTC 2024 2 27)).2.1.2
      ⟨by decide, fun h => absurd h.1 (by decide)⟩,
    (series_format_errors (str "408Л") (dateUTC 2024 2 27)).2.1.2
      ⟨by decide, fun h => absurd h.1 (by decide)⟩⟩

/-- C4: on a series of four ASCII digits whose last two read as `Y`, at a
check date in the calendar year `N`, `IsPassportSeriesValid` returns nil
exactly when `1997 ≤ resolved year ≤ N + 5` and ErrInvalidPassportSeries
otherwise, where the resolved year is `2000 + Y` when `Y ≤ (N mod 100) + 5`
and `1900 + Y` otherwise; `Y` lies in 0..99 and two series with the same last
two digits get the same result. -/
theorem series_valid_iff_resolved_year (series : GoString) (checkDate : Time)
    (h4 : asciiDigits 4 series) :
    (IsPassportSeriesValid series checkDate = Except.ok none ↔
      1997 ≤ resolvedYear (twoDigitYear series) checkDate.Year ∧
        resolvedYear (twoDigitYear series) checkDate.Year ≤ checkDate.Year + 5) ∧
    (¬ (1997 ≤ resolvedYear (twoDigitYear series) checkDate.Year ∧
        resolvedYear (twoDigitYear series) checkDate.Year ≤ checkDate.Year + 5) →
      IsPassportSeriesValid series checkDate = Except.ok (some ErrInvalidPassportSeries)) ∧
    (0 ≤ twoDigitYear series ∧ twoDigitYear series ≤ 99) ∧
    (∀ other : GoString, asciiDigits 4 other → other.drop 2 = series.drop 2 →
      IsPassportSeriesValid other checkDate = IsPassportSeriesValid series checkDate) := by
  refine ⟨?_, ?_, twoDigitYear_bounds series h4, ?_⟩
  · rw [series_four_digits_result series h4 checkDate]
    split_ifs with hc <;> simp [hc]
  · intro hc
    rw [series_four_digits_result series h4 checkDate, if_neg hc]
  · intro other ho hdrop
    rw [series_four_digits_result series h4 checkDate,
      series_four_digits_result other ho checkDate]
    obtain ⟨a, b, c, d, rfl, -⟩ := asciiDigits_four series h4
    obtain ⟨a', b', c', d', rfl, -⟩ := asciiDigits_four other ho
    simp only [List.drop_succ_cons, List.drop_zero, List.cons.injEq, and_true] at hdrop
    obtain ⟨rfl, rfl⟩ := hdrop
    rfl

/-- C4, at inputs of the package's tests with the check date 2024-02-27:
"4617" resolves to 2017 and is accepted, "4696" resolves to 1996 and is
rejected, and "9917" gets the result of "4617". -/
theorem series_valid_iff_resolved_year_witness :
    IsPassportSeriesValid (str "4617") (dateUTC 2024 2 27) = Except.ok none ∧
    IsPassportSeriesValid (str "4696") (dateUTC 2024 2 27) =
      Except.ok (some ErrInvalidPassportSeries) ∧
    IsPassportSeriesValid (str "9917") (dateUTC 2024 2 27) =
      IsPassportSeriesValid (str "4617") (dateUTC 2024 2 27) :=
  ⟨(series_valid_iff_resolved_year (str "4617") (dateUTC 2024 2 27) (by decide)).1.2
      (by decide),
    (series_valid_iff_resolved_year (str "4696") (dateUTC 2024 2 27) (by decide)).2.1
      (by decide),
    (series_valid_iff_resolved_year (str "4617") (dateUTC 2024 2 27) (by decide)).2.2.2
      (str "9917") (by decide) (by decide)⟩

/-- C5: at a check date in a calendar year `N ≥ 2000`, a series of four ASCII
digits ending in `Y` is accepted exactly when `Y` is in 97..99 or in
`0..(N mod 100) + 5`, and gets ErrInvalidPassportSeries otherwise; for a check
date in 2024 these are the endings 97, 98, 99 and 00..29. -/
theorem series_accepted_endings (series : GoString) (checkDate : Time)
    (h4 : asciiDigits 4 series) (hN : 2000 ≤ checkDate.Year) :
    (IsPassportSeriesValid series checkDate = Except.ok none ↔
      (97 ≤ twoDigitYear series ∧ twoDigitYear series ≤ 99) ∨
        (0 ≤ twoDigitYear series ∧ twoDigitYear series ≤ checkDate.Year % 100 + 5)) ∧
    (¬ ((97 ≤ twoDigitYear series ∧ twoDigitYear series ≤ 99) ∨
        (0 ≤ twoDigitYear series ∧ twoDigitYear series ≤ checkDate.Year % 100 + 5)) →
      IsPassportSeriesValid series checkDate = Except.ok (some ErrInvalidPassportSeries)) ∧
    (checkDate.Year = 2024 →
      (IsPassportSeriesValid series checkDate = Except.ok none ↔
        (97 ≤ twoDigitYear series ∧ twoDigitYear series ≤ 99) ∨
          (0 ≤ twoDigitYear series ∧ twoDigitYear series ≤ 29))) := by
  have hY := twoDigitYear_bounds series h4
  have hiff : (1997 ≤ resolvedYear (twoDigitYear series) checkDate.Year ∧
      resolvedYear (twoDigitYear series) checkDate.Year ≤ checkDate.Year + 5) ↔
      ((97 ≤ twoDigitYear series ∧ twoDigitYear series ≤ 99) ∨
        (0 ≤ twoDigitYear series ∧ twoDigitYear series ≤ checkDate.Year % 100 + 5)) := by
    unfold resolvedYear
    split_ifs <;> omega
  rw [series_four_digits_result series h4 checkDate]
  refine ⟨?_, ?_, ?_⟩
  · rw [← hiff]
    split_ifs with hc <;> simp [hc]
  · intro hc
    rw [← hiff] at hc
    rw [if_neg hc]
  · intro h2024
    have h29 : checkDate.Year % 100 + 5 = 29 := by rw [h2024]; decide
    rw [← h29, ← hiff]
    split_ifs with hc <;> simp [hc]

/-- C5, at the check date 2024-02-27: "4629" is accepted, "4630" and "4696"
are rejected with ErrInvalidPassportSeries. -/
theorem series_accepted_endings_witness :
    IsPassportSeriesValid (str "4629") (dateUTC 2024 2 27) = Except.ok none ∧
    IsPassportSeriesValid (str "4630") (dateUTC 2024 2 27) =
      Except.ok (some ErrInvalidPassportSeries) ∧
    IsPassportSeriesValid (str "4696") (dateUTC 2024 2 27) =
      Except.ok (some ErrInvalidPassportSeries) :=
  ⟨(series_accepted_endings (str "4629") (dateUTC 2024 2 27) (by decide) (by decide)).1.2
      (by decide),
    (series_accepted_endings (str "4630") (dateUTC 2024 2 27) (by decide) (by decide)).2.1
      (by decide),
    (series_accepted_endings (str "4696") (dateUTC 2024 2 27) (by decide) (by decide)).2.1
      (by decide)⟩
/-! ## Calendar arithmetic -/

theorem isLeap_iff (y : Int) :
    isLeap y = true ↔ y % 4 = 0 ∧ (y % 100 ≠ 0 ∨ y % 400 = 0) := by
  simp [isLeap]

/-- The days before January 1 of a year, in closed form. -/
theorem daysSinceEpoch_closed (y : Int) :
    daysSinceEpoch y = 365 * (y - 1) + (y - 1) / 4 - (y - 1) / 100 + (y - 1) / 400 := by
  unfold daysSinceEpoch
  simp only
  omega

/-- A year has 365 days, or 366 when it is a leap year. -/
theorem daysSinceEpoch_succ (y : Int) :
    daysSinceEpoch (y + 1) = daysSinceEpoch y + (if isLeap y = true then 366 else 365) := by
  rw [daysSinceEpoch_closed, daysSinceEpoch_closed]
  split_ifs with h
  · rw [isLeap_iff] at h; omega
  · rw [isLeap_iff] at h; omega

/-- The cycle counts of `absDate`, as numbers: the year and the day of the
year they give. -/
theorem absDate_cycles (n400 n100 n4 n1 yd : Int) (h100 : 0 ≤ n100 ∧ n100 ≤ 3)
    (h4 : 0 ≤ n4 ∧ n4 ≤ 24) (h1 : 0 ≤ n1 ∧ n1 ≤ 3) (hyd : 0 ≤ yd ∧ yd ≤ 365)
    (hlast : yd = 365 → n1 = 3 ∧ (n4 ≠ 24 ∨ n100 = 3)) :
    daysSinceEpoch (400 * n400 + 100 * n100 + 4 * n4 + n1 + 1) =
        146097 * n400 + 36524 * n100 + 1461 * n4 + 365 * n1 ∧
      yd < (if isLeap (400 * n400 + 100 * n100 + 4 * n4 + n1 + 1) = true then 366 else 365) := by
  rw [daysSinceEpoch_closed]
  refine ⟨by omega, ?_⟩
  split_ifs with h
  · omega
  · rw [isLeap_iff] at h
    by_contra hc
    have hy : yd = 365 := by omega
    obtain ⟨h3, h24⟩ := hlast hy
    apply h
    omega

theorem absDate_spec_aux (d n400 d400 a n100 d100 n4 d4 b n1 : Int)
    (e1 : n400 = d / 146097) (e2 : d400 = d - 146097 * n400) (e3 : a = d400 / 36524)
    (e4 : n100 = a - a / 4) (e5 : d100 = d400 - 36524 * n100) (e6 : n4 = d100 / 1461)
    (e7 : d4 = d100 - 1461 * n4) (e8 : b = d4 / 365) (e9 : n1 = b - b / 4) :
    daysSinceEpoch (400 * n400 + 100 * n100 + 4 * n4 + n1 + 1) + (d4 - 365 * n1) = d ∧
      0 ≤ d4 - 365 * n1 ∧
      d4 - 365 * n1 <
        (if isLeap (400 * n400 + 100 * n100 + 4 * n4 + n1 + 1) = true then 366 else 365) := by
  have h400 : 0 ≤ d400 ∧ d400 < 146097 := by omega
  have hab : 0 ≤ a ∧ a ≤ 4 := by omega
  have h100 : 0 ≤ n100 ∧ n100 ≤ 3 ∧ (a ≤ 3 → n100 = a) ∧ (a = 4 → n100 = 3) := by omega
  have hd100 : 0 ≤ d100 ∧ d100 ≤ 36524 ∧ (d100 = 36524 → n100 = 3) := by omega
  have h4 : 0 ≤ n4 ∧ n4 ≤ 24 := by omega
  have hd4 : 0 ≤ d4 ∧ d4 < 1461 ∧ (n4 = 24 → d4 = 1460 → n100 = 3) := by omega
  have hbb : 0 ≤ b ∧ b ≤ 4 := by omega
  have h1 : 0 ≤ n1 ∧ n1 ≤ 3 ∧ (b ≤ 3 → n1 = b) ∧ (b = 4 → n1 = 3) := by omega
  have hyd : 0 ≤ d4 - 365 * n1 ∧ d4 - 365 * n1 ≤ 365 ∧
      (d4 - 365 * n1 = 365 → n1 = 3 ∧ d4 = 1460) := by omega
  obtain ⟨hse, hlt⟩ := absDate_cycles n400 n100 n4 n1 (d4 - 365 * n1) ⟨h100.1, h100.2.1⟩ h4
    ⟨h1.1, h1.2.1⟩ ⟨hyd.1, hyd.2.1⟩ (by
      intro h365
      obtain ⟨h3, h1460⟩ := hyd.2.2 h365
      refine ⟨h3, ?_⟩
      by_cases h24 : n4 = 24
      · exact Or.inr (hd4.2.2 h24 h1460)
      · exact Or.inl h24)
  refine ⟨?_, hyd.1, hlt⟩
  rw [hse]
  omega

/-- The day `absDate` starts from is the day of the year it returns, counted
from January 1 of the year it returns, and that day lies within the year. -/
theorem absDate_spec (d : Int) :
    daysSinceEpoch (absDate d).1 + (absDate d).2 = d ∧ 0 ≤ (absDate d).2 ∧
      (absDate d).2 < (if isLeap (absDate d).1 = true then 366 else 365) :=
  absDate_spec_aux d _ _ _ _ _ _ _ _ _ rfl rfl rfl rfl rfl rfl rfl rfl rfl

theorem daysBefore_table :
    daysBefore 0 = 0 ∧ daysBefore 1 = 31 ∧ daysBefore 2 = 59 ∧ daysBefore 3 = 90 ∧
    daysBefore 4 = 120 ∧ daysBefore 5 = 151 ∧ daysBefore 6 = 181 ∧ daysBefore 7 = 212 ∧
    daysBefore 8 = 243 ∧ daysBefore 9 = 273 ∧ daysBefore 10 = 304 ∧ daysBefore 11 = 334 ∧
    daysBefore 12 = 365 := by decide

/-- The month and the day `Time.Date` computes from a day of the year: the
month lies in 1..12, the day in 1..31, and the days before the month plus the
day give the day of the year back. -/
theorem monthDay_spec (leap : Prop) [Decidable leap] (yday : Int) (h0 : 0 ≤ yday)
    (hlt : yday < (if leap then 366 else 365)) (m dd : Int)
    (hm : (m, dd) =
      if leap ∧ yday = 31 + 29 - 1 then (2, 29)
      else
        if (if leap ∧ yday > 31 + 29 - 1 then yday - 1 else yday) ≥
            daysBefore ((if leap ∧ yday > 31 + 29 - 1 then yday - 1 else yday) / 31 + 1) then
          ((if leap ∧ yday > 31 + 29 - 1 then yday - 1 else yday) / 31 + 2,
            (if leap ∧ yday > 31 + 29 - 1 then yday - 1 else yday) -
              daysBefore ((if leap ∧ yday > 31 + 29 - 1 then yday - 1 else yday) / 31 + 1) + 1)
        else
          ((if leap ∧ yday > 31 + 29 - 1 then yday - 1 else yday) / 31 + 1,
            (if leap ∧ yday > 31 + 29 - 1 then yday - 1 else yday) -
              daysBefore ((if leap ∧ yday > 31 + 29 - 1 then yday - 1 else yday) / 31) + 1)) :
    1 ≤ m ∧ m ≤ 12 ∧ 1 ≤ dd ∧ dd ≤ 31 ∧
      daysBefore (m - 1) + (if leap ∧ m ≥ 3 then 1 else 0) + (dd - 1) = yday := by
  obtain ⟨t0, t1, t2, t3, t4, t5, t6, t7, t8, t9, t10, t11, t12⟩ := daysBefore_table
  by_cases hleapday : leap ∧ yday = 31 + 29 - 1
  · rw [if_pos hleapday] at hm
    obtain ⟨rfl, rfl⟩ := Prod.mk.inj hm
    have hl : leap := hleapday.1
    have hy : yday = 59 := by omega
    simp only [hl, true_and]
    norm_num [t1, hy]
  · rw [if_neg hleapday] at hm
    generalize hday : (if leap ∧ yday > 31 + 29 - 1 then yday - 1 else yday) = day at hm
    have hdb : 0 ≤ day ∧ day < 365 ∧ (leap → (yday ≤ 58 ∧ day = yday) ∨ (60 ≤ yday ∧ day = yday - 1))
        ∧ (¬ leap → day = yday) := by
      by_cases hl : leap
      · simp only [hl, if_true, true_and] at hlt hday hleapday
        simp only [hl, true_implies, not_true_eq_false, false_implies, and_true]
        split_ifs at hday <;> omega
      · simp only [hl, if_false, false_and] at hlt hday
        simp only [hl, false_implies, not_false_eq_true, true_implies, true_and]
        omega
    generalize hmon : day / 31 = mon at hm
    have hmb : 0 ≤ mon ∧ mon ≤ 11 := by omega
    obtain ⟨hm0, hm11⟩ := hmb
    by_cases hl : leap
    · have hcase := hdb.2.2.1 hl
      simp only [hl, true_and]
      interval_cases mon <;> norm_num [t0, t1, t2, t3, t4, t5, t6, t7, t8, t9, t10, t11, t12] at hm <;>
        split_ifs at hm <;> obtain ⟨rfl, rfl⟩ := Prod.mk.inj hm <;>
        norm_num [t0, t1, t2, t3, t4, t5, t6, t7, t8, t9, t10, t11, t12] <;> omega
    · have hcase := hdb.2.2.2 hl
      simp only [hl, false_and, if_false]
      interval_cases mon <;> norm_num [t0, t1, t2, t3, t4, t5, t6, t7, t8, t9, t10, t11, t12] at hm <;>
        split_ifs at hm <;> obtain ⟨rfl, rfl⟩ := Prod.mk.inj hm <;>
        norm_num [t0, t1, t2, t3, t4, t5, t6, t7, t8, t9, t10, t11, t12] <;> omega

theorem Date_year (t : Time) : t.Date.1 = t.Year := by
  unfold Time.Date Time.Year
  simp only
  split_ifs <;> rfl

/-- The date of a time: the month lies in 1..12, the day in 1..31, and the
date names the local calendar day of the time. -/
theorem Date_spec (t : Time) :
    1 ≤ t.Date.2.1 ∧ t.Date.2.1 ≤ 12 ∧ 1 ≤ t.Date.2.2 ∧ t.Date.2.2 ≤ 31 ∧
      daysSinceEpoch t.Date.1 + daysBefore (t.Date.2.1 - 1) +
        (if isLeap t.Date.1 = true ∧ t.Date.2.1 ≥ 3 then 1 else 0) + (t.Date.2.2 - 1)
        = t.localDays := by
  have hs := absDate_spec t.localDays
  have hmd := monthDay_spec (isLeap (absDate t.localDays).1 = true) (absDate t.localDays).2
    hs.2.1 hs.2.2 t.Date.2.1 t.Date.2.2 (by
      unfold Time.Date
      simp only
      split_ifs <;> rfl)
  have hy : t.Date.1 = (absDate t.localDays).1 := Date_year t
  rw [hy]
  refine ⟨hmd.1, hmd.2.1, hmd.2.2.1, hmd.2.2.2.1, ?_⟩
  have := hmd.2.2.2.2
  omega

theorem toInt64_of_range (x : Int)
    (h : -9223372036854775808 ≤ x ∧ x < 9223372036854775808) : toInt64 x = x := by
  unfold toInt64
  omega

/-- For a year that is not before the absolute epoch, the days package `time`
counts from the absolute epoch are the days from 0001-01-01 and the days of
the cycles of 400 years before the year 1. -/
theorem absDaysSinceEpoch_eq (year : Int) (h1 : absoluteZeroYear ≤ year)
    (h2 : year - absoluteZeroYear < 18446744073709551616) :
    absDaysSinceEpoch year = daysSinceEpoch year + daysToYearOne := by
  unfold absoluteZeroYear at h1 h2
  have hy : toUint64 (year - absoluteZeroYear) = year - 1 + 400 * 730692556 := by
    unfold toUint64 absoluteZeroYear
    omega
  unfold absDaysSinceEpoch daysSinceEpoch daysToYearOne
  simp only [hy]
  omega

/-- The seconds `time.Date` computes, for a year that is not before the
absolute epoch: the days from 0001-01-01 in seconds, the seconds of the day,
less the offset. -/
theorem mkDateSeconds_eq (year month day clock offset : Int)
    (h1 : absoluteZeroYear ≤ year + (month - 1) / 12)
    (h2 : year + (month - 1) / 12 - absoluteZeroYear < 18446744073709551616) :
    mkDateSeconds year month day clock offset =
      (daysSinceEpoch (year + (month - 1) / 12) + daysBefore ((month - 1) % 12 + 1 - 1) +
        (if isLeap (year + (month - 1) / 12) = true ∧ (month - 1) % 12 + 1 ≥ 3 then 1 else 0)
        + (day - 1)) * 86400 + clock - offset := by
  simp only [mkDateSeconds, absDaysSinceEpoch_eq _ h1 h2, daysToYearOne, internalToAbsolute]
  split_ifs <;> omega

/-- The seconds of `time.Date` for a month in 1..12, computed without
overflow. -/
theorem mkDate_sec (year month day clock : Int) (nsec : Nat) (offset : Int)
    (hm : 1 ≤ month ∧ month ≤ 12) (hfit : mkDateFits year month day clock offset) :
    (mkDate year month day clock nsec offset).sec =
      (daysSinceEpoch year + daysBefore (month - 1) +
        (if isLeap year = true ∧ month ≥ 3 then 1 else 0) + (day - 1)) * 86400
        + clock - offset := by
  obtain ⟨f1, f2, f3, f4⟩ := hfit
  have e := mkDateSeconds_eq year month day clock offset f1 f2
  have h1 : (month - 1) / 12 = 0 := by omega
  have h2 : (month - 1) % 12 + 1 = month := by omega
  simp only [h1, h2, add_zero] at e
  simp only [mkDate]
  rw [toInt64_of_range _ ⟨f3, f4⟩, e]

theorem daysSinceEpoch_mono (y₁ y₂ : Int) (h : y₁ ≤ y₂) :
    daysSinceEpoch y₁ ≤ daysSinceEpoch y₂ := by
  rw [daysSinceEpoch_closed, daysSinceEpoch_closed]
  omega

/-- The year of a time is not before the absolute epoch and not past the
years a `uint64` counts from it. -/
theorem Date_year_bounds (t : Time) :
    absoluteZeroYear ≤ t.Date.1 ∧ t.Date.1 - absoluteZeroYear < 18446744073709551616 := by
  have hs := absDate_spec t.localDays
  rw [Date_year t]
  have hld : -106751990353932 ≤ t.localDays ∧ t.localDays < 106751992000000 := by
    unfold Time.localDays Time.abs toUint64 daysToYearOne
    omega
  unfold Time.Year
  generalize (absDate t.localDays).1 = Y at hs
  generalize (absDate t.localDays).2 = yd at hs
  obtain ⟨h1, h2, h3⟩ := hs
  have hsucc := daysSinceEpoch_succ Y
  have hlo : daysSinceEpoch (-292277022399) = -106751990353932 := by decide
  have hhi : daysSinceEpoch 390000000000 = 142444574999634 := by decide
  unfold absoluteZeroYear
  constructor
  · by_contra hc
    have hm := daysSinceEpoch_mono (Y + 1) (-292277022399) (by omega)
    split_ifs at h3 hsucc <;> omega
  · by_contra hc
    have hm := daysSinceEpoch_mono 390000000000 Y (by omega)
    omega

/-- The seconds `time.Date` computes from the date and clock of a time at or
after the absolute epoch are the seconds of the time. -/
theorem mkDateSeconds_Date (t : Time) (hr : t.Representable) :
    mkDateSeconds t.Date.1 t.Date.2.1 t.Date.2.2 t.localClock t.offset = t.sec := by
  have hs := Date_spec t
  have hb := Date_year_bounds t
  have h1 : (t.Date.2.1 - 1) / 12 = 0 := by omega
  have h2 : (t.Date.2.1 - 1) % 12 + 1 = t.Date.2.1 := by omega
  have e := mkDateSeconds_eq t.Date.1 t.Date.2.1 t.Date.2.2 t.localClock t.offset
    (by rw [h1, add_zero]; exact hb.1) (by rw [h1, add_zero]; exact hb.2)
  simp only [h1, h2, add_zero] at e
  rw [hs.2.2.2.2] at e
  obtain ⟨r1, r2, r3, r4⟩ := hr
  have hdm : t.localDays * 86400 + t.localClock = t.sec + t.offset := by
    unfold Time.localDays Time.localClock Time.abs toUint64 daysToYearOne
    unfold internalToAbsolute at r3 r4 ⊢
    omega
  rw [e]
  omega

/-- Building a time from its own date and clock gives the time back. -/
theorem mkDate_Date (t : Time) (hr : t.Representable) :
    mkDate t.Date.1 t.Date.2.1 t.Date.2.2 t.localClock t.nsec t.offset = t := by
  have hsec' : (mkDate t.Date.1 t.Date.2.1 t.Date.2.2 t.localClock t.nsec t.offset).sec
      = t.sec := by
    simp only [mkDate]
    rw [mkDateSeconds_Date t hr]
    exact toInt64_of_range _ ⟨hr.1, hr.2.1⟩
  cases t with
  | mk sec nsec offset =>
    have e : ∀ u : Time, u.sec = sec → u.nsec = nsec → u.offset = offset →
        u = ⟨sec, nsec, offset⟩ := by
      rintro ⟨a, b, c⟩ rfl rfl rfl; rfl
    exact e _ hsec' rfl rfl

/-- One year later on the calendar is 365 or 366 days later, in the seconds
`time.Date` computes. -/
theorem mkDate_year_succ (year month day clock offset : Int)
    (h1 : absoluteZeroYear ≤ year + (month - 1) / 12)
    (h2 : year + 1 + (month - 1) / 12 - absoluteZeroYear < 18446744073709551616) :
    mkDateSeconds year month day clock offset + 365 * 86400 ≤
        mkDateSeconds (year + 1) month day clock offset ∧
      mkDateSeconds (year + 1) month day clock offset ≤
        mkDateSeconds year month day clock offset + 366 * 86400 := by
  rw [mkDateSeconds_eq year month day clock offset h1 (by omega),
    mkDateSeconds_eq (year + 1) month day clock offset (by omega) h2]
  have hy : year + 1 + (month - 1) / 12 = (year + (month - 1) / 12) + 1 := by omega
  rw [hy, daysSinceEpoch_succ]
  generalize year + (month - 1) / 12 = Y
  have hl : isLeap Y = true → isLeap (Y + 1) = false := by
    intro h
    rw [isLeap_iff] at h
    cases h' : isLeap (Y + 1)
    · rfl
    · rw [isLeap_iff] at h'; omega
  by_cases h : isLeap Y = true
  · simp only [h, hl h, true_and, if_true, Bool.false_eq_true, false_and, if_false]
    split_ifs <;> omega
  · simp only [h, Bool.false_eq_true, false_and, if_false]
    split_ifs <;> omega

/-- Later in years on the calendar is not earlier, in the seconds `time.Date`
computes. -/
theorem mkDate_year_mono (year month day clock offset : Int) (k : Nat)
    (h1 : absoluteZeroYear ≤ year + (month - 1) / 12)
    (h2 : year + k + (month - 1) / 12 - absoluteZeroYear < 18446744073709551616) :
    mkDateSeconds year month day clock offset ≤
      mkDateSeconds (year + k) month day clock offset := by
  induction k with
  | zero => simp
  | succ k ih =>
    have e : year + ((k + 1 : Nat) : Int) = year + (k : Int) + 1 := by push_cast; ring
    rw [e] at h2 ⊢
    have h := (mkDate_year_succ (year + k) month day clock offset (by omega) h2).1
    have := ih (by omega)
    omega

/-! ## Issue date and birthday -/

theorem After_iff (t u : Time) :
    t.After u = true ↔ t.sec > u.sec ∨ (t.sec = u.sec ∧ t.nsec > u.nsec) := by
  simp [Time.After]

theorem After_self (t : Time) : t.After t = false := by
  cases h : t.After t
  · rfl
  · rw [After_iff] at h; omega

/-- A time that is not after `u` is not after a time at or past `u`. -/
theorem After_mono (t u v : Time) (h : t.After u = false) (hsec : u.sec ≤ v.sec)
    (hnsec : u.nsec = v.nsec) : t.After v = false := by
  cases h' : t.After v
  · rfl
  · have hn : ¬ (t.sec > u.sec ∨ (t.sec = u.sec ∧ t.nsec > u.nsec)) := by
      rw [← After_iff, h]; simp
    rw [After_iff] at h'
    omega

/-- The seconds of a time moved by `AddDate`, when nothing overflows. -/
theorem AddDate_sec (t : Time) (years months days : Int)
    (h : t.AddDateFits years months days) :
    (t.AddDate years months days).sec =
      mkDateSeconds (t.Date.1 + years) (t.Date.2.1 + months) (t.Date.2.2 + days)
        t.localClock t.offset := by
  simp only [Time.AddDate, mkDate]
  exact toInt64_of_range _ ⟨h.2.2.1, h.2.2.2⟩

/-- Adding 45 years and 91 days gives a time at or past adding 20 years and
91 days, when neither sum overflows. -/
theorem AddDate_20_le_45 (b : Time) (h20 : b.AddDateFits 20 0 91)
    (h45 : b.AddDateFits 45 0 91) :
    (b.AddDate 20 0 91).sec ≤ (b.AddDate 45 0 91).sec ∧
      (b.AddDate 20 0 91).nsec = (b.AddDate 45 0 91).nsec := by
  refine ⟨?_, rfl⟩
  rw [AddDate_sec b 20 0 91 h20, AddDate_sec b 45 0 91 h45]
  have e : b.Date.1 + 20 + ((25 : Nat) : Int) = b.Date.1 + 45 := by norm_num; ring
  have h := mkDate_year_mono (b.Date.1 + 20) (b.Date.2.1 + 0) (b.Date.2.2 + 91) b.localClock
    b.offset 25 h20.1 (by rw [e]; exact h45.2.1)
  rw [e] at h
  exact h

/-- Moving a time at or after the absolute epoch back 18 years gives a time
that is not after it, when the move does not overflow. -/
theorem AddDate_back_18_not_After (c : Time) (hr : c.Representable)
    (hfit : c.AddDateFits (-18) 0 0) : (c.AddDate (-18) 0 0).After c = false := by
  cases h : (c.AddDate (-18) 0 0).After c
  · rfl
  · rw [After_iff] at h
    have hb := Date_year_bounds c
    have hs := Date_spec c
    have e : c.Date.1 + -18 + ((18 : Nat) : Int) = c.Date.1 := by norm_num
    have h0 : (c.Date.2.1 + 0 - 1) / 12 = 0 := by omega
    have hm := mkDate_year_mono (c.Date.1 + -18) (c.Date.2.1 + 0) (c.Date.2.2 + 0)
      c.localClock c.offset 18 hfit.1 (by rw [e, h0, add_zero]; exact hb.2)
    rw [e, add_zero, add_zero, mkDateSeconds_Date c hr] at hm
    have hsec : (c.AddDate (-18) 0 0).sec ≤ c.sec := by
      rw [AddDate_sec c (-18) 0 0 hfit]
      simpa using hm
    have hns : (c.AddDate (-18) 0 0).nsec = c.nsec := rfl
    omega

/-- `IsPassportIssueDateValid` as the chain of its six checks. -/
theorem issueDate_chain (i b c : Time) :
    IsPassportIssueDateValid i b c =
      if i.IsZero = true then some ErrEmptyIssueDate
      else if b.IsZero = true then some ErrEmptyBirthday
      else if i.Year - b.Year < 14 then some ErrInvalidIssueDateBefore14Birthday
      else if i.After c = true then some ErrIssueDatePassportInFuture
      else if i.Year - b.Year < 20 ∧ c.After (b.AddDate 20 0 91) = true then
        some ErrIssueDatePassportExpiredAt20
      else if i.Year - b.Year < 45 ∧ c.After (b.AddDate 45 0 91) = true then
        some ErrIssueDatePassportExpiredAt45
      else none := by
  unfold IsPassportIssueDateValid
  simp only [Age20PassportChange, Age45PassportChange, PassportDaysValidity]
  split_ifs <;> simp_all

/-- C8: `IsPassportIssueDateValid` returns the error of the first failing
check in the order zero issue date, zero birthday, issue year minus birth year
below 14, issue date after the check date, expired at 20, expired at 45, and
nil when none fails; a zero issue date wins over a zero birthday, and an
issue date both in the future and before age 14 yields
ErrInvalidIssueDateBefore14Birthday. -/
theorem issue_date_check_order (issueDate birthday checkDate : Time) :
    IsPassportIssueDateValid issueDate birthday checkDate =
      firstFailing
        [ (issueDate.IsZero, ErrEmptyIssueDate),
          (birthday.IsZero, ErrEmptyBirthday),
          (decide (issueDate.Year - birthday.Year < 14), ErrInvalidIssueDateBefore14Birthday),
          (issueDate.After checkDate, ErrIssueDatePassportInFuture),
          (decide (issueDate.Year - birthday.Year < 20) &&
              checkDate.After (birthday.AddDate 20 0 91), ErrIssueDatePassportExpiredAt20),
          (decide (issueDate.Year - birthday.Year < 45) &&
              checkDate.After (birthday.AddDate 45 0 91), ErrIssueDatePassportExpiredAt45) ] ∧
    (issueDate.IsZero = true → birthday.IsZero = true →
      IsPassportIssueDateValid issueDate birthday checkDate = some ErrEmptyIssueDate) ∧
    (issueDate.IsZero = false → birthday.IsZero = false →
      issueDate.Year - birthday.Year < 14 → issueDate.After checkDate = true →
      IsPassportIssueDateValid issueDate birthday checkDate =
        some ErrInvalidIssueDateBefore14Birthday) := by
  rw [issueDate_chain]
  refine ⟨?_, ?_, ?_⟩
  · simp only [firstFailing, Bool.and_eq_true, decide_eq_true_eq]
  · intro hi _
    rw [if_pos hi]
  · intro hi hb h14 _
    rw [if_neg (by simp [hi]), if_neg (by simp [hb]), if_pos h14]

/-- C8, at concrete dates: with the issue date and the birthday both zero the
result is ErrEmptyIssueDate, and the issue date 2030-01-01 of a holder born
2020-01-01, checked on 2024-02-27, yields ErrInvalidIssueDateBefore14Birthday. -/
theorem issue_date_check_order_witness :
    IsPassportIssueDateValid (dateUTC 1 1 1) (dateUTC 1 1 1) (dateUTC 2024 2 27) =
      some ErrEmptyIssueDate ∧
    IsPassportIssueDateValid (dateUTC 2030 1 1) (dateUTC 2020 1 1) (dateUTC 2024 2 27) =
      some ErrInvalidIssueDateBefore14Birthday :=
  ⟨(issue_date_check_order (dateUTC 1 1 1) (dateUTC 1 1 1) (dateUTC 2024 2 27)).2.1
      (by decide) (by decide),
    (issue_date_check_order (dateUTC 2030 1 1) (dateUTC 2020 1 1) (dateUTC 2024 2 27)).2.2
      (by decide) (by decide) (by decide) (by decide)⟩

/-- C9, refuted as worded: the seconds of a `time.Time` are 64 bits wide and
`AddDate` wraps. For the birthday 292277024600-01-01, the issue date
292277024615-01-01 and the check date 292277024615-01-02 every condition of
the claim holds (both dates are non-zero, the year difference is 15, the issue
date is not after the check date) and the check date is not after the birthday
plus 20 years and 91 days, yet the birthday plus 45 years and 91 days has
wrapped to a time before the check date and `IsPassportIssueDateValid`
returns ErrIssueDatePassportExpiredAt45, not nil. -/
theorem issue_date_expired_at_20_wraps :
    (dateUTC 292277024615 1 1).IsZero = false ∧
    (dateUTC 292277024600 1 1).IsZero = false ∧
    (dateUTC 292277024615 1 1).Year - (dateUTC 292277024600 1 1).Year = 15 ∧
    (dateUTC 292277024615 1 1).After (dateUTC 292277024615 1 2) = false ∧
    (dateUTC 292277024615 1 2).After ((dateUTC 292277024600 1 1).AddDate 20 0 91) = false ∧
    (dateUTC 292277024615 1 2).After ((dateUTC 292277024600 1 1).AddDate 45 0 91) = true ∧
    IsPassportIssueDateValid (dateUTC 292277024615 1 1) (dateUTC 292277024600 1 1)
        (dateUTC 292277024615 1 2) = some ErrIssueDatePassportExpiredAt45 ∧
    IsPassportIssueDateValid (dateUTC 292277024615 1 1) (dateUTC 292277024600 1 1)
        (dateUTC 292277024615 1 2) ≠ none := by
  decide

/-- C9, amended: for a non-zero birthday whose sums with 20 years and 91
days and with 45 years and 91 days are computed without overflow of the 64-bit
seconds, and a non-zero issue date that is not after the check date, with
issue year minus birth year in 14..19, `IsPassportIssueDateValid` returns
ErrIssueDatePassportExpiredAt20 when the check date is after the birthday plus
20 years and 91 days, and nil otherwise; in that case the check date is not
after the birthday plus 45 years and 91 days either, and a check date equal to
the birthday plus 20 years and 91 days is accepted. -/
theorem issue_date_expired_at_20 (issueDate birthday checkDate : Time)
    (hi : issueDate.IsZero = false) (hb : birthday.IsZero = false)
    (h14 : 14 ≤ issueDate.Year - birthday.Year) (h20 : issueDate.Year - birthday.Year < 20)
    (hfut : issueDate.After checkDate = false)
    (hfit20 : birthday.AddDateFits 20 0 91) (hfit45 : birthday.AddDateFits 45 0 91) :
    (checkDate.After (birthday.AddDate 20 0 91) = true →
      IsPassportIssueDateValid issueDate birthday checkDate =
        some ErrIssueDatePassportExpiredAt20) ∧
    (checkDate.After (birthday.AddDate 20 0 91) = false →
      IsPassportIssueDateValid issueDate birthday checkDate = none ∧
        checkDate.After (birthday.AddDate 45 0 91) = false) ∧
    (checkDate = birthday.AddDate 20 0 91 →
      IsPassportIssueDateValid issueDate birthday checkDate = none) := by
  have hle := AddDate_20_le_45 birthday hfit20 hfit45
  have hnot : ∀ h : checkDate.After (birthday.AddDate 20 0 91) = false,
      IsPassportIssueDateValid issueDate birthday checkDate = none ∧
        checkDate.After (birthday.AddDate 45 0 91) = false := by
    intro h
    have h45 : checkDate.After (birthday.AddDate 45 0 91) = false :=
      After_mono _ _ _ h hle.1 hle.2
    refine ⟨?_, h45⟩
    rw [issueDate_chain, if_neg (by simp [hi]), if_neg (by simp [hb]), if_neg (by omega),
      if_neg (by simp [hfut]), if_neg (by simp [h]), if_neg (by simp [h45])]
  refine ⟨?_, hnot, ?_⟩
  · intro h
    rw [issueDate_chain, if_neg (by simp [hi]), if_neg (by simp [hb]), if_neg (by omega),
      if_neg (by simp [hfut]), if_pos ⟨h20, h⟩]
  · intro he
    exact (hnot (by rw [he]; exact After_self _)).1

/-- C9, at dates of the package's tests: the document issued 2019-02-20 to a
holder born 2000-01-01 is expired on 2024-02-27 and still valid on 2020-04-01,
the last day of the 91 days. -/
theorem issue_date_expired_at_20_witness :
    IsPassportIssueDateValid (dateUTC 2019 2 20) (dateUTC 2000 1 1) (dateUTC 2024 2 27) =
      some ErrIssueDatePassportExpiredAt20 ∧
    IsPassportIssueDateValid (dateUTC 2019 2 20) (dateUTC 2000 1 1) (dateUTC 2020 4 1) = none :=
  ⟨(issue_date_expired_at_20 (dateUTC 2019 2 20) (dateUTC 2000 1 1) (dateUTC 2024 2 27)
      (by decide) (by decide) (by decide) (by decide) (by decide) (by decide)
      (by decide)).1 (by decide),
    (issue_date_expired_at_20 (dateUTC 2019 2 20) (dateUTC 2000 1 1) (dateUTC 2020 4 1)
      (by decide) (by decide) (by decide) (by decide) (by decide) (by decide)
      (by decide)).2.2 (by decide)⟩

/-- C10, refuted as worded: a birthday equal to the check date moved back 18
years is not always accepted. The check date 0019-01-01 moved back 18 years is
0001-01-01, the zero date, and `IsPassportBirthdayValid` returns
ErrInvalidBirthday for it; and the check date that
`time.Date(292277024628, 6, 15, ...)` returns has seconds that wrapped, the
same date moved back 18 years is non-zero and after it, and
`IsPassportBirthdayValid` returns ErrInvalidBirthday again. -/
theorem birthday_back_18_rejected :
    (((dateUTC 19 1 1).AddDate (-18) 0 0).IsZero = true ∧
      IsPassportBirthdayValid ((dateUTC 19 1 1).AddDate (-18) 0 0) (dateUTC 19 1 1) =
        some ErrInvalidBirthday) ∧
    (((dateUTC 292277024628 6 15).AddDate (-18) 0 0).IsZero = false ∧
      ((dateUTC 292277024628 6 15).AddDate (-18) 0 0).After (dateUTC 292277024628 6 15) = true ∧
      IsPassportBirthdayValid ((dateUTC 292277024628 6 15).AddDate (-18) 0 0)
        (dateUTC 292277024628 6 15) = some ErrInvalidBirthday) := by
  decide

/-- C10, amended: `IsPassportBirthdayValid` returns ErrInvalidBirthday when
the birthday is the zero date, or is after the check date, or is after the
check date moved back 18 years, and nil otherwise; it returns no other error,
and a non-zero birthday equal to the check date moved back 18 years is
accepted when the check date is not before the absolute epoch of package
`time` and moving it back does not overflow the 64-bit seconds. -/
theorem birthday_valid_iff (birthday checkDate : Time) :
    ((birthday.IsZero = true ∨ birthday.After checkDate = true ∨
        birthday.After (checkDate.AddDate (-18) 0 0) = true) →
      IsPassportBirthdayValid birthday checkDate = some ErrInvalidBirthday) ∧
    (¬ (birthday.IsZero = true ∨ birthday.After checkDate = true ∨
        birthday.After (checkDate.AddDate (-18) 0 0) = true) →
      IsPassportBirthdayValid birthday checkDate = none) ∧
    (∀ e : Err, IsPassportBirthdayValid birthday checkDate = some e → e = ErrInvalidBirthday) ∧
    (birthday = checkDate.AddDate (-18) 0 0 → birthday.IsZero = false →
      checkDate.Representable → checkDate.AddDateFits (-18) 0 0 →
      IsPassportBirthdayValid birthday checkDate = none) := by
  refine ⟨?_, ?_, ?_, ?_⟩
  · intro h
    unfold IsPassportBirthdayValid
    split_ifs <;> simp_all
  · intro h
    unfold IsPassportBirthdayValid
    split_ifs <;> simp_all
  · intro e he
    unfold IsPassportBirthdayValid at he
    split_ifs at he <;> simp_all
  · intro he hz hr hfit
    have h1 : birthday.After checkDate = false := by
      rw [he]; exact AddDate_back_18_not_After checkDate hr hfit
    have h2 : birthday.After (checkDate.AddDate (-18) 0 0) = false := by
      rw [he]; exact After_self _
    simp [IsPassportBirthdayValid, hz, h1, h2]

/-- C10, at dates of the package's tests with the check date 2024-02-27: the
birthday 2006-02-28 is rejected, the birthday 2006-02-26 is accepted, and so
is the birthday 2006-02-27, the check date moved back 18 years. -/
theorem birthday_valid_iff_witness :
    IsPassportBirthdayValid (dateUTC 2006 2 28) (dateUTC 2024 2 27) = some ErrInvalidBirthday ∧
    IsPassportBirthdayValid (dateUTC 2006 2 26) (dateUTC 2024 2 27) = none ∧
    IsPassportBirthdayValid (dateUTC 2006 2 27) (dateUTC 2024 2 27) = none :=
  ⟨(birthday_valid_iff (dateUTC 2006 2 28) (dateUTC 2024 2 27)).1 (by decide),
    (birthday_valid_iff (dateUTC 2006 2 26) (dateUTC 2024 2 27)).2.1 (by decide),
    (birthday_valid_iff (dateUTC 2006 2 27) (dateUTC 2024 2 27)).2.2.2 (by decide)
      (by decide) (by decide) (by decide)⟩
/-! ## `strings.Replace` with a rule of two bytes for one -/

theorem Replace_nil (old new : GoString) : Replace [] old new = [] := rfl

theorem Replace_pair_single (p q r a : Byte) : Replace [a] [p, q] [r] = [a] := by
  simp [Replace, replaceAux, List.isPrefixOf]

theorem Replace_pair_cons (p q r a b : Byte) (rest : GoString) :
    Replace (a :: b :: rest) [p, q] [r] =
      if a = p ∧ b = q then r :: Replace rest [p, q] [r]
      else a :: Replace (b :: rest) [p, q] [r] := by
  by_cases h : a = p ∧ b = q
  · obtain ⟨rfl, rfl⟩ := h
    simp [Replace, replaceAux, List.isPrefixOf]
  · rw [if_neg h]
    have hp : ([p, q] : GoString).isPrefixOf (a :: b :: rest) = false := by
      simp only [List.isPrefixOf, Bool.and_true, Bool.and_eq_false_imp, beq_iff_eq]
      intro hpa
      simp only [beq_eq_false_iff_ne, ne_eq]
      intro hqb
      exact h ⟨hpa.symm, hqb.symm⟩
    simp [Replace, replaceAux, hp]

/-- Induction over a text two bytes at a time, as `Replace` reads it. -/
theorem pair_induction (P : GoString → Prop) (h0 : P []) (h1 : ∀ a, P [a])
    (h2 : ∀ a b rest, P rest → P (b :: rest) → P (a :: b :: rest)) : ∀ s, P s := by
  have key : ∀ s, P s ∧ ∀ a, P (a :: s) := by
    intro s
    induction s with
    | nil => exact ⟨h0, h1⟩
    | cons b rest ih => exact ⟨ih.2 b, fun a => h2 a b rest ih.1 (ih.2 b)⟩
  exact fun s => (key s).1

/-- A rule of two bytes for one never makes the text longer. -/
theorem Replace_pair_length_le (p q r : Byte) (s : GoString) :
    (Replace s [p, q] [r]).length ≤ s.length := by
  induction s using pair_induction with
  | h0 => simp [Replace_nil]
  | h1 a => simp [Replace_pair_single]
  | h2 a b rest ih1 ih2 =>
    rw [Replace_pair_cons]
    split_ifs
    · simp only [List.length_cons]; omega
    · simp only [List.length_cons] at ih2 ⊢; omega

/-- A rule of two bytes for one that changes the text makes it strictly
shorter. -/
theorem Replace_pair_length_lt (p q r : Byte) (s : GoString)
    (h : Replace s [p, q] [r] ≠ s) : (Replace s [p, q] [r]).length < s.length := by
  induction s using pair_induction with
  | h0 => exact absurd (Replace_nil _ _) h
  | h1 a => exact absurd (Replace_pair_single p q r a) h
  | h2 a b rest ih1 ih2 =>
    rw [Replace_pair_cons] at h ⊢
    split_ifs with hc
    · have := Replace_pair_length_le p q r rest
      simp only [List.length_cons]; omega
    · rw [if_neg hc] at h
      have h' : Replace (b :: rest) [p, q] [r] ≠ b :: rest := fun e => h (by rw [e])
      have := ih2 h'
      simp only [List.length_cons] at this ⊢; omega

/-- A text a rule leaves unchanged does not contain the rule's two bytes. -/
theorem not_infix_of_Replace_eq (p q r : Byte) (s : GoString)
    (h : Replace s [p, q] [r] = s) : ¬ [p, q] <:+: s := by
  induction s using pair_induction with
  | h0 => simp
  | h1 a =>
    intro hi
    have := hi.length_le
    simp at this
  | h2 a b rest ih1 ih2 =>
    rw [Replace_pair_cons] at h
    by_cases hc : a = p ∧ b = q
    · rw [if_pos hc] at h
      have hl := Replace_pair_length_le p q r rest
      have := congrArg List.length h
      simp only [List.length_cons] at this
      omega
    · rw [if_neg hc] at h
      have h' : Replace (b :: rest) [p, q] [r] = b :: rest := (List.cons.inj h).2
      rw [List.infix_cons_iff]
      rintro (hpre | hin)
      · apply hc
        obtain ⟨t, ht⟩ := hpre
        simp only [List.cons_append, List.nil_append, List.cons.injEq] at ht
        exact ⟨ht.1.symm, ht.2.1.symm⟩
      · exact ih2 h' hin

/-- A text that does not contain a rule's two bytes is left unchanged. -/
theorem Replace_eq_of_not_infix (p q r : Byte) (s : GoString)
    (h : ¬ [p, q] <:+: s) : Replace s [p, q] [r] = s := by
  induction s using pair_induction with
  | h0 => rfl
  | h1 a => exact Replace_pair_single p q r a
  | h2 a b rest ih1 ih2 =>
    rw [Replace_pair_cons]
    have hc : ¬ (a = p ∧ b = q) := by
      rintro ⟨rfl, rfl⟩
      exact h ⟨[], rest, rfl⟩
    rw [if_neg hc, ih2 (fun hi => h (List.infix_cons hi))]
/-! ## The loop of the normalizers -/

/-- A pass over rules that shorten the text they change: the text does not
grow, a pass that sets `findReplace` shortens it, and a pass that leaves
`findReplace` false has changed nothing and no rule applies. -/
theorem rangeReplaces_length (m : List (GoString × GoString))
    (H2 : ∀ rule ∈ m, ∀ s, Replace s rule.1 rule.2 ≠ s →
      (Replace s rule.1 rule.2).length < s.length)
    (l : List (GoString × GoString)) (hl : ∀ rule ∈ l, rule ∈ m) (s : GoString)
    (flag : Bool) :
    (rangeReplaces l (s, flag)).1.length ≤ s.length ∧
      ((rangeReplaces l (s, flag)).2 = true → flag = false →
        (rangeReplaces l (s, flag)).1.length < s.length) ∧
      ((rangeReplaces l (s, flag)).2 = false →
        flag = false ∧ (rangeReplaces l (s, flag)).1 = s ∧
          ∀ rule ∈ l, Replace s rule.1 rule.2 = s) := by
  induction l generalizing s flag with
  | nil =>
    simp only [rangeReplaces, le_refl, true_and, List.not_mem_nil, false_implies, implies_true,
      and_true]
    exact ⟨fun h1 h2 => by rw [h1] at h2; exact Bool.noConfusion h2, fun h => h⟩
  | cons rule rest ih =>
    obtain ⟨from', to'⟩ := rule
    have hrest : ∀ rule ∈ rest, rule ∈ m := fun r hr => hl r (List.mem_cons_of_mem _ hr)
    simp only [rangeReplaces]
    by_cases hc : Replace s from' to' ≠ s
    · rw [if_pos hc]
      have hlt : (Replace s from' to').length < s.length :=
        H2 (from', to') (hl _ (List.mem_cons_self _ _)) s hc
      obtain ⟨i1, i2, i3⟩ := ih hrest (Replace s from' to') true
      refine ⟨by omega, fun _ _ => by omega, fun hf => ?_⟩
      exact absurd (i3 hf).1 (by simp)
    · rw [if_neg hc]
      have heq : Replace s from' to' = s := not_not.1 hc
      obtain ⟨i1, i2, i3⟩ := ih hrest s flag
      refine ⟨i1, i2, fun hf => ?_⟩
      obtain ⟨j1, j2, j3⟩ := i3 hf
      refine ⟨j1, j2, fun r hr => ?_⟩
      rcases List.mem_cons.1 hr with rfl | hr
      · exact heq
      · exact j3 r hr

/-- A pass over rules that keep a function of the text keeps it. -/
theorem rangeReplaces_canon (canon : GoString → GoString) (m : List (GoString × GoString))
    (H1 : ∀ rule ∈ m, ∀ s, canon (Replace s rule.1 rule.2) = canon s)
    (l : List (GoString × GoString)) (hl : ∀ rule ∈ l, rule ∈ m) (s : GoString)
    (flag : Bool) :
    canon (rangeReplaces l (s, flag)).1 = canon s := by
  induction l generalizing s flag with
  | nil => rfl
  | cons rule rest ih =>
    obtain ⟨from', to'⟩ := rule
    have hrest : ∀ rule ∈ rest, rule ∈ m := fun r hr => hl r (List.mem_cons_of_mem _ hr)
    simp only [rangeReplaces]
    split_ifs
    · rw [ih hrest, H1 (from', to') (hl _ (List.mem_cons_self _ _))]
    · exact ih hrest s flag

/-- The loop over a map of rules that shorten the text they change and keep
`canon`, where a text no rule changes is its own `canon`: with fuel for one
pass more than the text has bytes, the loop ends, whatever the order of the
rules in each pass, and returns `canon` of the text. -/
theorem normalizeLoop_eq (canon : GoString → GoString) (m : List (GoString × GoString))
    (H1 : ∀ rule ∈ m, ∀ s, canon (Replace s rule.1 rule.2) = canon s)
    (H2 : ∀ rule ∈ m, ∀ s, Replace s rule.1 rule.2 ≠ s →
      (Replace s rule.1 rule.2).length < s.length)
    (H3 : ∀ s, (∀ rule ∈ m, Replace s rule.1 rule.2 = s) → canon s = s)
    (order : Nat → List (GoString × GoString)) (ho : MapOrder m order) :
    ∀ (fuel pass : Nat) (s : GoString), s.length + 1 ≤ fuel →
      normalizeLoop order fuel pass s = some (canon s) := by
  intro fuel
  induction fuel with
  | zero => intro pass s h; omega
  | succ fuel ih =>
    intro pass s h
    have hsub : ∀ rule ∈ order pass, rule ∈ m := fun r hr => (ho pass).subset hr
    obtain ⟨l1, l2, l3⟩ := rangeReplaces_length m H2 (order pass) hsub s false
    have hcan := rangeReplaces_canon canon m H1 (order pass) hsub s false
    simp only [normalizeLoop]
    by_cases hf : (rangeReplaces (order pass) (s, false)).2 = true
    · rw [if_pos hf, ih (pass + 1) _ (by have := l2 hf rfl; omega), hcan]
    · rw [if_neg hf]
      have hf' : (rangeReplaces (order pass) (s, false)).2 = false := by
        simpa using hf
      obtain ⟨-, hs, hfix⟩ := l3 hf'
      rw [hs, H3 s (fun r hr => hfix r ((ho pass).symm.subset hr))]

/-- The string the loop returns is one that no rule of the map changes. -/
theorem normalizeLoop_fixed (m : List (GoString × GoString))
    (H2 : ∀ rule ∈ m, ∀ s, Replace s rule.1 rule.2 ≠ s →
      (Replace s rule.1 rule.2).length < s.length)
    (order : Nat → List (GoString × GoString)) (ho : MapOrder m order) :
    ∀ (fuel pass : Nat) (s r : GoString), normalizeLoop order fuel pass s = some r →
      ∀ rule ∈ m, Replace r rule.1 rule.2 = r := by
  intro fuel
  induction fuel with
  | zero => intro pass s r h; simp [normalizeLoop] at h
  | succ fuel ih =>
    intro pass s r h
    have hsub : ∀ rule ∈ order pass, rule ∈ m := fun r hr => (ho pass).subset hr
    obtain ⟨-, -, l3⟩ := rangeReplaces_length m H2 (order pass) hsub s false
    simp only [normalizeLoop] at h
    by_cases hf : (rangeReplaces (order pass) (s, false)).2 = true
    · rw [if_pos hf] at h
      exact ih _ _ _ h
    · rw [if_neg hf] at h
      have hf' : (rangeReplaces (order pass) (s, false)).2 = false := by
        simpa using hf
      obtain ⟨-, hs, hfix⟩ := l3 hf'
      rw [hs] at h
      obtain rfl := Option.some.inj h
      exact fun rule hr => hfix rule ((ho pass).symm.subset hr)

/-! ## The place of birth -/

theorem isSeparator_iff (b : Byte) : isSeparator b = true ↔ b = 0x20 ∨ b = 0x2D := by
  simp only [isSeparator, Bool.or_eq_true, beq_iff_eq]
  constructor
  · rintro (h | h)
    · exact Or.inl (Fin.ext h)
    · exact Or.inr (Fin.ext h)
  · rintro (rfl | rfl)
    · exact Or.inl rfl
    · exact Or.inr rfl

theorem collapseSeparatorsAux_cons (pending : Option Byte) (c : Byte) (rest : GoString) :
    collapseSeparatorsAux pending (c :: rest) =
      if isSeparator c = true then
        collapseSeparatorsAux (some (joinSeparator pending c)) rest
      else pending.toList ++ c :: collapseSeparatorsAux none rest := rfl

/-- A rule that replaces two separators by the one that stands for both
keeps the collapsed text. -/
theorem collapse_Replace (p q r : Byte) (hp : isSeparator p = true)
    (hq : isSeparator q = true) (hr : isSeparator r = true)
    (hjoin : ∀ pending, joinSeparator (some (joinSeparator pending p)) q =
      joinSeparator pending r) (s : GoString) :
    ∀ pending, collapseSeparatorsAux pending (Replace s [p, q] [r]) =
      collapseSeparatorsAux pending s := by
  induction s using pair_induction with
  | h0 => intro pending; rfl
  | h1 a => intro pending; rw [Replace_pair_single]
  | h2 a b rest ih1 ih2 =>
    intro pending
    rw [Replace_pair_cons]
    by_cases hc : a = p ∧ b = q
    · obtain ⟨rfl, rfl⟩ := hc
      rw [if_pos ⟨rfl, rfl⟩, collapseSeparatorsAux_cons, if_pos hr, ih1,
        collapseSeparatorsAux_cons, if_pos hp, collapseSeparatorsAux_cons, if_pos hq, hjoin]
    · rw [if_neg hc, collapseSeparatorsAux_cons, collapseSeparatorsAux_cons pending a]
      split_ifs
      · exact ih2 _
      · rw [ih2]

theorem placeOfBirth_rules (rule : GoString × GoString) (h : rule ∈ placeOfBirthReplaces) :
    ∃ p q r : Byte, rule = ([p, q], [r]) ∧ isSeparator p = true ∧ isSeparator q = true ∧
      isSeparator r = true ∧
      ∀ pending, joinSeparator (some (joinSeparator pending p)) q = joinSeparator pending r := by
  have hj : ∀ (p q r : Byte), (p = 0x20 ∨ p = 0x2D) → (q = 0x20 ∨ q = 0x2D) →
      r = (if p = 0x2D ∨ q = 0x2D then 0x2D else 0x20) →
      ∀ pending, joinSeparator (some (joinSeparator pending p)) q = joinSeparator pending r := by
    intro p q r hp hq hr pending
    subst hr
    cases pending with
    | none => rcases hp with rfl | rfl <;> rcases hq with rfl | rfl <;> decide
    | some x =>
      by_cases hx : x.val = 0x2D
      · rcases hp with rfl | rfl <;> rcases hq with rfl | rfl <;>
          simp only [joinSeparator, hx, true_or, if_true] <;> decide
      · rcases hp with rfl | rfl <;> rcases hq with rfl | rfl <;>
          simp only [joinSeparator, hx, false_or] <;> decide
  simp only [placeOfBirthReplaces, List.mem_cons, List.mem_singleton, List.not_mem_nil,
    or_false] at h
  rcases h with rfl | rfl | rfl | rfl
  · exact ⟨0x20, 0x20, 0x20, rfl, by decide, by decide, by decide,
      hj _ _ _ (Or.inl rfl) (Or.inl rfl) (by decide)⟩
  · exact ⟨0x2D, 0x2D, 0x2D, rfl, by decide, by decide, by decide,
      hj _ _ _ (Or.inr rfl) (Or.inr rfl) (by decide)⟩
  · exact ⟨0x20, 0x2D, 0x2D, rfl, by decide, by decide, by decide,
      hj _ _ _ (Or.inl rfl) (Or.inr rfl) (by decide)⟩
  · exact ⟨0x2D, 0x20, 0x2D, rfl, by decide, by decide, by decide,
      hj _ _ _ (Or.inr rfl) (Or.inl rfl) (by decide)⟩

/-- A text without two separators in a row is its own collapsed text. -/
theorem collapse_of_no_pair (s : GoString)
    (h : ∀ p q : Byte, isSeparator p = true → isSeparator q = true → ¬ [p, q] <:+: s) :
    ∀ pending : Option Byte,
      (∀ c, s.head? = some c → isSeparator c = true → pending = none) →
      collapseSeparatorsAux pending s = pending.toList ++ s := by
  induction s with
  | nil => intro pending _; simp [collapseSeparatorsAux]
  | cons c rest ih =>
    intro pending hpend
    have hrest : ∀ p q : Byte, isSeparator p = true → isSeparator q = true →
        ¬ [p, q] <:+: rest := fun p q hp hq hi => h p q hp hq (List.infix_cons hi)
    simp only [collapseSeparatorsAux]
    by_cases hc : isSeparator c = true
    · rw [if_pos hc]
      have hn : pending = none := hpend c rfl hc
      subst hn
      have hhead : ∀ c', rest.head? = some c' → isSeparator c' = true →
          (some (joinSeparator none c) : Option Byte) = none := by
        intro c' hc' hs'
        exfalso
        cases rest with
        | nil => simp at hc'
        | cons d rest' =>
          simp only [List.head?_cons, Option.some.injEq] at hc'
          subst hc'
          exact h c d hc hs' ⟨[], rest', rfl⟩
      by_cases hany : ∃ c', rest.head? = some c' ∧ isSeparator c' = true
      · obtain ⟨c', h1, h2⟩ := hany
        exact absurd (hhead c' h1 h2) (by simp)
      · push_neg at hany
        rw [ih hrest (some (joinSeparator none c)) (fun c' h1 h2 => absurd h2 (hany c' h1))]
        simp [joinSeparator]
    · rw [if_neg hc, ih hrest none (fun _ _ _ => rfl)]
      simp

theorem placeOfBirth_H1 (rule : GoString × GoString) (h : rule ∈ placeOfBirthReplaces)
    (s : GoString) :
    collapseSeparators (Replace s rule.1 rule.2) = collapseSeparators s := by
  obtain ⟨p, q, r, rfl, hp, hq, hr, hj⟩ := placeOfBirth_rules rule h
  exact collapse_Replace p q r hp hq hr hj s none

theorem placeOfBirth_H2 (rule : GoString × GoString) (h : rule ∈ placeOfBirthReplaces)
    (s : GoString) (hne : Replace s rule.1 rule.2 ≠ s) :
    (Replace s rule.1 rule.2).length < s.length := by
  obtain ⟨p, q, r, rfl, -⟩ := placeOfBirth_rules rule h
  exact Replace_pair_length_lt p q r s hne

/-- A text no rule of the place of birth changes has no two separators in a
row. -/
theorem placeOfBirth_no_pair (s : GoString)
    (h : ∀ rule ∈ placeOfBirthReplaces, Replace s rule.1 rule.2 = s) (p q : Byte)
    (hp : isSeparator p = true) (hq : isSeparator q = true) : ¬ [p, q] <:+: s := by
  rw [isSeparator_iff] at hp hq
  rcases hp with rfl | rfl <;> rcases hq with rfl | rfl
  · exact not_infix_of_Replace_eq _ _ 0x20 s (h ([0x20, 0x20], [0x20]) (by simp [placeOfBirthReplaces]))
  · exact not_infix_of_Replace_eq _ _ 0x2D s (h ([0x20, 0x2D], [0x2D]) (by simp [placeOfBirthReplaces]))
  · exact not_infix_of_Replace_eq _ _ 0x2D s (h ([0x2D, 0x20], [0x2D]) (by simp [placeOfBirthReplaces]))
  · exact not_infix_of_Replace_eq _ _ 0x2D s (h ([0x2D, 0x2D], [0x2D]) (by simp [placeOfBirthReplaces]))

theorem placeOfBirth_H3 (s : GoString)
    (h : ∀ rule ∈ placeOfBirthReplaces, Replace s rule.1 rule.2 = s) :
    collapseSeparators s = s := by
  have := collapse_of_no_pair s (placeOfBirth_no_pair s h) none (fun _ _ _ => rfl)
  simpa [collapseSeparators] using this

/-- With fuel for one pass more than the text has bytes,
`PassportPlaceOfBirthNormalize` returns the collapsed text, whatever the
order in which the passes visit the rules. -/
theorem placeOfBirth_normalize_eq (order : Nat → List (GoString × GoString))
    (ho : MapOrder placeOfBirthReplaces order) (fuel : Nat) (x : GoString)
    (hf : x.length + 1 ≤ fuel) :
    PassportPlaceOfBirthNormalize order fuel x = some (collapseSeparators x) := by
  unfold PassportPlaceOfBirthNormalize
  split_ifs with he
  · subst he; rfl
  · exact normalizeLoop_eq collapseSeparators placeOfBirthReplaces placeOfBirth_H1
      placeOfBirth_H2 placeOfBirth_H3 order ho fuel 0 x hf

/-- Whatever `PassportPlaceOfBirthNormalize` returns is a text that none of
its rules changes. -/
theorem placeOfBirth_normalize_fixed (order : Nat → List (GoString × GoString))
    (ho : MapOrder placeOfBirthReplaces order) (fuel : Nat) (x r : GoString)
    (h : PassportPlaceOfBirthNormalize order fuel x = some r) :
    ∀ rule ∈ placeOfBirthReplaces, Replace r rule.1 rule.2 = r := by
  unfold PassportPlaceOfBirthNormalize at h
  split_ifs at h with he
  · obtain rfl := Option.some.inj h
    intro rule hr
    obtain ⟨p, q, r, rfl, -⟩ := placeOfBirth_rules rule hr
    rfl
  · exact normalizeLoop_fixed placeOfBirthReplaces placeOfBirth_H2 order ho fuel 0 x r h
/-! ## The issuing authority -/

theorem squeezeRunsAux_cons (prev : Option Byte) (c : Byte) (rest : GoString) :
    squeezeRunsAux prev (c :: rest) =
      if prev = some c ∧ c ∈ squeezedCharacters then squeezeRunsAux (some c) rest
      else c :: squeezeRunsAux (some c) rest := rfl

/-- A rule that replaces a squeezed character twice by itself once keeps the
squeezed text. -/
theorem squeeze_Replace (p : Byte) (hp : p ∈ squeezedCharacters) (s : GoString) :
    ∀ prev, squeezeRunsAux prev (Replace s [p, p] [p]) = squeezeRunsAux prev s := by
  induction s using pair_induction with
  | h0 => intro prev; rfl
  | h1 a => intro prev; rw [Replace_pair_single]
  | h2 a b rest ih1 ih2 =>
    intro prev
    rw [Replace_pair_cons]
    by_cases hc : a = p ∧ b = p
    · rw [if_pos hc, hc.1, hc.2]
      simp only [squeezeRunsAux_cons, ih1, hp, and_self, and_true, if_true]
    · rw [if_neg hc, squeezeRunsAux_cons, ih2, squeezeRunsAux_cons prev a]

theorem issuedBy_rules (rule : GoString × GoString) (h : rule ∈ issuedByReplaces) :
    ∃ p : Byte, rule = ([p, p], [p]) ∧ p ∈ squeezedCharacters := by
  simp only [issuedByReplaces, List.mem_cons, List.mem_singleton, List.not_mem_nil,
    or_false] at h
  rcases h with rfl | rfl | rfl | rfl | rfl
  · exact ⟨0x20, rfl, by decide⟩
  · exact ⟨0x2E, rfl, by decide⟩
  · exact ⟨0x2C, rfl, by decide⟩
  · exact ⟨0x22, rfl, by decide⟩
  · exact ⟨0x27, rfl, by decide⟩

theorem issuedBy_rule_mem (p : Byte) (hp : p ∈ squeezedCharacters) :
    (([p, p], [p]) : GoString × GoString) ∈ issuedByReplaces := by
  simp only [squeezedCharacters, List.mem_cons, List.mem_singleton, List.not_mem_nil,
    or_false] at hp
  rcases hp with rfl | rfl | rfl | rfl | rfl <;> simp [issuedByReplaces]

/-- A text in which no squeezed character stands twice in a row is its own
squeezed text. -/
theorem squeeze_of_no_pair (s : GoString)
    (h : ∀ p ∈ squeezedCharacters, ¬ [p, p] <:+: s) :
    ∀ prev : Option Byte,
      (∀ c, s.head? = some c → prev = some c → c ∉ squeezedCharacters) →
      squeezeRunsAux prev s = s := by
  induction s with
  | nil => intro prev _; rfl
  | cons c rest ih =>
    intro prev hprev
    have hrest : ∀ p ∈ squeezedCharacters, ¬ [p, p] <:+: rest :=
      fun p hp hi => h p hp (List.infix_cons hi)
    rw [squeezeRunsAux_cons, if_neg (fun hc => hprev c rfl hc.1 hc.2)]
    rw [ih hrest (some c)]
    intro d hd hcd hmem
    obtain rfl := Option.some.inj hcd
    cases rest with
    | nil => simp at hd
    | cons e rest' =>
      simp only [List.head?_cons, Option.some.injEq] at hd
      subst hd
      exact h e hmem ⟨[], rest', rfl⟩

theorem issuedBy_H1 (rule : GoString × GoString) (h : rule ∈ issuedByReplaces)
    (s : GoString) : squeezeRuns (Replace s rule.1 rule.2) = squeezeRuns s := by
  obtain ⟨p, rfl, hp⟩ := issuedBy_rules rule h
  exact squeeze_Replace p hp s none

theorem issuedBy_H2 (rule : GoString × GoString) (h : rule ∈ issuedByReplaces)
    (s : GoString) (hne : Replace s rule.1 rule.2 ≠ s) :
    (Replace s rule.1 rule.2).length < s.length := by
  obtain ⟨p, rfl, -⟩ := issuedBy_rules rule h
  exact Replace_pair_length_lt p p p s hne

/-- A text no rule of the issuing authority changes has no squeezed
character twice in a row. -/
theorem issuedBy_no_pair (s : GoString)
    (h : ∀ rule ∈ issuedByReplaces, Replace s rule.1 rule.2 = s) (p : Byte)
    (hp : p ∈ squeezedCharacters) : ¬ [p, p] <:+: s :=
  not_infix_of_Replace_eq p p p s (h ([p, p], [p]) (issuedBy_rule_mem p hp))

theorem issuedBy_H3 (s : GoString)
    (h : ∀ rule ∈ issuedByReplaces, Replace s rule.1 rule.2 = s) : squeezeRuns s = s :=
  squeeze_of_no_pair s (issuedBy_no_pair s h) none (fun _ _ hn => Option.noConfusion hn)

/-- With fuel for one pass more than the text has bytes,
`PassportIssuedByNormalize` returns the squeezed text, whatever the order in
which the passes visit the rules. -/
theorem issuedBy_normalize_eq (order : Nat → List (GoString × GoString))
    (ho : MapOrder issuedByReplaces order) (fuel : Nat) (x : GoString)
    (hf : x.length + 1 ≤ fuel) :
    PassportIssuedByNormalize order fuel x = some (squeezeRuns x) := by
  unfold PassportIssuedByNormalize
  split_ifs with he
  · subst he; rfl
  · exact normalizeLoop_eq squeezeRuns issuedByReplaces issuedBy_H1 issuedBy_H2 issuedBy_H3
      order ho fuel 0 x hf

/-- Whatever `PassportIssuedByNormalize` returns is a text that none of its
rules changes. -/
theorem issuedBy_normalize_fixed (order : Nat → List (GoString × GoString))
    (ho : MapOrder issuedByReplaces order) (fuel : Nat) (x r : GoString)
    (h : PassportIssuedByNormalize order fuel x = some r) :
    ∀ rule ∈ issuedByReplaces, Replace r rule.1 rule.2 = r := by
  unfold PassportIssuedByNormalize at h
  split_ifs at h with he
  · obtain rfl := Option.some.inj h
    intro rule hr
    obtain ⟨p, rfl, -⟩ := issuedBy_rules rule hr
    rfl
  · exact normalizeLoop_fixed issuedByReplaces issuedBy_H2 order ho fuel 0 x r h

theorem sourceOrder_MapOrder (replaces : List (GoString × GoString)) :
    MapOrder replaces (sourceOrder replaces) := fun _ => List.Perm.refl _

/-- Whenever the loop ends, with whatever fuel, it returns `canon` of the
text it started from. -/
theorem normalizeLoop_some_eq (canon : GoString → GoString) (m : List (GoString × GoString))
    (H1 : ∀ rule ∈ m, ∀ s, canon (Replace s rule.1 rule.2) = canon s)
    (H2 : ∀ rule ∈ m, ∀ s, Replace s rule.1 rule.2 ≠ s →
      (Replace s rule.1 rule.2).length < s.length)
    (H3 : ∀ s, (∀ rule ∈ m, Replace s rule.1 rule.2 = s) → canon s = s)
    (order : Nat → List (GoString × GoString)) (ho : MapOrder m order) :
    ∀ (fuel pass : Nat) (s r : GoString), normalizeLoop order fuel pass s = some r →
      r = canon s := by
  intro fuel
  induction fuel with
  | zero => intro pass s r h; simp [normalizeLoop] at h
  | succ fuel ih =>
    intro pass s r h
    have hfix := normalizeLoop_fixed m H2 order ho (fuel + 1) pass s r h
    have hsub : ∀ rule ∈ order pass, rule ∈ m := fun r hr => (ho pass).subset hr
    have hcan := rangeReplaces_canon canon m H1 (order pass) hsub s false
    obtain ⟨-, -, l3⟩ := rangeReplaces_length m H2 (order pass) hsub s false
    simp only [normalizeLoop] at h
    by_cases hf : (rangeReplaces (order pass) (s, false)).2 = true
    · rw [if_pos hf] at h
      rw [ih _ _ _ h, hcan]
    · rw [if_neg hf] at h
      obtain rfl := Option.some.inj h
      rw [← hcan]
      exact (H3 _ hfix).symm

theorem placeOfBirth_some_eq (order : Nat → List (GoString × GoString))
    (ho : MapOrder placeOfBirthReplaces order) (fuel : Nat) (x r : GoString)
    (h : PassportPlaceOfBirthNormalize order fuel x = some r) : r = collapseSeparators x := by
  unfold PassportPlaceOfBirthNormalize at h
  split_ifs at h with he
  · obtain rfl := Option.some.inj h
    subst he; rfl
  · exact normalizeLoop_some_eq collapseSeparators placeOfBirthReplaces placeOfBirth_H1
      placeOfBirth_H2 placeOfBirth_H3 order ho fuel 0 x r h

theorem issuedBy_some_eq (order : Nat → List (GoString × GoString))
    (ho : MapOrder issuedByReplaces order) (fuel : Nat) (x r : GoString)
    (h : PassportIssuedByNormalize order fuel x = some r) : r = squeezeRuns x := by
  unfold PassportIssuedByNormalize at h
  split_ifs at h with he
  · obtain rfl := Option.some.inj h
    subst he; rfl
  · exact normalizeLoop_some_eq squeezeRuns issuedByReplaces issuedBy_H1 issuedBy_H2
      issuedBy_H3 order ho fuel 0 x r h

/-- The collapsed text is a text no rule of the place of birth changes. -/
theorem collapse_fixed (x : GoString) :
    ∀ rule ∈ placeOfBirthReplaces,
      Replace (collapseSeparators x) rule.1 rule.2 = collapseSeparators x :=
  placeOfBirth_normalize_fixed _ (sourceOrder_MapOrder _) (x.length + 1) x _
    (placeOfBirth_normalize_eq _ (sourceOrder_MapOrder _) _ x (le_refl _))

/-- The squeezed text is a text no rule of the issuing authority changes. -/
theorem squeeze_fixed (x : GoString) :
    ∀ rule ∈ issuedByReplaces, Replace (squeezeRuns x) rule.1 rule.2 = squeezeRuns x :=
  issuedBy_normalize_fixed _ (sourceOrder_MapOrder _) (x.length + 1) x _
    (issuedBy_normalize_eq _ (sourceOrder_MapOrder _) _ x (le_refl _))

theorem collapse_idem (x : GoString) :
    collapseSeparators (collapseSeparators x) = collapseSeparators x :=
  placeOfBirth_H3 _ (collapse_fixed x)

theorem squeeze_idem (x : GoString) : squeezeRuns (squeezeRuns x) = squeezeRuns x :=
  issuedBy_H3 _ (squeeze_fixed x)

theorem reverse_MapOrder (replaces : List (GoString × GoString)) :
    MapOrder replaces (fun _ => replaces.reverse) := fun _ => List.reverse_perm _

/-! ## Properties of the normalizers -/

/-- C12: both normalizers are idempotent: the string a normalizer returns
for `x` is returned unchanged when the normalizer is applied to it, whatever
the orders in which the two calls visit the rules. -/
theorem normalizers_idempotent (x : GoString)
    (placeOrder issuedOrder : Nat → List (GoString × GoString)) (fuel : Nat)
    (hp : MapOrder placeOfBirthReplaces placeOrder)
    (hi : MapOrder issuedByReplaces issuedOrder) (hf : x.length + 1 ≤ fuel) :
    (∃ y, PassportPlaceOfBirthNormalize placeOrder fuel x = some y ∧
      ∀ order fuel', MapOrder placeOfBirthReplaces order → y.length + 1 ≤ fuel' →
        PassportPlaceOfBirthNormalize order fuel' y = some y) ∧
    (∃ y, PassportIssuedByNormalize issuedOrder fuel x = some y ∧
      ∀ order fuel', MapOrder issuedByReplaces order → y.length + 1 ≤ fuel' →
        PassportIssuedByNormalize order fuel' y = some y) := by
  constructor
  · refine ⟨collapseSeparators x, placeOfBirth_normalize_eq placeOrder hp fuel x hf, ?_⟩
    intro order fuel' ho hf'
    rw [placeOfBirth_normalize_eq order ho fuel' _ hf', collapse_idem]
  · refine ⟨squeezeRuns x, issuedBy_normalize_eq issuedOrder hi fuel x hf, ?_⟩
    intro order fuel' ho hf'
    rw [issuedBy_normalize_eq order ho fuel' _ hf', squeeze_idem]

/-- C12, at the text "U  S- SR" of the package's tests, with the rules
visited in the order of the source. -/
theorem normalizers_idempotent_witness :
    (∃ y, PassportPlaceOfBirthNormalize (sourceOrder placeOfBirthReplaces) 9
        (str "U  S- SR") = some y ∧
      ∀ order fuel', MapOrder placeOfBirthReplaces order → y.length + 1 ≤ fuel' →
        PassportPlaceOfBirthNormalize order fuel' y = some y) ∧
    (∃ y, PassportIssuedByNormalize (sourceOrder issuedByReplaces) 9
        (str "U  S- SR") = some y ∧
      ∀ order fuel', MapOrder issuedByReplaces order → y.length + 1 ≤ fuel' →
        PassportIssuedByNormalize order fuel' y = some y) :=
  normalizers_idempotent (str "U  S- SR") (sourceOrder placeOfBirthReplaces)
    (sourceOrder issuedByReplaces) 9 (sourceOrder_MapOrder _) (sourceOrder_MapOrder _)
    (by decide)

/-- C13: the result of each normalizer does not depend on the order in which
the rules are visited: two runs on the same text, each with its own order of
the rules in every pass, return one and the same string. -/
theorem normalizers_order_independent (x : GoString)
    (placeOrder₁ placeOrder₂ issuedOrder₁ issuedOrder₂ : Nat → List (GoString × GoString))
    (fuel₁ fuel₂ : Nat)
    (hp₁ : MapOrder placeOfBirthReplaces placeOrder₁)
    (hp₂ : MapOrder placeOfBirthReplaces placeOrder₂)
    (hi₁ : MapOrder issuedByReplaces issuedOrder₁)
    (hi₂ : MapOrder issuedByReplaces issuedOrder₂)
    (hf₁ : x.length + 1 ≤ fuel₁) (hf₂ : x.length + 1 ≤ fuel₂) :
    (∃ y, PassportPlaceOfBirthNormalize placeOrder₁ fuel₁ x = some y ∧
      PassportPlaceOfBirthNormalize placeOrder₂ fuel₂ x = some y) ∧
    (∃ y, PassportIssuedByNormalize issuedOrder₁ fuel₁ x = some y ∧
      PassportIssuedByNormalize issuedOrder₂ fuel₂ x = some y) :=
  ⟨⟨collapseSeparators x, placeOfBirth_normalize_eq placeOrder₁ hp₁ fuel₁ x hf₁,
      placeOfBirth_normalize_eq placeOrder₂ hp₂ fuel₂ x hf₂⟩,
    ⟨squeezeRuns x, issuedBy_normalize_eq issuedOrder₁ hi₁ fuel₁ x hf₁,
      issuedBy_normalize_eq issuedOrder₂ hi₂ fuel₂ x hf₂⟩⟩

/-- C13, at the text "-  -" of the package's tests: the order of the source
and the reverse order give the same string. -/
theorem normalizers_order_independent_witness :
    (∃ y, PassportPlaceOfBirthNormalize (sourceOrder placeOfBirthReplaces) 5 (str "-  -")
        = some y ∧
      PassportPlaceOfBirthNormalize (fun _ => placeOfBirthReplaces.reverse) 5 (str "-  -")
        = some y) ∧
    (∃ y, PassportIssuedByNormalize (sourceOrder issuedByReplaces) 5 (str "-  -") = some y ∧
      PassportIssuedByNormalize (fun _ => issuedByReplaces.reverse) 5 (str "-  -")
        = some y) :=
  normalizers_order_independent (str "-  -") (sourceOrder placeOfBirthReplaces)
    (fun _ => placeOfBirthReplaces.reverse) (sourceOrder issuedByReplaces)
    (fun _ => issuedByReplaces.reverse) 5 5 (sourceOrder_MapOrder _) (reverse_MapOrder _)
    (sourceOrder_MapOrder _) (reverse_MapOrder _) (by decide) (by decide)

/-- C14: the loop of both normalizers ends on every text: a rule that
changes the text makes it strictly shorter, a pass that sets `findReplace`
makes the text strictly shorter, and the loop ends within `len(x) + 1` passes,
so that both normalizers return a string, the same one for any larger number
of passes allowed. -/
theorem normalizers_terminate (x : GoString)
    (placeOrder issuedOrder : Nat → List (GoString × GoString))
    (hp : MapOrder placeOfBirthReplaces placeOrder)
    (hi : MapOrder issuedByReplaces issuedOrder) :
    (∀ rule ∈ placeOfBirthReplaces ++ issuedByReplaces, ∀ s : GoString,
      Replace s rule.1 rule.2 ≠ s → (Replace s rule.1 rule.2).length < s.length) ∧
    (∀ (pass : Nat) (s : GoString),
      ((rangeReplaces (placeOrder pass) (s, false)).2 = true →
        (rangeReplaces (placeOrder pass) (s, false)).1.length < s.length) ∧
      ((rangeReplaces (issuedOrder pass) (s, false)).2 = true →
        (rangeReplaces (issuedOrder pass) (s, false)).1.length < s.length)) ∧
    (∃ y, PassportPlaceOfBirthNormalize placeOrder (x.length + 1) x = some y ∧
      ∀ fuel, x.length + 1 ≤ fuel → PassportPlaceOfBirthNormalize placeOrder fuel x = some y) ∧
    (∃ y, PassportIssuedByNormalize issuedOrder (x.length + 1) x = some y ∧
      ∀ fuel, x.length + 1 ≤ fuel → PassportIssuedByNormalize issuedOrder fuel x = some y) := by
  refine ⟨?_, ?_, ?_, ?_⟩
  · intro rule hr s hne
    rcases List.mem_append.1 hr with h | h
    · exact placeOfBirth_H2 rule h s hne
    · exact issuedBy_H2 rule h s hne
  · intro pass s
    constructor
    · intro hflag
      exact (rangeReplaces_length placeOfBirthReplaces placeOfBirth_H2 (placeOrder pass)
        (fun r hr => (hp pass).subset hr) s false).2.1 hflag rfl
    · intro hflag
      exact (rangeReplaces_length issuedByReplaces issuedBy_H2 (issuedOrder pass)
        (fun r hr => (hi pass).subset hr) s false).2.1 hflag rfl
  · exact ⟨collapseSeparators x, placeOfBirth_normalize_eq placeOrder hp _ x (le_refl _),
      fun fuel hf => placeOfBirth_normalize_eq placeOrder hp fuel x hf⟩
  · exact ⟨squeezeRuns x, issuedBy_normalize_eq issuedOrder hi _ x (le_refl _),
      fun fuel hf => issuedBy_normalize_eq issuedOrder hi fuel x hf⟩

/-- C14, at the text "-  -" of the package's tests, with the rules visited
in the order of the source: both normalizers return a string within five
passes. -/
theorem normalizers_terminate_witness :
    (∃ y, PassportPlaceOfBirthNormalize (sourceOrder placeOfBirthReplaces)
        ((str "-  -").length + 1) (str "-  -") = some y ∧
      ∀ fuel, (str "-  -").length + 1 ≤ fuel →
        PassportPlaceOfBirthNormalize (sourceOrder placeOfBirthReplaces) fuel (str "-  -")
          = some y) ∧
    (∃ y, PassportIssuedByNormalize (sourceOrder issuedByReplaces)
        ((str "-  -").length + 1) (str "-  -") = some y ∧
      ∀ fuel, (str "-  -").length + 1 ≤ fuel →
        PassportIssuedByNormalize (sourceOrder issuedByReplaces) fuel (str "-  -")
          = some y) :=
  (normalizers_terminate (str "-  -") (sourceOrder placeOfBirthReplaces)
    (sourceOrder issuedByReplaces) (sourceOrder_MapOrder _) (sourceOrder_MapOrder _)).2.2

/-- C15: the string a normalizer returns is a fixed point of all its rules:
the place of birth comes back without two spaces, two hyphens, space-hyphen
or hyphen-space in it, the issuing authority without two spaces, two periods,
two commas, two double quotes or two single quotes; the empty text comes back
empty. -/
theorem normalizers_output_fixed (x : GoString)
    (placeOrder issuedOrder : Nat → List (GoString × GoString)) (fuel : Nat)
    (hp : MapOrder placeOfBirthReplaces placeOrder)
    (hi : MapOrder issuedByReplaces issuedOrder) (hf : x.length + 1 ≤ fuel) :
    (∃ y, PassportPlaceOfBirthNormalize placeOrder fuel x = some y ∧
      ¬ [0x20, 0x20] <:+: y ∧ ¬ [0x2D, 0x2D] <:+: y ∧ ¬ [0x20, 0x2D] <:+: y ∧
      ¬ [0x2D, 0x20] <:+: y) ∧
    (∃ y, PassportIssuedByNormalize issuedOrder fuel x = some y ∧
      ¬ [0x20, 0x20] <:+: y ∧ ¬ [0x2E, 0x2E] <:+: y ∧ ¬ [0x2C, 0x2C] <:+: y ∧
      ¬ [0x22, 0x22] <:+: y ∧ ¬ [0x27, 0x27] <:+: y) ∧
    (∀ fuel', PassportPlaceOfBirthNormalize placeOrder fuel' [] = some [] ∧
      PassportIssuedByNormalize issuedOrder fuel' [] = some []) := by
  refine ⟨?_, ?_, fun fuel' => ⟨rfl, rfl⟩⟩
  · have hy := placeOfBirth_normalize_eq placeOrder hp fuel x hf
    have hfix := placeOfBirth_normalize_fixed placeOrder hp fuel x _ hy
    have hno := placeOfBirth_no_pair _ hfix
    exact ⟨_, hy, hno _ _ (by decide) (by decide), hno _ _ (by decide) (by decide),
      hno _ _ (by decide) (by decide), hno _ _ (by decide) (by decide)⟩
  · have hy := issuedBy_normalize_eq issuedOrder hi fuel x hf
    have hfix := issuedBy_normalize_fixed issuedOrder hi fuel x _ hy
    have hno := issuedBy_no_pair _ hfix
    exact ⟨_, hy, hno _ (by decide), hno _ (by decide), hno _ (by decide), hno _ (by decide),
      hno _ (by decide)⟩

/-- C15, at the text "U  S- SR" of the package's tests, with the rules
visited in the order of the source. -/
theorem normalizers_output_fixed_witness :
    (∃ y, PassportPlaceOfBirthNormalize (sourceOrder placeOfBirthReplaces) 9
        (str "U  S- SR") = some y ∧
      ¬ [0x20, 0x20] <:+: y ∧ ¬ [0x2D, 0x2D] <:+: y ∧ ¬ [0x20, 0x2D] <:+: y ∧
      ¬ [0x2D, 0x20] <:+: y) ∧
    (∃ y, PassportIssuedByNormalize (sourceOrder issuedByReplaces) 9
        (str "U  S- SR") = some y ∧
      ¬ [0x20, 0x20] <:+: y ∧ ¬ [0x2E, 0x2E] <:+: y ∧ ¬ [0x2C, 0x2C] <:+: y ∧
      ¬ [0x22, 0x22] <:+: y ∧ ¬ [0x27, 0x27] <:+: y) :=
  ⟨(normalizers_output_fixed (str "U  S- SR") (sourceOrder placeOfBirthReplaces)
      (sourceOrder issuedByReplaces) 9 (sourceOrder_MapOrder _) (sourceOrder_MapOrder _)
      (by decide)).1,
    (normalizers_output_fixed (str "U  S- SR") (sourceOrder placeOfBirthReplaces)
      (sourceOrder issuedByReplaces) 9 (sourceOrder_MapOrder _) (sourceOrder_MapOrder _)
      (by decide)).2.1⟩

theorem squeezeRunsAux_sublist (s : GoString) :
    ∀ prev, (squeezeRunsAux prev s).Sublist s := by
  induction s with
  | nil => intro prev; exact List.Sublist.refl _
  | cons c rest ih =>
    intro prev
    rw [squeezeRunsAux_cons]
    split_ifs
    · exact List.Sublist.cons _ (ih _)
    · exact List.Sublist.cons₂ _ (ih _)

theorem squeezeRunsAux_filter (s : GoString) :
    ∀ prev, (squeezeRunsAux prev s).filter (fun b => decide (b ∉ squeezedCharacters)) =
      s.filter (fun b => decide (b ∉ squeezedCharacters)) := by
  induction s with
  | nil => intro prev; rfl
  | cons c rest ih =>
    intro prev
    rw [squeezeRunsAux_cons]
    split_ifs with h
    · rw [ih, List.filter_cons_of_neg (by simpa using h.2)]
    · by_cases hc : c ∈ squeezedCharacters
      · rw [List.filter_cons_of_neg (by simpa using hc),
          List.filter_cons_of_neg (by simpa using hc), ih]
      · rw [List.filter_cons_of_pos (by simpa using hc),
          List.filter_cons_of_pos (by simpa using hc), ih]

/-- C16: `PassportIssuedByNormalize` returns the text with every run of one
of the characters space, period, comma, double quote, single quote replaced
by a single occurrence of it; the result keeps the order of the characters
(it is the text with characters left out), keeps every character outside
that set, and holds none of the five characters twice in a row. -/
theorem issued_by_squeezes_runs (x : GoString) (order : Nat → List (GoString × GoString))
    (fuel : Nat) (ho : MapOrder issuedByReplaces order) (hf : x.length + 1 ≤ fuel) :
    PassportIssuedByNormalize order fuel x = some (squeezeRuns x) ∧
    (squeezeRuns x).Sublist x ∧
    (squeezeRuns x).filter (fun b => decide (b ∉ squeezedCharacters)) =
      x.filter (fun b => decide (b ∉ squeezedCharacters)) ∧
    (∀ p ∈ squeezedCharacters, ¬ [p, p] <:+: squeezeRuns x) := by
  refine ⟨issuedBy_normalize_eq order ho fuel x hf, squeezeRunsAux_sublist x none,
    squeezeRunsAux_filter x none, ?_⟩
  intro p hp
  exact issuedBy_no_pair _ (squeeze_fixed x) p hp

/-- C16, at the text of the package's tests, with the rules visited in the
order of the source: "ав ,, dsdd,  44 ;.." becomes "ав , dsdd, 44 ;.". -/
theorem issued_by_squeezes_runs_witness :
    PassportIssuedByNormalize (sourceOrder issuedByReplaces) 30 (str "ав ,, dsdd,  44 ;..") =
      some (str "ав , dsdd, 44 ;.") :=
  (issued_by_squeezes_runs (str "ав ,, dsdd,  44 ;..") (sourceOrder issuedByReplaces) 30
    (sourceOrder_MapOrder _) (by decide)).1.trans (congrArg some (by decide))

/-- C17, as the doc comment of the function states it, fails: whatever the
order of the rules and the number of passes, `PassportPlaceOfBirthNormalize`
does not return "USSR" for "US-  -SR". -/
theorem place_of_birth_doc_example_fails :
    ¬ ∃ (order : Nat → List (GoString × GoString)) (fuel : Nat),
      MapOrder placeOfBirthReplaces order ∧
      PassportPlaceOfBirthNormalize order fuel (str "US-  -SR") = some (str "USSR") := by
  rintro ⟨order, fuel, ho, h⟩
  have := placeOfBirth_some_eq order ho fuel _ _ h
  revert this
  decide

/-- C17, amended: `PassportPlaceOfBirthNormalize` replaces double spaces and
double hyphens by single ones and removes the spaces to the left and right of
a hyphen, so that it returns "US-SR" for "US-  -SR", whatever the order in
which the rules are visited. -/
theorem place_of_birth_doc_example (order : Nat → List (GoString × GoString)) (fuel : Nat)
    (ho : MapOrder placeOfBirthReplaces order) (hf : 9 ≤ fuel) :
    PassportPlaceOfBirthNormalize order fuel (str "US-  -SR") = some (str "US-SR") :=
  (placeOfBirth_normalize_eq order ho fuel (str "US-  -SR") (by
    have : (str "US-  -SR").length = 8 := by decide
    omega)).trans (congrArg some (by decide))

/-- C17, amended, with the rules visited in the order of the source and nine
passes allowed. -/
theorem place_of_birth_doc_example_witness :
    PassportPlaceOfBirthNormalize (sourceOrder placeOfBirthReplaces) 9 (str "US-  -SR") =
      some (str "US-SR") :=
  place_of_birth_doc_example (sourceOrder placeOfBirthReplaces) 9 (sourceOrder_MapOrder _)
    (by decide)
/-! ## The age at issue and the two expiries -/

/-- C18: the age at issue is a difference of calendar years: for the
birthday 2010-12-31, the issue date 2024-01-01 and the check date 2024-06-01
the holder is 13 in completed years on the issue date, the 14th birthday lies
after it, and `IsPassportIssueDateValid` returns nil. -/
theorem issue_date_age_is_year_difference :
    (completedYears (dateUTC 2010 12 31) (dateUTC 2024 1 1) = 13 ∧
      ((dateUTC 2010 12 31).AddDate 14 0 0).After (dateUTC 2024 1 1) = true ∧
      IsPassportIssueDateValid (dateUTC 2024 1 1) (dateUTC 2010 12 31) (dateUTC 2024 6 1)
        = none) ∧
    ∃ issueDate birthday checkDate : Time,
      completedYears birthday issueDate < 14 ∧
      (birthday.AddDate 14 0 0).After issueDate = true ∧
      IsPassportIssueDateValid issueDate birthday checkDate = none ∧
      IsPassportIssueDateValid issueDate birthday checkDate ≠
        some ErrInvalidIssueDateBefore14Birthday := by
  refine ⟨by decide, dateUTC 2024 1 1, dateUTC 2010 12 31, dateUTC 2024 6 1, ?_⟩
  decide

/-- A check date after the birthday plus 45 years and 91 days is after the
birthday plus 20 years and 91 days, when neither sum overflows. -/
theorem After_45_imp_20 (birthday checkDate : Time)
    (hfit20 : birthday.AddDateFits 20 0 91) (hfit45 : birthday.AddDateFits 45 0 91)
    (h : checkDate.After (birthday.AddDate 45 0 91) = true) :
    checkDate.After (birthday.AddDate 20 0 91) = true := by
  have hle := AddDate_20_le_45 birthday hfit20 hfit45
  cases h20 : checkDate.After (birthday.AddDate 20 0 91)
  · have := After_mono _ _ _ h20 hle.1 hle.2
    rw [h] at this
    exact Bool.noConfusion this
  · rfl

/-- C19, refuted as worded: a check date after the birthday plus 45 years
and 91 days need not be after the birthday plus 20 years and 91 days, as the
64-bit seconds of the first sum can wrap. For the non-zero birthday
292277024600-01-01 and the non-zero issue date 292277024615-01-01, which is
not after the check date 292277024615-01-02, the issue year minus the birth
year is 15, below 20, the check date is after the first sum and not after the
second, and `IsPassportIssueDateValid` returns
ErrIssueDatePassportExpiredAt45. -/
theorem issue_date_expired_at_45_below_20 :
    (dateUTC 292277024615 1 1).IsZero = false ∧
    (dateUTC 292277024600 1 1).IsZero = false ∧
    (dateUTC 292277024615 1 1).Year - (dateUTC 292277024600 1 1).Year < 20 ∧
    IsPassportIssueDateValid (dateUTC 292277024615 1 1) (dateUTC 292277024600 1 1)
        (dateUTC 292277024615 1 2) = some ErrIssueDatePassportExpiredAt45 ∧
    ¬ ((dateUTC 292277024615 1 2).After ((dateUTC 292277024600 1 1).AddDate 45 0 91) = true →
      (dateUTC 292277024615 1 2).After ((dateUTC 292277024600 1 1).AddDate 20 0 91) = true) := by
  decide

/-- C19, amended: for a non-zero issue date and a non-zero birthday whose
sums with 20 years and 91 days and with 45 years and 91 days are computed
without overflow of the 64-bit seconds, `IsPassportIssueDateValid` returns
ErrIssueDatePassportExpiredAt45 exactly when the issue date is not after the
check date, the issue year minus the birth year is in 20..44, and the check
date is after the birthday plus 45 years and 91 days; with a difference below
20 it never does, as a check date after the birthday plus 45 years and 91 days
is after the birthday plus 20 years and 91 days too. -/
theorem issue_date_expired_at_45 (issueDate birthday checkDate : Time)
    (hi : issueDate.IsZero = false) (hb : birthday.IsZero = false)
    (hfit20 : birthday.AddDateFits 20 0 91) (hfit45 : birthday.AddDateFits 45 0 91) :
    (IsPassportIssueDateValid issueDate birthday checkDate =
        some ErrIssueDatePassportExpiredAt45 ↔
      issueDate.After checkDate = false ∧ 20 ≤ issueDate.Year - birthday.Year ∧
        issueDate.Year - birthday.Year < 45 ∧
        checkDate.After (birthday.AddDate 45 0 91) = true) ∧
    (issueDate.Year - birthday.Year < 20 →
      IsPassportIssueDateValid issueDate birthday checkDate ≠
        some ErrIssueDatePassportExpiredAt45) ∧
    (checkDate.After (birthday.AddDate 45 0 91) = true →
      checkDate.After (birthday.AddDate 20 0 91) = true) := by
  have hiff : IsPassportIssueDateValid issueDate birthday checkDate =
        some ErrIssueDatePassportExpiredAt45 ↔
      issueDate.After checkDate = false ∧ 20 ≤ issueDate.Year - birthday.Year ∧
        issueDate.Year - birthday.Year < 45 ∧
        checkDate.After (birthday.AddDate 45 0 91) = true := by
    rw [issueDate_chain, if_neg (by simp [hi]), if_neg (by simp [hb])]
    constructor
    · intro h
      split_ifs at h with h14 hfut h20 h45 <;> first | exact absurd h (by decide) | skip
      · have hfut' : issueDate.After checkDate = false := by simpa using hfut
        refine ⟨hfut', ?_, h45.1, h45.2⟩
        by_contra hlt
        exact h20 ⟨by omega, After_45_imp_20 _ _ hfit20 hfit45 h45.2⟩
    · rintro ⟨hfut, hge, hlt, hafter⟩
      rw [if_neg (by omega), if_neg (by simp [hfut]), if_neg (by omega), if_pos ⟨hlt, hafter⟩]
  refine ⟨hiff, fun hlt h => ?_, After_45_imp_20 birthday checkDate hfit20 hfit45⟩
  have := (hiff.1 h).2.1
  omega

/-- C19, at dates of the package's tests: the document issued 1999-02-20 to
a holder born 1955-01-01 is expired at 45 on 2024-02-27. -/
theorem issue_date_expired_at_45_witness :
    IsPassportIssueDateValid (dateUTC 1999 2 20) (dateUTC 1955 1 1) (dateUTC 2024 2 27) =
      some ErrIssueDatePassportExpiredAt45 :=
  (issue_date_expired_at_45 (dateUTC 1999 2 20) (dateUTC 1955 1 1) (dateUTC 2024 2 27)
    (by decide) (by decide) (by decide) (by decide)).1.2 (by decide)

/-- C20: a document issued with the issue year minus the birth year at 45 or
more never expires: for a non-zero issue date that is not after the check
date and a non-zero birthday, `IsPassportIssueDateValid` returns nil. -/
theorem issue_date_from_45_never_expires (issueDate birthday checkDate : Time)
    (hi : issueDate.IsZero = false) (hb : birthday.IsZero = false)
    (h45 : 45 ≤ issueDate.Year - birthday.Year) (hfut : issueDate.After checkDate = false) :
    IsPassportIssueDateValid issueDate birthday checkDate = none := by
  rw [issueDate_chain, if_neg (by simp [hi]), if_neg (by simp [hb]), if_neg (by omega),
    if_neg (by simp [hfut]), if_neg (by omega), if_neg (by omega)]

/-- C20, at dates of the package's tests and far later: the document issued
2000-02-20 to a holder born 1955-02-20 is valid on 2024-02-27 and on
3000-01-01. -/
theorem issue_date_from_45_never_expires_witness :
    IsPassportIssueDateValid (dateUTC 2000 2 20) (dateUTC 1955 2 20) (dateUTC 2024 2 27) = none ∧
    IsPassportIssueDateValid (dateUTC 2000 2 20) (dateUTC 1955 2 20) (dateUTC 3000 1 1) = none :=
  ⟨issue_date_from_45_never_expires (dateUTC 2000 2 20) (dateUTC 1955 2 20)
      (dateUTC 2024 2 27) (by decide) (by decide) (by decide) (by decide),
    issue_date_from_45_never_expires (dateUTC 2000 2 20) (dateUTC 1955 2 20)
      (dateUTC 3000 1 1) (by decide) (by decide) (by decide) (by decide)⟩
/-! ## Calendar dates in order -/

/-- The table `daysBefore` in closed form. -/
theorem daysBefore_closed (m : Int) (h0 : 0 ≤ m) (h12 : m ≤ 12) :
    daysBefore m = (367 * (m + 1) - 362) / 12 - (if m ≥ 2 then 2 else 0) := by
  interval_cases m <;> decide

/-- The day of the year of a date of the calendar lies within the year. -/
theorem yday_bounds (leap : Prop) [Decidable leap] (m d : Int) (hm : 1 ≤ m ∧ m ≤ 12)
    (hd : 1 ≤ d ∧ d ≤ (if m = 2 ∧ leap then 29 else daysBefore m - daysBefore (m - 1))) :
    0 ≤ daysBefore (m - 1) + (if leap ∧ m ≥ 3 then 1 else 0) + (d - 1) ∧
      daysBefore (m - 1) + (if leap ∧ m ≥ 3 then 1 else 0) + (d - 1) <
        (if leap then 366 else 365) := by
  rw [daysBefore_closed m (by omega) (by omega),
    daysBefore_closed (m - 1) (by omega) (by omega)] at hd
  rw [daysBefore_closed (m - 1) (by omega) (by omega)]
  by_cases hl : leap
  · simp only [hl, and_true, true_and, if_true] at hd ⊢
    split_ifs at hd ⊢ <;> omega
  · simp only [hl, and_false, false_and, if_false] at hd ⊢
    split_ifs at hd ⊢ <;> omega

/-- Within a year the days of the year are in the order of the dates. -/
theorem yday_le_iff (leap : Prop) [Decidable leap] (m₁ d₁ m₂ d₂ : Int)
    (hm₁ : 1 ≤ m₁ ∧ m₁ ≤ 12) (hm₂ : 1 ≤ m₂ ∧ m₂ ≤ 12)
    (hd₁ : 1 ≤ d₁ ∧ d₁ ≤ (if m₁ = 2 ∧ leap then 29 else daysBefore m₁ - daysBefore (m₁ - 1)))
    (hd₂ : 1 ≤ d₂ ∧ d₂ ≤ (if m₂ = 2 ∧ leap then 29 else daysBefore m₂ - daysBefore (m₂ - 1))) :
    daysBefore (m₁ - 1) + (if leap ∧ m₁ ≥ 3 then 1 else 0) + (d₁ - 1) ≤
        daysBefore (m₂ - 1) + (if leap ∧ m₂ ≥ 3 then 1 else 0) + (d₂ - 1) ↔
      m₁ < m₂ ∨ (m₁ = m₂ ∧ d₁ ≤ d₂) := by
  rw [daysBefore_closed m₁ (by omega) (by omega),
    daysBefore_closed (m₁ - 1) (by omega) (by omega)] at hd₁
  rw [daysBefore_closed m₂ (by omega) (by omega),
    daysBefore_closed (m₂ - 1) (by omega) (by omega)] at hd₂
  rw [daysBefore_closed (m₁ - 1) (by omega) (by omega),
    daysBefore_closed (m₂ - 1) (by omega) (by omega)]
  by_cases hl : leap
  · simp only [hl, and_true, true_and, if_true] at hd₁ hd₂ ⊢
    split_ifs at hd₁ hd₂ ⊢ <;> omega
  · simp only [hl, and_false, false_and, if_false] at hd₁ hd₂ ⊢
    split_ifs at hd₁ hd₂ ⊢ <;> omega
/-- The day `Time.Date` computes from a day of the year is a day of the
month it computes. -/
theorem monthDay_le (leap : Prop) [Decidable leap] (yday : Int) (h0 : 0 ≤ yday)
    (hlt : yday < (if leap then 366 else 365)) (m dd : Int)
    (hm : (m, dd) =
      if leap ∧ yday = 31 + 29 - 1 then (2, 29)
      else
        if (if leap ∧ yday > 31 + 29 - 1 then yday - 1 else yday) ≥
            daysBefore ((if leap ∧ yday > 31 + 29 - 1 then yday - 1 else yday) / 31 + 1) then
          ((if leap ∧ yday > 31 + 29 - 1 then yday - 1 else yday) / 31 + 2,
            (if leap ∧ yday > 31 + 29 - 1 then yday - 1 else yday) -
              daysBefore ((if leap ∧ yday > 31 + 29 - 1 then yday - 1 else yday) / 31 + 1) + 1)
        else
          ((if leap ∧ yday > 31 + 29 - 1 then yday - 1 else yday) / 31 + 1,
            (if leap ∧ yday > 31 + 29 - 1 then yday - 1 else yday) -
              daysBefore ((if leap ∧ yday > 31 + 29 - 1 then yday - 1 else yday) / 31) + 1)) :
    dd ≤ (if m = 2 ∧ leap then 29 else daysBefore m - daysBefore (m - 1)) := by
  obtain ⟨t0, t1, t2, t3, t4, t5, t6, t7, t8, t9, t10, t11, t12⟩ := daysBefore_table
  by_cases hleapday : leap ∧ yday = 31 + 29 - 1
  · rw [if_pos hleapday] at hm
    obtain ⟨rfl, rfl⟩ := Prod.mk.inj hm
    have hl : leap := hleapday.1
    have hy : yday = 59 := by omega
    simp only [hl, true_and]
    norm_num [t1, hy]
  · rw [if_neg hleapday] at hm
    generalize hday : (if leap ∧ yday > 31 + 29 - 1 then yday - 1 else yday) = day at hm
    have hdb : 0 ≤ day ∧ day < 365 ∧ (leap → (yday ≤ 58 ∧ day = yday) ∨ (60 ≤ yday ∧ day = yday - 1))
        ∧ (¬ leap → day = yday) := by
      by_cases hl : leap
      · simp only [hl, if_true, true_and] at hlt hday hleapday
        simp only [hl, true_implies, not_true_eq_false, false_implies, and_true]
        split_ifs at hday <;> omega
      · simp only [hl, if_false, false_and] at hlt hday
        simp only [hl, false_implies, not_false_eq_true, true_implies, true_and]
        omega
    generalize hmon : day / 31 = mon at hm
    have hmb : 0 ≤ mon ∧ mon ≤ 11 := by omega
    obtain ⟨hm0, hm11⟩ := hmb
    by_cases hl : leap
    · have hcase := hdb.2.2.1 hl
      simp only [hl, true_and]
      interval_cases mon <;> norm_num [t0, t1, t2, t3, t4, t5, t6, t7, t8, t9, t10, t11, t12] at hm <;>
        split_ifs at hm <;> obtain ⟨rfl, rfl⟩ := Prod.mk.inj hm <;>
        norm_num [t0, t1, t2, t3, t4, t5, t6, t7, t8, t9, t10, t11, t12] <;> omega
    · have hcase := hdb.2.2.2 hl
      simp only [hl, false_and, if_false]
      interval_cases mon <;> norm_num [t0, t1, t2, t3, t4, t5, t6, t7, t8, t9, t10, t11, t12] at hm <;>
        split_ifs at hm <;> obtain ⟨rfl, rfl⟩ := Prod.mk.inj hm <;>
        norm_num [t0, t1, t2, t3, t4, t5, t6, t7, t8, t9, t10, t11, t12] <;> omega

/-- The date of a time is a date of the calendar: the month lies in 1..12 and
the day is a day of that month. -/
theorem Date_valid (t : Time) :
    (1 ≤ t.Date.2.1 ∧ t.Date.2.1 ≤ 12) ∧
      (1 ≤ t.Date.2.2 ∧ t.Date.2.2 ≤ daysIn t.Date.2.1 t.Date.1) := by
  have hs := absDate_spec t.localDays
  have hle := monthDay_le (isLeap (absDate t.localDays).1 = true) (absDate t.localDays).2
    hs.2.1 hs.2.2 t.Date.2.1 t.Date.2.2 (by
      unfold Time.Date
      simp only
      split_ifs <;> rfl)
  have hd := Date_spec t
  have hy : t.Date.1 = (absDate t.localDays).1 := Date_year t
  refine ⟨⟨hd.1, hd.2.1⟩, hd.2.2.1, ?_⟩
  unfold daysIn
  rw [hy]
  exact hle

/-- The days from 0001-01-01 to two dates of the calendar are in the order
of the dates. -/
theorem dayNumber_le_iff (y₁ m₁ d₁ y₂ m₂ d₂ : Int)
    (hm₁ : 1 ≤ m₁ ∧ m₁ ≤ 12) (hd₁ : 1 ≤ d₁ ∧ d₁ ≤ daysIn m₁ y₁)
    (hm₂ : 1 ≤ m₂ ∧ m₂ ≤ 12) (hd₂ : 1 ≤ d₂ ∧ d₂ ≤ daysIn m₂ y₂) :
    daysSinceEpoch y₁ + daysBefore (m₁ - 1) + (if isLeap y₁ = true ∧ m₁ ≥ 3 then 1 else 0)
        + (d₁ - 1) ≤
      daysSinceEpoch y₂ + daysBefore (m₂ - 1) + (if isLeap y₂ = true ∧ m₂ ≥ 3 then 1 else 0)
        + (d₂ - 1) ↔
      y₁ < y₂ ∨ (y₁ = y₂ ∧ (m₁ < m₂ ∨ (m₁ = m₂ ∧ d₁ ≤ d₂))) := by
  have b₁ := yday_bounds (isLeap y₁ = true) m₁ d₁ hm₁ hd₁
  have b₂ := yday_bounds (isLeap y₂ = true) m₂ d₂ hm₂ hd₂
  have s₁ := daysSinceEpoch_succ y₁
  have s₂ := daysSinceEpoch_succ y₂
  rcases lt_trichotomy y₁ y₂ with h | h | h
  · have hmono := daysSinceEpoch_mono (y₁ + 1) y₂ (by omega)
    constructor
    · intro _; exact Or.inl h
    · intro _; omega
  · subst h
    have := yday_le_iff (isLeap y₁ = true) m₁ d₁ m₂ d₂ hm₁ hm₂ hd₁ hd₂
    constructor
    · intro hle
      exact Or.inr ⟨rfl, this.1 (by omega)⟩
    · rintro (hlt | ⟨-, hlex⟩)
      · omega
      · have := this.2 hlex
        omega
  · have hmono := daysSinceEpoch_mono (y₂ + 1) y₁ (by omega)
    constructor
    · intro _; omega
    · rintro (hlt | ⟨heq, -⟩) <;> omega

/-- The seconds of a calendar date at midnight UTC, by its date. -/
theorem midnight_sec (t : Time) (h : midnightUTC t) (hr : t.Representable) :
    t.sec = (daysSinceEpoch t.Date.1 + daysBefore (t.Date.2.1 - 1) +
      (if isLeap t.Date.1 = true ∧ t.Date.2.1 ≥ 3 then 1 else 0) + (t.Date.2.2 - 1)) * 86400 ∧
    t.localClock = 0 := by
  obtain ⟨hoff, -, hsec⟩ := h
  obtain ⟨r1, r2, r3, r4⟩ := hr
  rw [(Date_spec t).2.2.2.2]
  have habs : t.abs = t.sec + 9223371966579724800 := by
    unfold Time.abs toUint64
    unfold internalToAbsolute at r3 r4 ⊢
    rw [hoff] at r3 r4 ⊢
    rw [Int.emod_eq_of_lt r3 r4]
    omega
  unfold Time.localDays Time.localClock daysToYearOne
  rw [habs]
  constructor <;> omega

/-- What the check date moved back 18 years is, for a check date at midnight
UTC: the seconds of the day 18 years before on the calendar, normalised when
that day does not exist. -/
theorem AddDate_back_18_midnight (c : Time) (hc : midnightUTC c) (hr : c.Representable)
    (hfit : c.AddDateFits (-18) 0 0) :
    (c.AddDate (-18) 0 0).sec =
      (daysSinceEpoch (c.Date.1 - 18) + daysBefore (c.Date.2.1 - 1) +
        (if isLeap (c.Date.1 - 18) = true ∧ c.Date.2.1 ≥ 3 then 1 else 0) +
        (c.Date.2.2 - 1)) * 86400 ∧
    (c.AddDate (-18) 0 0).nsec = 0 := by
  have hv := Date_valid c
  have hclock := (midnight_sec c hc hr).2
  obtain ⟨hoff, hns, -⟩ := hc
  have h := mkDate_sec (c.Date.1 + -18) (c.Date.2.1 + 0) (c.Date.2.2 + 0) c.localClock c.nsec
    c.offset (by simpa using hv.1) hfit
  simp only [add_zero] at h
  have e : c.Date.1 + -18 = c.Date.1 - 18 := by ring
  rw [e] at h
  refine ⟨?_, hns⟩
  simp only [Time.AddDate, add_zero, e]
  rw [h, hclock, hoff]
  omega

/-- For a birthday and a check date at midnight UTC, the birthday is after
the check date moved back 18 years exactly when its day number is past the
one of the day 18 years before the check date. -/
theorem After_back_18_iff (b c : Time) (hb : midnightUTC b) (hc : midnightUTC c)
    (hrb : b.Representable) (hrc : c.Representable) (hfit : c.AddDateFits (-18) 0 0) :
    b.After (c.AddDate (-18) 0 0) = false ↔
      daysSinceEpoch b.Date.1 + daysBefore (b.Date.2.1 - 1) +
          (if isLeap b.Date.1 = true ∧ b.Date.2.1 ≥ 3 then 1 else 0) + (b.Date.2.2 - 1) ≤
        daysSinceEpoch (c.Date.1 - 18) + daysBefore (c.Date.2.1 - 1) +
          (if isLeap (c.Date.1 - 18) = true ∧ c.Date.2.1 ≥ 3 then 1 else 0) +
          (c.Date.2.2 - 1) := by
  obtain ⟨hxsec, hxns⟩ := AddDate_back_18_midnight c hc hrc hfit
  have hbsec := (midnight_sec b hb hrb).1
  have hbns : b.nsec = 0 := hb.2.1
  constructor
  · intro h
    have hn : ¬ (b.sec > (c.AddDate (-18) 0 0).sec ∨
        (b.sec = (c.AddDate (-18) 0 0).sec ∧ b.nsec > (c.AddDate (-18) 0 0).nsec)) := by
      rw [← After_iff, h]; simp
    omega
  · intro h
    cases h' : b.After (c.AddDate (-18) 0 0)
    · rfl
    · rw [After_iff] at h'
      omega

/-- A birthday that is not after the check date moved back 18 years is not
after the check date. -/
theorem not_After_of_back_18 (b c : Time) (hr : c.Representable)
    (hfit : c.AddDateFits (-18) 0 0) (h : b.After (c.AddDate (-18) 0 0) = false) :
    b.After c = false := by
  have hx := AddDate_back_18_not_After c hr hfit
  have hn : ¬ ((c.AddDate (-18) 0 0).sec > c.sec ∨
      ((c.AddDate (-18) 0 0).sec = c.sec ∧ (c.AddDate (-18) 0 0).nsec > c.nsec)) := by
    rw [← After_iff, hx]; simp
  have hns : (c.AddDate (-18) 0 0).nsec = c.nsec := rfl
  exact After_mono b _ c h (by omega) hns

/-- `IsPassportBirthdayValid` on a non-zero birthday, by the one check that
decides. -/
theorem birthday_none_iff (b c : Time) (hz : b.IsZero = false) (hr : c.Representable)
    (hfit : c.AddDateFits (-18) 0 0) :
    IsPassportBirthdayValid b c = none ↔ b.After (c.AddDate (-18) 0 0) = false := by
  constructor
  · intro h
    unfold IsPassportBirthdayValid at h
    split_ifs at h with h1 h2 h3
    simpa using h3
  · intro h
    have h2 := not_After_of_back_18 b c hr hfit h
    simp [IsPassportBirthdayValid, hz, h, h2]

/-- For a non-zero birthday and a check date, both at midnight UTC and not
before the absolute epoch, with the check date not on a 29 February and moved
back 18 years without overflow: `IsPassportBirthdayValid` returns nil exactly
when the holder is at least 18 in completed calendar years on the check
date. -/
theorem birthday_valid_iff_completedYears (birthday checkDate : Time)
    (hb : midnightUTC birthday) (hc : midnightUTC checkDate)
    (hz : birthday.IsZero = false)
    (hrb : birthday.Representable) (hrc : checkDate.Representable)
    (hfit : checkDate.AddDateFits (-18) 0 0)
    (hday : ¬ (checkDate.Date.2.1 = 2 ∧ checkDate.Date.2.2 = 29)) :
    IsPassportBirthdayValid birthday checkDate = none ↔
      18 ≤ completedYears birthday checkDate := by
  rw [birthday_none_iff birthday checkDate hz hrc hfit,
    After_back_18_iff birthday checkDate hb hc hrb hrc hfit]
  have hvb := Date_valid birthday
  have hvc := Date_valid checkDate
  have hd18 : checkDate.Date.2.2 ≤ daysIn checkDate.Date.2.1 (checkDate.Date.1 - 18) := by
    have h := hvc.2.2
    have t := daysBefore_table
    unfold daysIn at h ⊢
    by_cases h2 : checkDate.Date.2.1 = 2
    · have hne : checkDate.Date.2.2 ≠ 29 := fun e => hday ⟨h2, e⟩
      rw [h2] at h ⊢
      have e1 : daysBefore 2 = 59 := t.2.2.1
      have e2 : daysBefore (2 - 1) = 31 := t.2.1
      simp only [true_and, e1, e2] at h ⊢
      split_ifs at h ⊢ <;> omega
    · simp only [h2, false_and, if_false] at h ⊢
      exact h
  rw [dayNumber_le_iff _ _ _ _ _ _ hvb.1 hvb.2 hvc.1 ⟨hvc.2.1, hd18⟩]
  unfold completedYears
  split_ifs <;> omega

/-- For a non-zero birthday at midnight UTC and a check date at midnight UTC
on a 29 February, both not before the absolute epoch and the check date moved
back 18 years without overflow: `IsPassportBirthdayValid` returns nil exactly
when the holder is at least 18 in completed calendar years on the check date
or was born on 1 March of the year 18 years before. -/
theorem birthday_valid_iff_on_leap_day (birthday checkDate : Time)
    (hb : midnightUTC birthday) (hc : midnightUTC checkDate)
    (hz : birthday.IsZero = false)
    (hrb : birthday.Representable) (hrc : checkDate.Representable)
    (hfit : checkDate.AddDateFits (-18) 0 0)
    (hday : checkDate.Date.2.1 = 2 ∧ checkDate.Date.2.2 = 29) :
    IsPassportBirthdayValid birthday checkDate = none ↔
      18 ≤ completedYears birthday checkDate ∨
        (birthday.Date.1 = checkDate.Date.1 - 18 ∧ birthday.Date.2.1 = 3 ∧
          birthday.Date.2.2 = 1) := by
  rw [birthday_none_iff birthday checkDate hz hrc hfit,
    After_back_18_iff birthday checkDate hb hc hrb hrc hfit]
  have hvb := Date_valid birthday
  have hvc := Date_valid checkDate
  obtain ⟨t0, t1, t2, t3, -⟩ := daysBefore_table
  have hleap : isLeap checkDate.Date.1 = true := by
    have h := hvc.2.2
    unfold daysIn at h
    rw [hday.1, hday.2] at h
    by_contra hn
    simp only [hn, and_false, if_false] at h
    have e1 : daysBefore (2 - 1) = 31 := t1
    rw [t2, e1] at h
    omega
  have hnot : isLeap (checkDate.Date.1 - 18) = false := by
    rw [isLeap_iff] at hleap
    cases h : isLeap (checkDate.Date.1 - 18)
    · rfl
    · rw [isLeap_iff] at h; omega
  have hmar : (1 : Int) ≤ daysIn 3 (checkDate.Date.1 - 18) := by
    unfold daysIn
    have e1 : daysBefore (3 - 1) = 59 := t2
    simp only [show ¬ ((3 : Int) = 2) by decide, false_and, if_false, t3, e1]
    omega
  have hrw : daysSinceEpoch (checkDate.Date.1 - 18) + daysBefore (checkDate.Date.2.1 - 1) +
        (if isLeap (checkDate.Date.1 - 18) = true ∧ checkDate.Date.2.1 ≥ 3 then 1 else 0) +
        (checkDate.Date.2.2 - 1) =
      daysSinceEpoch (checkDate.Date.1 - 18) + daysBefore (3 - 1) +
        (if isLeap (checkDate.Date.1 - 18) = true ∧ (3 : Int) ≥ 3 then 1 else 0) + (1 - 1) := by
    have e1 : daysBefore (2 - 1) = 31 := t1
    have e2 : daysBefore (3 - 1) = 59 := t2
    rw [hday.1, hday.2, hnot, e1, e2]
    simp
    omega
  rw [hrw, dayNumber_le_iff _ _ _ _ _ _ hvb.1 hvb.2 (by decide) ⟨le_refl _, hmar⟩]
  have hbd : birthday.Date.1 = checkDate.Date.1 - 18 → birthday.Date.2.1 = 2 →
      birthday.Date.2.2 ≤ 28 := by
    intro hy hm
    have h := hvb.2.2
    unfold daysIn at h
    have e1 : daysBefore (2 - 1) = 31 := t1
    rw [hy, hm, hnot] at h
    simp only [Bool.false_eq_true, and_false, if_false, t2, e1] at h
    omega
  unfold completedYears
  rw [hday.1, hday.2]
  have hvb1 := hvb.1
  have hvb2 := hvb.2.1
  split_ifs <;> omega

/-! ## The birthday on a leap day -/

/-- C11, at the birthday 2006-03-01 and the check date 2024-02-29, both at
midnight UTC: the holder is 17 in completed calendar years, the check date
moved back 18 years is 2006-03-01 (29 February 2006 does not exist and
`AddDate` normalises it), the birthday is not after it, and
`IsPassportBirthdayValid` returns nil. -/
theorem birthday_leap_day_accepts_17 :
    midnightUTC (dateUTC 2006 3 1) ∧ midnightUTC (dateUTC 2024 2 29) ∧
    (dateUTC 2006 3 1).IsZero = false ∧
    completedYears (dateUTC 2006 3 1) (dateUTC 2024 2 29) = 17 ∧
    (dateUTC 2024 2 29).AddDate (-18) 0 0 = dateUTC 2006 3 1 ∧
    IsPassportBirthdayValid (dateUTC 2006 3 1) (dateUTC 2024 2 29) = none := by
  decide
/-! ## The place of birth, run by run -/

theorem collapseSeparatorsAux_length (s : GoString) :
    ∀ pending : Option Byte,
      (collapseSeparatorsAux pending s).length ≤ pending.toList.length + s.length := by
  induction s with
  | nil => intro pending; simp [collapseSeparatorsAux]
  | cons c rest ih =>
    intro pending
    rw [collapseSeparatorsAux_cons]
    split_ifs
    · have := ih (some (joinSeparator pending c))
      simp only [Option.toList_some, List.length_singleton, List.length_cons,
        List.length_nil] at this ⊢
      omega
    · have := ih none
      simp only [Option.toList_none, List.length_nil, List.length_append, List.length_cons,
        zero_add] at this ⊢
      omega

theorem collapseSeparatorsAux_filter (s : GoString) :
    ∀ pending : Option Byte, (∀ p, pending = some p → isSeparator p = true) →
      (collapseSeparatorsAux pending s).filter (fun b => !isSeparator b) =
        s.filter (fun b => !isSeparator b) := by
  induction s with
  | nil =>
    intro pending hp
    cases pending with
    | none => rfl
    | some p => simp [collapseSeparatorsAux, hp p rfl]
  | cons c rest ih =>
    intro pending hp
    rw [collapseSeparatorsAux_cons]
    by_cases hc : isSeparator c = true
    · rw [if_pos hc, List.filter_cons_of_neg (by simp [hc])]
      apply ih
      intro p hpe
      obtain rfl := Option.some.inj hpe
      cases pending with
      | none => exact hc
      | some q =>
        simp only [joinSeparator]
        split_ifs <;> decide
    · rw [if_neg hc, List.filter_append, List.filter_cons_of_pos (by simp [hc]),
        List.filter_cons_of_pos (by simp [hc]), ih none (fun _ h => Option.noConfusion h)]
      cases pending with
      | none => rfl
      | some p => simp [hp p rfl]

/-- A text without spaces and hyphens is its own collapsed text. -/
theorem collapse_of_no_separator (s : GoString) (h : ∀ b ∈ s, isSeparator b = false) :
    collapseSeparators s = s := by
  unfold collapseSeparators
  induction s with
  | nil => rfl
  | cons c rest ih =>
    rw [collapseSeparatorsAux_cons, if_neg (by simp [h c (List.mem_cons_self _ _)]),
      ih (fun b hb => h b (List.mem_cons_of_mem _ hb))]
    rfl

/-- The collapsed text after a pending run, when the text does not go on with
the run: the character of the run, then the collapsed text. -/
theorem collapse_pending (p : Byte) (s : GoString)
    (h : ∀ b, s.head? = some b → isSeparator b = false) :
    collapseSeparatorsAux (some p) s = p :: collapseSeparatorsAux none s := by
  cases s with
  | nil => rfl
  | cons c rest =>
    have hc : isSeparator c = false := h c rfl
    rw [collapseSeparatorsAux_cons, collapseSeparatorsAux_cons, if_neg (by simp [hc]),
      if_neg (by simp [hc])]
    rfl

/-- The collapsed text of a run of spaces and hyphens that joins a pending
run and is followed by a text that does not go on with it. -/
theorem collapse_run (run v : GoString) (hrun : ∀ b ∈ run, isSeparator b = true)
    (hv : ∀ b, v.head? = some b → isSeparator b = false) :
    ∀ p : Byte, isSeparator p = true →
      collapseSeparatorsAux (some p) (run ++ v) =
        (if p = 0x2D ∨ (0x2D : Byte) ∈ run then (0x2D : Byte) else 0x20) ::
          collapseSeparatorsAux none v := by
  induction run with
  | nil =>
    intro p hp
    rw [List.nil_append, collapse_pending p v hv]
    rw [isSeparator_iff] at hp
    rcases hp with rfl | rfl <;> simp
  | cons c rest ih =>
    intro p hp
    have hc : isSeparator c = true := hrun c (List.mem_cons_self _ _)
    rw [List.cons_append, collapseSeparatorsAux_cons, if_pos hc,
      ih (fun b hb => hrun b (List.mem_cons_of_mem _ hb))]
    · rw [isSeparator_iff] at hp hc
      rcases hp with rfl | rfl <;> rcases hc with rfl | rfl <;>
        by_cases hm : (0x2D : Byte) ∈ rest <;> simp [joinSeparator, hm] <;> decide
    · rw [isSeparator_iff] at hp hc
      rcases hp with rfl | rfl <;> rcases hc with rfl | rfl <;> decide

/-- The collapsed text of a text that ends outside a run, followed by
another text: the two collapsed texts one after the other. -/
theorem collapse_append (u w : GoString) (hu : u ≠ [])
    (hlast : ∀ b, u.getLast? = some b → isSeparator b = false) :
    ∀ pending : Option Byte,
      collapseSeparatorsAux pending (u ++ w) =
        collapseSeparatorsAux pending u ++ collapseSeparatorsAux none w := by
  induction u with
  | nil => exact absurd rfl hu
  | cons c u' ih =>
    intro pending
    cases u' with
    | nil =>
      have hc : isSeparator c = false := hlast c rfl
      rw [List.singleton_append, collapseSeparatorsAux_cons, collapseSeparatorsAux_cons,
        if_neg (by simp [hc]), if_neg (by simp [hc])]
      simp [collapseSeparatorsAux]
    | cons d u'' =>
      have ih' := ih (List.cons_ne_nil _ _) (fun b hb => hlast b (by
        rw [List.getLast?_cons_cons]; exact hb))
      rw [List.cons_append, collapseSeparatorsAux_cons, collapseSeparatorsAux_cons pending c]
      split_ifs
      · exact ih' _
      · rw [ih' none]
        simp

/-- The collapsed text around a maximal run of spaces and hyphens: the run
is written as one hyphen when it holds a hyphen and as one space when it
does not, between the collapsed texts before and after it. -/
theorem collapse_maximal_run (u run v : GoString) (hne : run ≠ [])
    (hrun : ∀ b ∈ run, isSeparator b = true)
    (hu : ∀ b, u.getLast? = some b → isSeparator b = false)
    (hv : ∀ b, v.head? = some b → isSeparator b = false) :
    collapseSeparators (u ++ run ++ v) =
      collapseSeparators u ++
        (if (0x2D : Byte) ∈ run then (0x2D : Byte) else 0x20) :: collapseSeparators v := by
  have hrv : collapseSeparatorsAux none (run ++ v) =
      (if (0x2D : Byte) ∈ run then (0x2D : Byte) else 0x20) :: collapseSeparatorsAux none v := by
    cases run with
    | nil => exact absurd rfl hne
    | cons c rest =>
      have hc : isSeparator c = true := hrun c (List.mem_cons_self _ _)
      rw [List.cons_append, collapseSeparatorsAux_cons, if_pos hc]
      have hj : joinSeparator none c = c := rfl
      rw [hj, collapse_run rest v (fun b hb => hrun b (List.mem_cons_of_mem _ hb)) hv c hc]
      have hiff : (c = 0x2D ∨ (0x2D : Byte) ∈ rest) ↔ (0x2D : Byte) ∈ c :: rest := by
        rw [List.mem_cons, eq_comm]
      simp only [hiff]
  unfold collapseSeparators
  rw [List.append_assoc]
  by_cases hue : u = []
  · subst hue
    rw [List.nil_append, hrv]
    rfl
  · rw [collapse_append u (run ++ v) hue hu none, hrv]

/-! ## The place of birth and the series, last claims -/

/-- C21: `PassportPlaceOfBirthNormalize` returns the text with every maximal
run of spaces and hyphens replaced by one hyphen when the run holds a hyphen
and by one space when it holds spaces only: around each such run the result
is the character of the run between the results for what stands before and
after it, a text without spaces and hyphens comes back unchanged, the other
characters are kept in their order, and the result is not longer than the
text. -/
theorem place_of_birth_collapses_runs (x : GoString)
    (order : Nat → List (GoString × GoString)) (fuel : Nat)
    (ho : MapOrder placeOfBirthReplaces order) (hf : x.length + 1 ≤ fuel) :
    PassportPlaceOfBirthNormalize order fuel x = some (collapseSeparators x) ∧
    (∀ u run v : GoString, x = u ++ run ++ v → run ≠ [] →
      (∀ b ∈ run, isSeparator b = true) →
      (∀ b, u.getLast? = some b → isSeparator b = false) →
      (∀ b, v.head? = some b → isSeparator b = false) →
      collapseSeparators x =
        collapseSeparators u ++
          (if (0x2D : Byte) ∈ run then (0x2D : Byte) else 0x20) :: collapseSeparators v) ∧
    ((∀ b ∈ x, isSeparator b = false) → collapseSeparators x = x) ∧
    (collapseSeparators x).filter (fun b => !isSeparator b) =
      x.filter (fun b => !isSeparator b) ∧
    (collapseSeparators x).length ≤ x.length := by
  refine ⟨placeOfBirth_normalize_eq order ho fuel x hf, ?_, collapse_of_no_separator x,
    collapseSeparatorsAux_filter x none (fun _ h => Option.noConfusion h), ?_⟩
  · intro u run v hx hne hrun hu hv
    rw [hx]
    exact collapse_maximal_run u run v hne hrun hu hv
  · have := collapseSeparatorsAux_length x none
    simpa [collapseSeparators] using this

/-- C21, at the texts of the package's tests, with the rules visited in the
order of the source: "U  S- SR" becomes "U S-SR" and "-  -" becomes "-". -/
theorem place_of_birth_collapses_runs_witness :
    PassportPlaceOfBirthNormalize (sourceOrder placeOfBirthReplaces) 9 (str "U  S- SR") =
      some (str "U S-SR") ∧
    PassportPlaceOfBirthNormalize (sourceOrder placeOfBirthReplaces) 5 (str "-  -") =
      some (str "-") :=
  ⟨(place_of_birth_collapses_runs (str "U  S- SR") (sourceOrder placeOfBirthReplaces) 9
      (sourceOrder_MapOrder _) (by decide)).1.trans (congrArg some (by decide)),
    (place_of_birth_collapses_runs (str "-  -") (sourceOrder placeOfBirthReplaces) 5
      (sourceOrder_MapOrder _) (by decide)).1.trans (congrArg some (by decide))⟩

/-- C22: in `IsPassportSeriesValid`, for every series that passes the
four-digit format check the slice of the last two bytes is in bounds and is
two ASCII digits, `strconv.Atoi` succeeds on it with a value in 0..99, and the
function neither panics nor returns ErrInvalidPassportSeriesNot4Digits: it
returns nil or ErrInvalidPassportSeries. -/
theorem series_conversion_branch_unreachable (series : GoString) (checkDate : Time)
    (hm : MatchString passportSeriesRegexp series = true) :
    (∃ c d : Byte,
      sliceFrom series ((series.length : Int) - 2) = Except.ok [c, d] ∧
      (0x30 ≤ c.val ∧ c.val ≤ 0x39) ∧ (0x30 ≤ d.val ∧ d.val ≤ 0x39) ∧
      ∃ n : Int, Atoi [c, d] = some n ∧ 0 ≤ n ∧ n ≤ 99) ∧
    IsPassportSeriesValid series checkDate ≠
      Except.ok (some ErrInvalidPassportSeriesNot4Digits) ∧
    (IsPassportSeriesValid series checkDate = Except.ok none ∨
      IsPassportSeriesValid series checkDate = Except.ok (some ErrInvalidPassportSeries)) := by
  have h4 : asciiDigits 4 series := (MatchString_rep_digit 4 series).1 hm
  have hres : IsPassportSeriesValid series checkDate = Except.ok none ∨
      IsPassportSeriesValid series checkDate = Except.ok (some ErrInvalidPassportSeries) := by
    rw [series_four_digits_eval series h4 checkDate]
    split_ifs <;> first | exact Or.inr rfl | exact Or.inl rfl
  refine ⟨?_, ?_, hres⟩
  · obtain ⟨a, b, c, d, rfl, -, -, hc, hd⟩ := asciiDigits_four series h4
    refine ⟨c, d, by simp [sliceFrom], hc, hd, _, Atoi_two_digits c d hc hd, ?_, ?_⟩ <;> omega
  · rcases hres with h | h <;> rw [h] <;> decide

/-- C22, at the series "4617" of the package's tests and the check date
2024-02-27: the slice is "17", `strconv.Atoi` gives a value in 0..99, and the
result is nil or ErrInvalidPassportSeries. -/
theorem series_conversion_branch_unreachable_witness :
    (∃ c d : Byte,
      sliceFrom (str "4617") (((str "4617").length : Int) - 2) = Except.ok [c, d] ∧
      (0x30 ≤ c.val ∧ c.val ≤ 0x39) ∧ (0x30 ≤ d.val ∧ d.val ≤ 0x39) ∧
      ∃ n : Int, Atoi [c, d] = some n ∧ 0 ≤ n ∧ n ≤ 99) ∧
    IsPassportSeriesValid (str "4617") (dateUTC 2024 2 27) ≠
      Except.ok (some ErrInvalidPassportSeriesNot4Digits) ∧
    (IsPassportSeriesValid (str "4617") (dateUTC 2024 2 27) = Except.ok none ∨
      IsPassportSeriesValid (str "4617") (dateUTC 2024 2 27) =
        Except.ok (some ErrInvalidPassportSeries)) :=
  series_conversion_branch_unreachable (str "4617") (dateUTC 2024 2 27) (by decide)

end PassportValidator
